import Mathlib

/-!
Verification of the Excel_Lite spreadsheet formula engine.

This file gives a shallow embedding of the engine's core (A1-notation
utilities, tokenizer, recursive-descent parser, AST renderer and fill
adjuster, evaluator, and dependency graph) and proves or refutes the
frozen specification claims about it.

Modelling conventions:
* JS numbers are modelled as exact rationals (ℚ).  The engine performs
  only +, -, *, / and pow on them; no claim under consideration depends
  on floating-point rounding.  Math.pow is modelled exactly on integer
  exponents and collapsed to 0 on non-integer exponents (no claim
  evaluates pow).
* JS Set objects are modelled as insertion-ordered duplicate-free lists;
  JS Map objects as insertion-ordered association lists.
* Token/error source positions are used by the engine only to build
  error message strings; they are omitted from the model.
* Thrown exceptions are modelled with Except; NaN degree values in the
  topological sort are modelled as Option.none.
-/

set_option linter.unusedTactic false
set_option linter.unnecessarySeqFocus false
set_option linter.unusedVariables false

namespace ExcelLite

/-- JS `Set.add`: append iff not already present (keeps insertion order). -/
def SAdd (l : List String) (x : String) : List String :=
  if x ∈ l then l else l ++ [x]

/-- JS `Set.delete`: remove the element, keeping the order of the rest. -/
def SDel (l : List String) (x : String) : List String :=
  l.filter (fun y => y ≠ x)

/-- `new Set(list)`: deduplicate keeping first occurrences. -/
def jsDedup (l : List String) : List String :=
  l.foldl SAdd []

/-- The character class of JS `\s` (ASCII part; the engine only sees
ASCII whitespace in formulas). -/
def jsWhitespace (c : Char) : Bool :=
  c = ' ' || c = '\t' || c = '\n' || c = '\x0d' || c = '\x0b' || c = '\x0c'

/-- JS `String.prototype.trim` on a character list. -/
def trimChars (cs : List Char) : List Char :=
  ((cs.dropWhile jsWhitespace).reverse.dropWhile jsWhitespace).reverse

/-- JS `String.prototype.trim`. -/
def jsTrim (s : String) : String := String.mk (trimChars s.data)

/-- Numeric value of a digit string (most significant first). -/
def digitsVal (ds : List Char) : ℕ :=
  ds.foldl (fun acc c => acc * 10 + (c.toNat - 48)) 0

/-- Model of JS `parseFloat`: skip leading whitespace, optional sign,
digits, optional fractional part, optional exponent; `none` models NaN
(no digit found).  `Infinity` literals are not modelled (never produced
by the engine). -/
def jsParseFloat (s : String) : Option ℚ :=
  let cs := s.data.dropWhile jsWhitespace
  let (sign, cs) : ℚ × List Char :=
    match cs with
    | '+' :: t => (1, t)
    | '-' :: t => (-1, t)
    | _ => (1, cs)
  let ip := cs.takeWhile Char.isDigit
  let cs := cs.dropWhile Char.isDigit
  let (fp, cs) : List Char × List Char :=
    match cs with
    | '.' :: t => (t.takeWhile Char.isDigit, t.dropWhile Char.isDigit)
    | _ => ([], cs)
  if ip = [] ∧ fp = [] then none
  else
    let mant : ℚ := (digitsVal ip : ℚ) + (digitsVal fp : ℚ) / ((10 : ℚ) ^ fp.length)
    let q : ℚ :=
      match cs with
      | e :: rest =>
        if e = 'e' ∨ e = 'E' then
          let (es, rest') : ℤ × List Char :=
            match rest with
            | '+' :: t => (1, t)
            | '-' :: t => (-1, t)
            | _ => (1, rest)
          let ed := rest'.takeWhile Char.isDigit
          if ed = [] then mant else mant * (10 : ℚ) ^ (es * (digitsVal ed : ℤ))
        else mant
      | [] => mant
    some (sign * q)

/-- Fractional decimal digits of `num/den` (numerator already reduced to
the remainder), at most `fuel` digits (JS doubles print at most 17
significant digits; the engine only ever prints finite decimals). -/
def fracDigits : ℕ → ℕ → ℕ → List Char
  | 0, _, _ => []
  | _ + 1, _, 0 => []  -- unreachable (den ≠ 0), defensive
  | fuel + 1, rem, den =>
    if rem = 0 then []
    else
      let d := rem * 10 / den
      Char.ofNat (48 + d % 10) :: fracDigits fuel (rem * 10 % den) den

/-- Model of JS `Number.prototype.toString` on the rationals the engine
produces: sign, integer part, and (for non-integers) a decimal point
followed by the fraction digits.  Exact for all finite decimals, which
is every number the engine renders. -/
def numToString (q : ℚ) : String :=
  let n := q.num.natAbs
  let den := q.den
  let ip := Nat.repr (n / den)
  let rem := n % den
  let body := if rem = 0 then ip else ip ++ "." ++ String.mk (fracDigits 17 rem den)
  if q.num < 0 then "-" ++ body else body

/-! ## A1 notation utilities (src: lib/a1.ts) -/

/-- Loop body of `colToLetter`, recursion on `num` (strictly decreasing,
realised structurally via the value itself as fuel). -/
def colLetterAux : ℕ → ℕ → String
  | 0, _ => ""
  | _ + 1, 0 => ""
  | fuel + 1, num =>
    colLetterAux fuel ((num - 1) / 26) ++ String.mk [Char.ofNat (65 + (num - 1) % 26)]

/-- Convert column index (0-based) to column letter(s); `colToLetter`. -/
def colToLetter (col : ℤ) : String :=
  if col + 1 ≤ 0 then "" else colLetterAux (col + 1).toNat (col + 1).toNat

/-- Convert column letter(s) to 0-based index; `letterToCol`. -/
def letterToCol (letters : String) : ℤ :=
  (letters.data.foldl (fun acc c => acc * 26 + (c.toUpper.toNat - 64 : ℤ)) 0) - 1

/-- Cell address, 0-based (`CellAddress`). -/
structure CellAddress where
  col : ℤ
  row : ℤ
deriving DecidableEq, Repr

/-- Parsed cell reference with absolute markers (`CellRef`). -/
structure CellRefS where
  col : ℤ
  row : ℤ
  absCol : Bool
  absRow : Bool
deriving DecidableEq, Repr

/-- Split a leading run of ASCII letters. -/
def spanAlpha (cs : List Char) : List Char × List Char :=
  (cs.takeWhile Char.isAlpha, cs.dropWhile Char.isAlpha)

/-- Split a leading run of ASCII digits. -/
def spanDigit (cs : List Char) : List Char × List Char :=
  (cs.takeWhile Char.isDigit, cs.dropWhile Char.isDigit)

/-- `addressToA1`: address to A1 text. -/
def addressToA1 (addr : CellAddress) : String :=
  colToLetter addr.col ++ Int.repr (addr.row + 1)

/-- `a1ToAddress`: anchored match of `^([A-Z]+)(\d+)$` (case-insensitive),
`none` on failure. -/
def a1ToAddress (a1 : String) : Option CellAddress :=
  let (ls, rest) := spanAlpha a1.data
  let (ds, rest') := spanDigit rest
  if ls = [] ∨ ds = [] ∨ rest' ≠ [] then none
  else
    let col := letterToCol (String.mk ls)
    let row : ℤ := (digitsVal ds : ℤ) - 1
    if row < 0 ∨ col < 0 then none else some ⟨col, row⟩

/-- Take an optional leading `$`. -/
def takeDollar (cs : List Char) : Bool × List Char :=
  match cs with
  | '$' :: t => (true, t)
  | _ => (false, cs)

/-- `parseCellRef`: anchored match of `^(\$?)([A-Z]+)(\$?)(\d+)$`
(case-insensitive). -/
def parseCellRef (ref : String) : Option CellRefS :=
  let (absCol, cs) := takeDollar ref.data
  let (ls, cs) := spanAlpha cs
  let (absRow, cs) := takeDollar cs
  let (ds, cs) := spanDigit cs
  if ls = [] ∨ ds = [] ∨ cs ≠ [] then none
  else
    let col := letterToCol (String.mk ls)
    let row : ℤ := (digitsVal ds : ℤ) - 1
    if row < 0 ∨ col < 0 then none else some ⟨col, row, absCol, absRow⟩

/-- `cellRefToA1`: re-render a parsed reference with its `$` markers. -/
def cellRefToA1 (ref : CellRefS) : String :=
  (if ref.absCol then "$" else "") ++ colToLetter ref.col ++
    (if ref.absRow then "$" else "") ++ Int.repr (ref.row + 1)

/-- `adjustRefForFill`: shift the relative components of a reference. -/
def adjustRefForFill (ref : CellRefS) (deltaRow deltaCol : ℤ) : CellRefS :=
  { col := if ref.absCol then ref.col else ref.col + deltaCol
    row := if ref.absRow then ref.row else ref.row + deltaRow
    absCol := ref.absCol
    absRow := ref.absRow }

/-- Strip every `$` from a reference string (`ref.replace(/\$/g, '')`). -/
def stripDollars (s : String) : String :=
  String.mk (s.data.filter (fun c => c ≠ '$'))

/-! ## Tokens and AST (src: types/sheet.ts) -/

/-- Token kinds (`TokenType`). -/
inductive TokenType where
  | NUMBER | STRING | OPERATOR | LPAREN | RPAREN | COMMA | COLON
  | CELL_REF | IDENTIFIER | EOF
deriving DecidableEq, Repr

/-- A token; the source position (used only in error messages) is
omitted from the model. -/
structure Token where
  type : TokenType
  value : String
deriving DecidableEq, Repr

/-- Formula AST (`ASTNode`); the TS type is a single record with a type
tag and optional fields, modelled as an inductive with one constructor
per tag. -/
inductive ASTNode where
  | NumberN (value : ℚ)
  | StringN (value : String)
  | CellRef (cellRef : String)
  | RangeRef (startRef endRef : String)
  | BinaryOp (operator : String) (left right : ASTNode)
  | UnaryOp (operator : String) (operand : ASTNode)
  | FunctionCall (name : String) (args : List ASTNode)
deriving Repr

/-- Identifier characters: `[A-Za-z0-9_]`. -/
def identChar (c : Char) : Bool :=
  c.isAlpha || c.isDigit || c = '_'

/-! ## Tokenizer (src: lib/parser.ts, class Tokenizer) -/

/-- `readNumber`'s scan loop over digits with at most one decimal point;
returns (consumed, rest). -/
def numTail : List Char → Bool → List Char × List Char
  | [], _ => ([], [])
  | c :: cs, hasDecimal =>
    if c.isDigit then
      let (t, r) := numTail cs hasDecimal
      (c :: t, r)
    else if c = '.' ∧ ¬hasDecimal then
      let (t, r) := numTail cs true
      (c :: t, r)
    else ([], c :: cs)

/-- `readNumber`: optional leading `-`, then digits with one `.`. -/
def readNumber (cs : List Char) : List Char × List Char :=
  match cs with
  | '-' :: rest =>
    let (t, r) := numTail rest false
    ('-' :: t, r)
  | _ => numTail cs false

/-- `readString`'s scan up to the closing quote (opening quote already
consumed); `none` models the unterminated-string throw. -/
def strTail : List Char → Option (List Char × List Char)
  | [] => none
  | c :: cs =>
    if c = '"' then some ([], cs)
    else (strTail cs).map (fun p => (c :: p.1, p.2))

/-- The tokenizer's cell-reference regex `^(\$?)([A-Za-z]+)(\$?)(\d+)`
as an (equivalent, backtracking-free) prefix matcher; returns the
matched text and the rest. -/
def cellRefMatch (cs : List Char) : Option (List Char × List Char) :=
  let (d1, cs1) := takeDollar cs
  let (ls, cs2) := spanAlpha cs1
  if ls = [] then none
  else
    let (d2, cs3) := takeDollar cs2
    let (ds, cs4) := spanDigit cs3
    if ds = [] then none
    else some ((if d1 then ['$'] else []) ++ ls ++ (if d2 then ['$'] else []) ++ ds, cs4)

/-- One-character lookahead used by the number rule (`peek()`), with
the out-of-range fallback `''` (not a digit). -/
def peekDigit : List Char → Bool
  | c :: _ => c.isDigit
  | [] => false

/-- The tokenizer's main scan loop (`tokenize`).  Fuel makes the model
total: the source loops forever when `readIdentifierOrCellRef` matches
an empty identifier (e.g. on a lone `$`), which here surfaces as the
fuel-exhaustion error; on every input the source terminates on, the
fuel `cs.length + 1` used by `tokenizeChars` is sufficient. -/
def tokenizeAux : ℕ → List Char → Except String (List Token)
  | 0, _ => .error "tokenizer made no progress"
  | _ + 1, [] => .ok [⟨.EOF, ""⟩]
  | fuel + 1, c :: cs =>
    if jsWhitespace c then tokenizeAux fuel cs
    else if c.isDigit ∨ (c = '-' ∧ peekDigit cs) then
      let (t, r) := readNumber (c :: cs)
      (tokenizeAux fuel r).map (fun ts => ⟨.NUMBER, String.mk t⟩ :: ts)
    else if c = '"' then
      match strTail cs with
      | none => .error "Unterminated string"
      | some (v, r) => (tokenizeAux fuel r).map (fun ts => ⟨.STRING, String.mk v⟩ :: ts)
    else if c = '+' ∨ c = '-' ∨ c = '*' ∨ c = '/' ∨ c = '^' then
      (tokenizeAux fuel cs).map (fun ts => ⟨.OPERATOR, String.mk [c]⟩ :: ts)
    else if c = '(' then
      (tokenizeAux fuel cs).map (fun ts => ⟨.LPAREN, "("⟩ :: ts)
    else if c = ')' then
      (tokenizeAux fuel cs).map (fun ts => ⟨.RPAREN, ")"⟩ :: ts)
    else if c = ',' then
      (tokenizeAux fuel cs).map (fun ts => ⟨.COMMA, ","⟩ :: ts)
    else if c = ':' then
      (tokenizeAux fuel cs).map (fun ts => ⟨.COLON, ":"⟩ :: ts)
    else if c = '$' ∨ c.isAlpha then
      match cellRefMatch (c :: cs) with
      | some (v, r) => (tokenizeAux fuel r).map (fun ts => ⟨.CELL_REF, String.mk v⟩ :: ts)
      | none =>
        let v := (c :: cs).takeWhile identChar
        let r := (c :: cs).dropWhile identChar
        (tokenizeAux fuel r).map (fun ts => ⟨.IDENTIFIER, String.mk v⟩ :: ts)
    else .error ("Unexpected character: " ++ String.mk [c])

/-- Tokenize a character list (fuel instantiated sufficiently). -/
def tokenizeChars (cs : List Char) : Except String (List Token) :=
  tokenizeAux (cs.length + 1) cs

/-- `new Tokenizer(input).tokenize()`: the constructor trims the input. -/
def tokenize (s : String) : Except String (List Token) :=
  tokenizeChars (trimChars s.data)

/-! ### Decidable equality for the nested AST type

`ASTNode` nests `List ASTNode`, so `DecidableEq` cannot be derived;
a structural boolean comparison is defined and proved sound. -/

mutual

/-- Boolean equality on ASTs. -/
def ASTNode.beq : ASTNode → ASTNode → Bool
  | .NumberN x, .NumberN y => decide (x = y)
  | .StringN x, .StringN y => decide (x = y)
  | .CellRef x, .CellRef y => decide (x = y)
  | .RangeRef x y, .RangeRef z w => decide (x = z) && decide (y = w)
  | .BinaryOp o1 l1 r1, .BinaryOp o2 l2 r2 =>
    decide (o1 = o2) && ASTNode.beq l1 l2 && ASTNode.beq r1 r2
  | .UnaryOp o1 x1, .UnaryOp o2 x2 => decide (o1 = o2) && ASTNode.beq x1 x2
  | .FunctionCall n1 a1, .FunctionCall n2 a2 => decide (n1 = n2) && ASTNode.beqList a1 a2
  | _, _ => false
termination_by structural a => a

/-- Boolean equality on AST lists. -/
def ASTNode.beqList : List ASTNode → List ASTNode → Bool
  | [], [] => true
  | x :: xs, y :: ys => ASTNode.beq x y && ASTNode.beqList xs ys
  | _, _ => false
termination_by structural l => l

end

theorem ASTNode.beq_spec :
    ∀ n : ℕ,
      (∀ a : ASTNode, sizeOf a ≤ n → ∀ b, (ASTNode.beq a b = true ↔ a = b)) ∧
      (∀ l : List ASTNode, sizeOf l ≤ n → ∀ m, (ASTNode.beqList l m = true ↔ l = m)) := by
  intro n
  induction n using Nat.strong_induction_on with
  | _ n ih =>
    constructor
    · intro a ha b
      match a, b with
      | .NumberN x, .NumberN y => simp [ASTNode.beq]
      | .StringN x, .StringN y => simp [ASTNode.beq]
      | .CellRef x, .CellRef y => simp [ASTNode.beq]
      | .RangeRef x y, .RangeRef z w => simp [ASTNode.beq]
      | .BinaryOp o1 l1 r1, .BinaryOp o2 l2 r2 =>
        have hn : n - 1 < n := by
          have : 1 ≤ sizeOf (ASTNode.BinaryOp o1 l1 r1) := by
            simp only [ASTNode.BinaryOp.sizeOf_spec]; omega
          omega
        have h1 := (ih (n - 1) hn).1 l1 (by simp only [ASTNode.BinaryOp.sizeOf_spec] at ha; omega)
        have h2 := (ih (n - 1) hn).1 r1 (by simp only [ASTNode.BinaryOp.sizeOf_spec] at ha; omega)
        simp [ASTNode.beq, h1, h2, and_assoc]
      | .UnaryOp o1 x1, .UnaryOp o2 x2 =>
        have hn : n - 1 < n := by
          have : 1 ≤ sizeOf (ASTNode.UnaryOp o1 x1) := by
            simp only [ASTNode.UnaryOp.sizeOf_spec]; omega
          omega
        have h1 := (ih (n - 1) hn).1 x1 (by simp only [ASTNode.UnaryOp.sizeOf_spec] at ha; omega)
        simp [ASTNode.beq, h1]
      | .FunctionCall n1 a1, .FunctionCall n2 a2 =>
        have hn : n - 1 < n := by
          have : 1 ≤ sizeOf (ASTNode.FunctionCall n1 a1) := by
            simp only [ASTNode.FunctionCall.sizeOf_spec]; omega
          omega
        have h1 := (ih (n - 1) hn).2 a1
          (by simp only [ASTNode.FunctionCall.sizeOf_spec] at ha; omega)
        simp [ASTNode.beq, h1 a2]
      | .NumberN _, .StringN _ | .NumberN _, .CellRef _ | .NumberN _, .RangeRef _ _
      | .NumberN _, .BinaryOp _ _ _ | .NumberN _, .UnaryOp _ _ | .NumberN _, .FunctionCall _ _
      | .StringN _, .NumberN _ | .StringN _, .CellRef _ | .StringN _, .RangeRef _ _
      | .StringN _, .BinaryOp _ _ _ | .StringN _, .UnaryOp _ _ | .StringN _, .FunctionCall _ _
      | .CellRef _, .NumberN _ | .CellRef _, .StringN _ | .CellRef _, .RangeRef _ _
      | .CellRef _, .BinaryOp _ _ _ | .CellRef _, .UnaryOp _ _ | .CellRef _, .FunctionCall _ _
      | .RangeRef _ _, .NumberN _ | .RangeRef _ _, .StringN _ | .RangeRef _ _, .CellRef _
      | .RangeRef _ _, .BinaryOp _ _ _ | .RangeRef _ _, .UnaryOp _ _
      | .RangeRef _ _, .FunctionCall _ _
      | .BinaryOp _ _ _, .NumberN _ | .BinaryOp _ _ _, .StringN _ | .BinaryOp _ _ _, .CellRef _
      | .BinaryOp _ _ _, .RangeRef _ _ | .BinaryOp _ _ _, .UnaryOp _ _
      | .BinaryOp _ _ _, .FunctionCall _ _
      | .UnaryOp _ _, .NumberN _ | .UnaryOp _ _, .StringN _ | .UnaryOp _ _, .CellRef _
      | .UnaryOp _ _, .RangeRef _ _ | .UnaryOp _ _, .BinaryOp _ _ _
      | .UnaryOp _ _, .FunctionCall _ _
      | .FunctionCall _ _, .NumberN _ | .FunctionCall _ _, .StringN _
      | .FunctionCall _ _, .CellRef _ | .FunctionCall _ _, .RangeRef _ _
      | .FunctionCall _ _, .BinaryOp _ _ _ | .FunctionCall _ _, .UnaryOp _ _ =>
        simp [ASTNode.beq]
    · intro l hl m
      match l, m with
      | [], [] => simp [ASTNode.beqList]
      | [], _ :: _ => simp [ASTNode.beqList]
      | _ :: _, [] => simp [ASTNode.beqList]
      | x :: xs, y :: ys =>
        have hn : n - 1 < n := by
          have : 1 ≤ sizeOf (x :: xs) := by simp; omega
          omega
        have h1 := (ih (n - 1) hn).1 x (by simp at hl; omega)
        have h2 := (ih (n - 1) hn).2 xs (by simp at hl; omega)
        simp [ASTNode.beqList, h1, h2]

instance : DecidableEq ASTNode := fun a b =>
  decidable_of_iff _ ((ASTNode.beq_spec (sizeOf a)).1 a (le_refl _) b)


instance {ε α : Type} [DecidableEq ε] [DecidableEq α] : DecidableEq (Except ε α) := fun a b =>
  match a, b with
  | .ok x, .ok y => if h : x = y then .isTrue (by rw [h]) else .isFalse (by simp [h])
  | .error e, .error f => if h : e = f then .isTrue (by rw [h]) else .isFalse (by simp [h])
  | .ok _, .error _ => .isFalse (by simp)
  | .error _, .ok _ => .isFalse (by simp)

/-! ## Recursive-descent grammar (src: lib/parser.ts, class Parser) -/

/-- `current()`: head token, falling back to the stream's final token
(always EOF for tokenizer output) when the position is past the end. -/
def currentTok (ts : List Token) : Token := ts.headD ⟨.EOF, ""⟩

/-- Names of token types as they appear in thrown error messages. -/
def tokenTypeName : TokenType → String
  | .NUMBER => "NUMBER" | .STRING => "STRING" | .OPERATOR => "OPERATOR"
  | .LPAREN => "LPAREN" | .RPAREN => "RPAREN" | .COMMA => "COMMA"
  | .COLON => "COLON" | .CELL_REF => "CELL_REF" | .IDENTIFIER => "IDENTIFIER"
  | .EOF => "EOF"

/-- `consume(expected)`: return the head token if it has the expected
type, else throw. -/
def consumeTok (expected : TokenType) :
    List Token → Except String (Token × List Token)
  | t :: rest =>
    if t.type = expected then .ok (t, rest)
    else .error ("Expected " ++ tokenTypeName expected ++ ", got " ++ tokenTypeName t.type)
  | [] => .error ("Expected " ++ tokenTypeName expected ++ ", got EOF")

/-- JS `toUpperCase` (ASCII). -/
def jsToUpper (s : String) : String := String.mk (s.data.map Char.toUpper)

/-- `parseFloat(token.value)` for NUMBER tokens; the NaN case (collapsed
to 0 here) is unreachable, since tokenizer NUMBER tokens always contain
a digit. -/
def jsParseFloatD (s : String) : ℚ := (jsParseFloat s).getD 0

/-!
The parser functions recurse with a shared fuel counter, giving a
structural (hence kernel-evaluable) model.  Every recursive call of the
source parser strictly decreases the measure `8 * tokens.length + idx`
(`idx` fixed per function), so fuel above that measure is never
exhausted; the entry point `parseTokens` supplies such fuel, and every
lemma about these functions carries the same sufficiency bound.
-/

mutual

/-- `parseExpression`: term (('+'|'-') term)*, left-associative.
Fuel bound: 8·len+6. -/
def parseExpressionF : ℕ → List Token → Except String (ASTNode × List Token)
  | 0, _ => .error "parser out of fuel"
  | fuel + 1, ts =>
    match parseTermF fuel ts with
    | .error e => .error e
    | .ok (a, ts1) => parseExprLoopF fuel a ts1

/-- The while-loop of `parseExpression`.  Fuel bound: 8·len+5. -/
def parseExprLoopF : ℕ → ASTNode → List Token → Except String (ASTNode × List Token)
  | 0, _, _ => .error "parser out of fuel"
  | fuel + 1, left, ts =>
    match ts with
    | t :: rest =>
      if t.type = .OPERATOR ∧ (t.value = "+" ∨ t.value = "-") then
        match parseTermF fuel rest with
        | .error e => .error e
        | .ok (right, ts1) => parseExprLoopF fuel (.BinaryOp t.value left right) ts1
      else .ok (left, t :: rest)
    | [] => .ok (left, [])

/-- `parseTerm`: factor (('*'|'/') factor)*, left-associative.
Fuel bound: 8·len+4. -/
def parseTermF : ℕ → List Token → Except String (ASTNode × List Token)
  | 0, _ => .error "parser out of fuel"
  | fuel + 1, ts =>
    match parseFactorF fuel ts with
    | .error e => .error e
    | .ok (a, ts1) => parseTermLoopF fuel a ts1

/-- The while-loop of `parseTerm`.  Fuel bound: 8·len+3. -/
def parseTermLoopF : ℕ → ASTNode → List Token → Except String (ASTNode × List Token)
  | 0, _, _ => .error "parser out of fuel"
  | fuel + 1, left, ts =>
    match ts with
    | t :: rest =>
      if t.type = .OPERATOR ∧ (t.value = "*" ∨ t.value = "/") then
        match parseFactorF fuel rest with
        | .error e => .error e
        | .ok (right, ts1) => parseTermLoopF fuel (.BinaryOp t.value left right) ts1
      else .ok (left, t :: rest)
    | [] => .ok (left, [])

/-- `parseFactor`: power ('^' factor)?, right-associative.
Fuel bound: 8·len+2. -/
def parseFactorF : ℕ → List Token → Except String (ASTNode × List Token)
  | 0, _ => .error "parser out of fuel"
  | fuel + 1, ts =>
    match parsePowerF fuel ts with
    | .error e => .error e
    | .ok (left, ts1) =>
      match ts1 with
      | t :: rest =>
        if t.type = .OPERATOR ∧ t.value = "^" then
          match parseFactorF fuel rest with
          | .error e => .error e
          | .ok (right, ts2) => .ok (.BinaryOp "^" left right, ts2)
        else .ok (left, t :: rest)
      | [] => .ok (left, [])

/-- `parsePower`: just primary.  Fuel bound: 8·len+1. -/
def parsePowerF : ℕ → List Token → Except String (ASTNode × List Token)
  | 0, _ => .error "parser out of fuel"
  | fuel + 1, ts => parsePrimaryF fuel ts

/-- `parsePrimary`: NUMBER | STRING | '(' expression ')' | cell ref or
range | function call.  Fuel bound: 8·len. -/
def parsePrimaryF : ℕ → List Token → Except String (ASTNode × List Token)
  | 0, _ => .error "parser out of fuel"
  | fuel + 1, ts =>
    match ts with
    | t :: rest =>
      if t.type = .NUMBER then .ok (.NumberN (jsParseFloatD t.value), rest)
      else if t.type = .STRING then .ok (.StringN t.value, rest)
      else if t.type = .LPAREN then
        match parseExpressionF fuel rest with
        | .error e => .error e
        | .ok (expr, ts1) =>
          match consumeTok .RPAREN ts1 with
          | .error e => .error e
          | .ok (_, ts2) => .ok (expr, ts2)
      else if t.type = .CELL_REF then
        match rest with
        | t2 :: rest2 =>
          if t2.type = .COLON then
            match consumeTok .CELL_REF rest2 with
            | .error e => .error e
            | .ok (endTok, ts1) => .ok (.RangeRef t.value endTok.value, ts1)
          else .ok (.CellRef t.value, t2 :: rest2)
        | [] => .ok (.CellRef t.value, [])
      else if t.type = .IDENTIFIER then
        match rest with
        | l :: rest2 =>
          if l.type = .LPAREN then
            match parseFnArgsF fuel rest2 with
            | .error e => .error e
            | .ok (args, ts1) =>
              match consumeTok .RPAREN ts1 with
              | .error e => .error e
              | .ok (_, ts2) => .ok (.FunctionCall (jsToUpper t.value) args, ts2)
          else .error ("Unexpected identifier: " ++ t.value)
        | [] => .error ("Unexpected identifier: " ++ t.value)
      else .error ("Unexpected token: " ++ t.value)
    | [] => .error ("Unexpected token: ")

/-- The argument list of a function call (between the parentheses):
empty if the next token closes immediately, else one expression
followed by the comma loop.  Fuel bound: 8·len+7. -/
def parseFnArgsF : ℕ → List Token → Except String (List ASTNode × List Token)
  | 0, _ => .error "parser out of fuel"
  | fuel + 1, ts =>
    if (currentTok ts).type = .RPAREN then .ok ([], ts)
    else
      match parseExpressionF fuel ts with
      | .error e => .error e
      | .ok (a, ts1) => parseArgsLoopF fuel [a] ts1

/-- The while-COMMA loop of function-call argument parsing.
Fuel bound: 8·len+7. -/
def parseArgsLoopF : ℕ → List ASTNode → List Token → Except String (List ASTNode × List Token)
  | 0, _, _ => .error "parser out of fuel"
  | fuel + 1, args, ts =>
    match ts with
    | t :: rest =>
      if t.type = .COMMA then
        match parseExpressionF fuel rest with
        | .error e => .error e
        | .ok (a, ts1) => parseArgsLoopF fuel (args ++ [a]) ts1
      else .ok (args, t :: rest)
    | [] => .ok (args, [])

end

/-- `parse()`: a full expression followed by EOF.  The fuel strictly
dominates the parser's call-depth measure, so it is never exhausted. -/
def parseTokens (ts : List Token) : Except String ASTNode :=
  match parseExpressionF (8 * ts.length + 16) ts with
  | .error e => .error e
  | .ok (a, rest) =>
    if (currentTok rest).type ≠ .EOF then
      .error ("Unexpected token: " ++ (currentTok rest).value)
    else .ok a

/-- `parseFormula`: trim, strip one leading `=`, tokenize (which trims
again), parse. -/
def parseFormula (formula : String) : Except String ASTNode :=
  let tc := trimChars formula.data
  let clean := match tc with
    | '=' :: r => r
    | _ => tc
  match tokenizeChars (trimChars clean) with
  | .error e => .error e
  | .ok ts => parseTokens ts


/-! ## AST renderer and fill adjuster (src: lib/fill.ts) -/

/-- `needsParentheses`: parenthesize an operand iff it is a binary
operation of strictly lower precedence than the parent operator
(`^`=3, `*`/`/`=2, `+`/`-`=1, anything else 0). -/
def opPrecedence (op : String) : ℕ :=
  if op = "^" then 3
  else if op = "*" ∨ op = "/" then 2
  else if op = "+" ∨ op = "-" then 1
  else 0

/-- `needsParentheses(operand, parentOp)`. -/
def needsParentheses (operand : ASTNode) (parentOp : String) : Bool :=
  match operand with
  | .BinaryOp op _ _ => opPrecedence op < opPrecedence parentOp
  | _ => false

mutual

/-- `astToString`: render an AST back to formula text. -/
def astToString : ASTNode → String
  | .NumberN v => numToString v
  | .StringN v => "\"" ++ v ++ "\""
  | .CellRef r => r
  | .RangeRef s e => s ++ ":" ++ e
  | .BinaryOp op l r =>
    let ls := astToString l
    let rs := astToString r
    let leftStr := if needsParentheses l op then "(" ++ ls ++ ")" else ls
    let rightStr := if needsParentheses r op then "(" ++ rs ++ ")" else rs
    leftStr ++ op ++ rightStr
  | .UnaryOp op x => op ++ astToString x
  | .FunctionCall name args => name ++ "(" ++ argsToString args ++ ")"

/-- `args.map(astToString).join(',')`. -/
def argsToString : List ASTNode → String
  | [] => ""
  | [a] => astToString a
  | a :: rest => astToString a ++ "," ++ argsToString rest

end

mutual

/-- `adjustASTReferences`: shift every cell reference in the AST. -/
def adjustASTReferences (node : ASTNode) (deltaRow deltaCol : ℤ) : ASTNode :=
  match node with
  | .CellRef r =>
    match parseCellRef r with
    | none => .CellRef r
    | some ref => .CellRef (cellRefToA1 (adjustRefForFill ref deltaRow deltaCol))
  | .RangeRef s e =>
    match parseCellRef s, parseCellRef e with
    | some sr, some er =>
      .RangeRef (cellRefToA1 (adjustRefForFill sr deltaRow deltaCol))
        (cellRefToA1 (adjustRefForFill er deltaRow deltaCol))
    | _, _ => .RangeRef s e
  | .BinaryOp op l r =>
    .BinaryOp op (adjustASTReferences l deltaRow deltaCol) (adjustASTReferences r deltaRow deltaCol)
  | .UnaryOp op x => .UnaryOp op (adjustASTReferences x deltaRow deltaCol)
  | .FunctionCall name args => .FunctionCall name (adjustArgsReferences args deltaRow deltaCol)
  | n => n

/-- `args.map(adjustASTReferences)`. -/
def adjustArgsReferences (args : List ASTNode) (deltaRow deltaCol : ℤ) : List ASTNode :=
  match args with
  | [] => []
  | a :: rest => adjustASTReferences a deltaRow deltaCol :: adjustArgsReferences rest deltaRow deltaCol

end

/-- `adjustFormulaForFill`: parse, shift, re-render with a leading `=`;
on any parse failure return the original formula unchanged. -/
def adjustFormulaForFill (formula : String) (deltaRow deltaCol : ℤ) : String :=
  match parseFormula formula with
  | .error _ => formula
  | .ok ast => "=" ++ astToString (adjustASTReferences ast deltaRow deltaCol)

/-! ## Evaluator (src: lib/evaluator.ts) -/

/-- Values flowing through `evaluate`: JS `number | string | array`
(arrays arise only from range expansion). -/
inductive Value where
  | num (x : ℚ)
  | str (s : String)
  | arr (vs : List Value)
deriving Repr

/-- A cell value as surfaced by the lookup callback (`CellGetter`):
number, string, or absent. -/
inductive Prim where
  | pnum (x : ℚ)
  | pstr (s : String)
deriving DecidableEq, Repr

/-- The lookup callback injected into the evaluator. -/
def CellGetter := String → Option Prim

/-- Promote a looked-up primitive to a `Value`. -/
def Prim.toValue : Prim → Value
  | .pnum x => .num x
  | .pstr s => .str s

/-- Model of `Math.pow` on rationals: exact for integer exponents; a
non-integer exponent (whose JS result is irrational in general) is
collapsed to 0 — no claim under verification evaluates `^`. -/
def jsPow (a b : ℚ) : ℚ :=
  if b.den = 1 then
    if 0 ≤ b.num then a ^ b.num.toNat else (a ^ (-b.num).toNat)⁻¹
  else 0

/-- `toNumber`: numbers pass through, strings parse via `parseFloat`
(throwing `#VALUE!` on NaN), any other shape throws `#VALUE!`. -/
def toNumber : Value → Except String ℚ
  | .num x => .ok x
  | .str s =>
    match jsParseFloat s with
    | none => .error "#VALUE!"
    | some x => .ok x
  | .arr _ => .error "#VALUE!"

/-- `tryToNumber`: like `toNumber` but returning `null` (none) instead
of throwing. -/
def tryToNumber : Value → Option ℚ
  | .num x => some x
  | .str s => jsParseFloat s
  | .arr _ => none

/-- The evaluator's private `addressToRef`: single letter from
`col % 26` (this is the source's behaviour; it differs from
`colToLetter` for columns ≥ 26). -/
def addressToRef (addr : CellAddress) : String :=
  String.mk [Char.ofNat (65 + (addr.col % 26).toNat)] ++ Int.repr (addr.row + 1)

/-- `for (let row = lo; row <= hi; row++)` index list. -/
def intRange (lo hi : ℤ) : List ℤ :=
  (List.range (hi + 1 - lo).toNat).map (fun i => lo + i)

/-- The row-major cell walk of range expansion: for each cell, record
its (`addressToRef`) text in the used set and keep its present value.
State is (usedRefs, collected values). -/
def rangeWalk (get : CellGetter) (cells : List CellAddress)
    (st : List String × List Value) : List String × List Value :=
  cells.foldl
    (fun (st : List String × List Value) addr =>
      let cellRef := addressToRef addr
      let used := SAdd st.1 cellRef
      match get cellRef with
      | some v => (used, st.2 ++ [v.toValue])
      | none => (used, st.2))
    st

mutual

/-- `Evaluator.evaluate`: structural walk; the mutable `usedRefs` set is
threaded explicitly and is returned also when an error is thrown
(modelling a field that survives the exception). -/
def evaluate (get : CellGetter) (node : ASTNode) (used : List String) :
    Except String Value × List String :=
  match node with
  | .NumberN v => (.ok (.num v), used)
  | .StringN v => (.ok (.str v), used)
  | .CellRef ref =>
    let used := SAdd used ref
    match get ref with
    | none => (.ok (.num 0), used)  -- Empty cell
    | some v => (.ok v.toValue, used)
  | .RangeRef s e =>
    let used := SAdd (SAdd used s) e
    match a1ToAddress (stripDollars s), a1ToAddress (stripDollars e) with
    | some startAddr, some endAddr =>
      let minRow := min startAddr.row endAddr.row
      let maxRow := max startAddr.row endAddr.row
      let minCol := min startAddr.col endAddr.col
      let maxCol := max startAddr.col endAddr.col
      let cells := (intRange minRow maxRow).flatMap
        (fun row => (intRange minCol maxCol).map (fun col => (⟨col, row⟩ : CellAddress)))
      let (used, values) := rangeWalk get cells (used, [])
      (.ok (.arr values), used)
    | _, _ => (.error "#REF!", used)
  | .BinaryOp op l r =>
    match evaluate get l used with
    | (.error e, used) => (.error e, used)
    | (.ok left, used) =>
      match evaluate get r used with
      | (.error e, used) => (.error e, used)
      | (.ok right, used) =>
        match toNumber left with
        | .error e => (.error e, used)
        | .ok leftNum =>
          match toNumber right with
          | .error e => (.error e, used)
          | .ok rightNum =>
            if op = "+" then (.ok (.num (leftNum + rightNum)), used)
            else if op = "-" then (.ok (.num (leftNum - rightNum)), used)
            else if op = "*" then (.ok (.num (leftNum * rightNum)), used)
            else if op = "/" then
              if rightNum = 0 then (.error "#DIV/0!", used)
              else (.ok (.num (leftNum / rightNum)), used)
            else if op = "^" then (.ok (.num (jsPow leftNum rightNum)), used)
            else (.error ("Unknown operator: " ++ op), used)
  | .FunctionCall name args =>
    match collectNumericValues get args used with
    | (.error e, used) => (.error e, used)
    | (.ok values, used) =>
      if name = "SUM" then (.ok (.num (values.foldl (· + ·) 0)), used)
      else if name = "AVG" then
        if values.length = 0 then (.ok (.num 0), used)
        else (.ok (.num (values.foldl (· + ·) 0 / values.length)), used)
      else if name = "MIN" then
        if values.length = 0 then (.ok (.num 0), used)
        else (.ok (.num (values.foldl min (values.headD 0))), used)
      else if name = "MAX" then
        if values.length = 0 then (.ok (.num 0), used)
        else (.ok (.num (values.foldl max (values.headD 0))), used)
      else if name = "COUNT" then (.ok (.num values.length), used)
      else if name = "AVERAGE" then
        if values.length = 0 then (.ok (.num 0), used)
        else (.ok (.num (values.foldl (· + ·) 0 / values.length)), used)
      else (.error ("Unknown function: " ++ name), used)
  | .UnaryOp _ _ => (.error "Unknown node type: UnaryOp", used)

/-- `collectNumericValues`: evaluate each argument, flatten range
results, and keep only the values `tryToNumber` accepts. -/
def collectNumericValues (get : CellGetter) (args : List ASTNode) (used : List String) :
    Except String (List ℚ) × List String :=
  match args with
  | [] => (.ok [], used)
  | arg :: rest =>
    match evaluate get arg used with
    | (.error e, used) => (.error e, used)
    | (.ok result, used) =>
      let here : List ℚ :=
        match result with
        | .arr vs => vs.filterMap tryToNumber
        | v => (tryToNumber v).toList
      match collectNumericValues get rest used with
      | (.error e, used) => (.error e, used)
      | (.ok more, used) => (.ok (here ++ more), used)

end

/-- The evaluation result record (`EvalResult`). -/
structure EvalResult where
  value : Option ℚ
  text : Option String
  error : Option String
  usedRefs : List String
deriving DecidableEq, Repr

/-- `evaluateFormula`: run the evaluator, shape the top-level result,
and always return the used-reference set (also on error).  Every
failure the model can produce is an `EvalError`, so the generic
`#ERROR!` catch-all branch of the source is unreachable here. -/
def evaluateFormula (ast : ASTNode) (get : CellGetter) : EvalResult :=
  match evaluate get ast [] with
  | (.ok (.num x), used) => ⟨some x, some (numToString x), none, used⟩
  | (.ok (.str s), used) => ⟨none, some s, none, used⟩
  | (.ok (.arr _), used) => ⟨none, none, some "#VALUE!", used⟩
  | (.error e, used) => ⟨none, none, some e, used⟩

/-! ## Dependency graph (src: lib/graph.ts) -/

/-- `GraphNode`. -/
structure GraphNode where
  key : String
  dependencies : List String
  dependents : List String
deriving DecidableEq, Repr

/-- JS `Map` modelled as an insertion-ordered association list with
unique keys. -/
abbrev Graph := List (String × GraphNode)

/-- `Map.get`. -/
def alGet {α : Type} (l : List (String × α)) (k : String) : Option α :=
  (l.find? (fun p => p.1 == k)).map (fun p => p.2)

/-- `Map.set`: replace the first entry with this key in place, else
append (JS Maps keep the original insertion position on update). -/
def alSet {α : Type} : List (String × α) → String → α → List (String × α)
  | [], k, v => [(k, v)]
  | (k', v') :: rest, k, v =>
    if k' == k then (k, v) :: rest else (k', v') :: alSet rest k v

/-- `Map.delete`. -/
def alDel {α : Type} (l : List (String × α)) (k : String) : List (String × α) :=
  l.filter (fun p => !(p.1 == k))

/-- `updateCell(key, dependencies)`. -/
def updateCell (g : Graph) (key : String) (dependencies : List String) : Graph :=
  -- Remove old dependencies
  let g1 : Graph :=
    match alGet g key with
    | none => g
    | some oldNode =>
      oldNode.dependencies.foldl
        (fun g dep =>
          match alGet g dep with
          | some depNode => alSet g dep { depNode with dependents := SDel depNode.dependents key }
          | none => g)
        g
  -- Create or update node; `oldNode?.dependents` aliases the set just
  -- mutated above, so its current (post-removal) value is read back.
  let deps := jsDedup dependencies
  let node : GraphNode :=
    { key := key, dependencies := deps,
      dependents := match alGet g1 key with
        | some n => n.dependents
        | none => [] }
  let g2 := alSet g1 key node
  -- Add new dependencies
  deps.foldl
    (fun g dep =>
      match alGet g dep with
      | some depNode => alSet g dep { depNode with dependents := SAdd depNode.dependents key }
      | none => alSet g dep { key := dep, dependencies := [], dependents := [key] })
    g2

/-- `removeCell(key)`. -/
def removeCell (g : Graph) (key : String) : Graph :=
  match alGet g key with
  | none => g
  | some node =>
    -- Remove from dependents of each dependency
    let g1 := node.dependencies.foldl
      (fun g dep =>
        match alGet g dep with
        | some depNode => alSet g dep { depNode with dependents := SDel depNode.dependents key }
        | none => g)
      g
    -- Remove from dependencies of each dependent.  The iterated set is
    -- `node.dependents` as mutated by the loop above (a self-loop
    -- deletes `key` from it), so it is re-read from the updated map.
    let dependents1 : List String :=
      match alGet g1 key with
      | some n => n.dependents
      | none => []
    let g2 := dependents1.foldl
      (fun g dependent =>
        match alGet g dependent with
        | some depNode =>
          alSet g dependent { depNode with dependencies := SDel depNode.dependencies key }
        | none => g)
      g1
    alDel g2 key

/-- `clear()`. -/
def clearGraph : Graph := []

/-! ### `getAffectedCells`: breadth-first search over dependents -/

/-- Membership in a successful map lookup implies membership among the
stored keys (used for BFS termination). -/
theorem alGet_mem_keys {α : Type} {l : List (String × α)} {k : String} {v : α}
    (h : alGet l k = some v) : k ∈ l.map (fun p => p.1) := by
  induction l with
  | nil => simp [alGet] at h
  | cons p rest ih =>
    by_cases hk : (p.1 == k) = true
    · simp only [List.map_cons, List.mem_cons]
      exact Or.inl (beq_iff_eq.mp hk).symm
    · unfold alGet at h
      rw [List.find?_cons_of_neg _ (by simpa using hk)] at h
      simp only [List.map_cons, List.mem_cons]
      exact Or.inr (ih h)

theorem filter_notMem_length_le {U vis vis' : List String} (hsub : ∀ x ∈ vis, x ∈ vis') :
    (U.filter (fun y => ¬ y ∈ vis')).length ≤ (U.filter (fun y => ¬ y ∈ vis)).length := by
  induction U with
  | nil => simp
  | cons u U ih =>
    simp only [List.filter_cons]
    by_cases hu' : u ∈ vis'
    · have e1 : (decide ¬u ∈ vis') = false := by simp [hu']
      by_cases hu : u ∈ vis
      · have e2 : (decide ¬u ∈ vis) = false := by simp [hu]
        simp only [e1, e2]
        simpa using ih
      · have e2 : (decide ¬u ∈ vis) = true := by simp [hu]
        simp only [e1, e2, if_true, if_false, Bool.false_eq_true, List.length_cons]
        omega
    · have hu : u ∉ vis := fun h => hu' (hsub u h)
      have e1 : (decide ¬u ∈ vis') = true := by simp [hu']
      have e2 : (decide ¬u ∈ vis) = true := by simp [hu]
      simp only [e1, e2, if_true, List.length_cons]
      omega

theorem filter_notMem_length_lt {U vis : List String} {x : String}
    (hxU : x ∈ U) (hx : x ∉ vis) :
    (U.filter (fun y => ¬ y ∈ vis ++ [x])).length < (U.filter (fun y => ¬ y ∈ vis)).length := by
  induction U with
  | nil => simp at hxU
  | cons u U ih =>
    simp only [List.filter_cons]
    rcases List.mem_cons.mp hxU with rfl | hxU'
    · have e1 : (decide ¬x ∈ vis ++ [x]) = false := by simp
      have e2 : (decide ¬x ∈ vis) = true := by simp [hx]
      have : (U.filter (fun y => ¬ y ∈ vis ++ [x])).length ≤
          (U.filter (fun y => ¬ y ∈ vis)).length :=
        filter_notMem_length_le (by intro y hy; simp [hy])
      simp only [e1, e2, if_true, if_false, Bool.false_eq_true, List.length_cons]
      omega
    · by_cases hu' : u ∈ vis ++ [x]
      · have e1 : (decide ¬u ∈ vis ++ [x]) = false := by simp [hu']
        by_cases hu : u ∈ vis
        · have e2 : (decide ¬u ∈ vis) = false := by simp [hu]
          simp only [e1, e2]
          simpa using ih hxU'
        · have e2 : (decide ¬u ∈ vis) = true := by simp [hu]
          have := ih hxU'
          simp only [e1, e2, if_true, if_false, Bool.false_eq_true, List.length_cons]
          omega
      · have hu : u ∉ vis := fun h => hu' (by simp [h])
        have e1 : (decide ¬u ∈ vis ++ [x]) = true := by simp [hu']
        have e2 : (decide ¬u ∈ vis) = true := by simp [hu]
        have := ih hxU'
        simp only [e1, e2, if_true, List.length_cons]
        omega

theorem filter_notMem_length_eq {U vis : List String} {x : String} (hxU : x ∉ U) :
    (U.filter (fun y => ¬ y ∈ vis ++ [x])) = U.filter (fun y => ¬ y ∈ vis) := by
  apply List.filter_congr
  intro y hy
  have hyx : y ≠ x := fun h => hxU (h ▸ hy)
  simp [List.mem_append, hyx]

/-- All strings the BFS can ever visit: the stored keys and every
member of a dependents set. -/
def bfsUniverse (g : Graph) : List String :=
  g.map (fun p => p.1) ++ (g.map (fun p => p.2.dependents)).flatten

theorem dependents_subset_universe {g : Graph} {k : String} {n : GraphNode}
    (h : alGet g k = some n) : ∀ d ∈ n.dependents, d ∈ bfsUniverse g := by
  intro d hd
  have : (k, n) ∈ g ∨ True := Or.inr trivial
  -- find the pair in g
  have hp : ∃ p ∈ g, p.2 = n := by
    unfold alGet at h
    rcases hfind : g.find? (fun p => p.1 == k) with _ | p
    · simp [hfind] at h
    · rw [hfind] at h
      simp only [Option.map_some', Option.some.injEq] at h
      exact ⟨p, List.mem_of_find?_eq_some hfind, h⟩
  rcases hp with ⟨p, hpg, hpn⟩
  unfold bfsUniverse
  refine List.mem_append.mpr (Or.inr ?_)
  refine List.mem_flatten.mpr ⟨p.2.dependents, List.mem_map.mpr ⟨p, hpg, rfl⟩, ?_⟩
  rw [hpn]; exact hd

/-- The BFS worklist loop of `getAffectedCells`. -/
def bfsAffected (g : Graph) (affected visited queue : List String) : List String :=
  match queue with
  | [] => affected
  | current :: rest =>
    if hv : current ∈ visited then bfsAffected g affected visited rest
    else
      let visited' := SAdd visited current
      match hn : alGet g current with
      | none => bfsAffected g affected visited' rest
      | some node =>
        let affected' := node.dependents.foldl SAdd affected
        bfsAffected g affected' visited' (rest ++ node.dependents)
termination_by (((bfsUniverse g).filter (fun y => ¬ y ∈ visited)).length, queue.length)
decreasing_by
  · apply Prod.Lex.right
    simp
  · have hadd : SAdd visited current = visited ++ [current] := by simp [SAdd, hv]
    by_cases hmem : current ∈ bfsUniverse g
    · apply Prod.Lex.left
      rw [hadd]
      exact filter_notMem_length_lt hmem hv
    · rw [hadd, filter_notMem_length_eq hmem]
      apply Prod.Lex.right
      simp
  · apply Prod.Lex.left
    have : SAdd visited current = visited ++ [current] := by simp [SAdd, hv]
    rw [this]
    have hmem : current ∈ bfsUniverse g := by
      unfold bfsUniverse
      exact List.mem_append.mpr (Or.inl (alGet_mem_keys hn))
    exact filter_notMem_length_lt hmem hv

/-- `getAffectedCells(key)`. -/
def getAffectedCells (g : Graph) (key : String) : List String :=
  bfsAffected g [] [] [key]

/-! ### `getTopologicalOrder`: Kahn's algorithm on a key subset -/

/-- The in-degree map; `none` models a NaN stored value (the result of
`undefined - 1`). -/
abbrev DegMap := List (String × Option Int)

/-- `inDegree.get(dependent)! - 1` with JS arithmetic: a missing entry
or NaN decrements to NaN. -/
def degDec (v : Option (Option Int)) : Option Int :=
  match v with
  | some (some d) => some (d - 1)
  | _ => none

/-- In-degree initialisation: count, for each key that has a node, its
dependencies inside the subset; seed the queue with zero-degree keys.
Keys without a node are skipped entirely. -/
def initDegrees (g : Graph) (keys : List String) : DegMap × List String :=
  keys.foldl
    (fun (st : DegMap × List String) key =>
      match alGet g key with
      | none => st
      | some node =>
        let degree : ℤ := node.dependencies.countP (fun dep => decide (dep ∈ keys))
        (alSet st.1 key (some degree), if degree = 0 then st.2 ++ [key] else st.2))
    ([], [])

/-- One step of the dependents walk after a key is emitted. -/
def stepDeg (keys : List String) (st : DegMap × List String) (dependent : String) :
    DegMap × List String :=
  if dependent ∈ keys then
    let d' := degDec (alGet st.1 dependent)
    (alSet st.1 dependent d', if d' = some 0 then st.2 ++ [dependent] else st.2)
  else st

/-- The inner `for (const dependent of node.dependents)` loop. -/
def processDeps (keys : List String) (dependents : List String)
    (st : DegMap × List String) : DegMap × List String :=
  dependents.foldl (stepDeg keys) st

/-- The termination weight of a stored degree value. -/
def degWeight : Option Int → ℕ
  | some d => d.toNat
  | none => 0

/-- The termination weight of a degree map: the sum of the positive
stored degrees. -/
def sumWeights (m : DegMap) : ℕ :=
  (m.map (fun p => degWeight p.2)).sum

theorem sumWeights_alSet (m : DegMap) (k : String) (v : Option Int) :
    sumWeights (alSet m k v) ≤ sumWeights m + degWeight v := by
  induction m with
  | nil => simp [alSet, sumWeights]
  | cons p rest ih =>
    by_cases hk : (p.1 == k) = true
    · simp only [alSet, hk, if_true, sumWeights, List.map_cons, List.sum_cons]
      unfold sumWeights at *
      omega
    · simp only [alSet, hk, if_false, Bool.false_eq_true, sumWeights, List.map_cons,
        List.sum_cons]
      unfold sumWeights at ih
      omega

/-- Replacing the found entry exchanges its weight for the new one. -/
theorem sumWeights_alSet_found (m : DegMap) (k : String) (v : Option Int) (w : Option Int)
    (hfound : alGet m k = some w) :
    sumWeights (alSet m k v) + degWeight w = sumWeights m + degWeight v := by
  induction m with
  | nil => simp [alGet] at hfound
  | cons p rest ih =>
    by_cases hk : (p.1 == k) = true
    · have hw : p.2 = w := by
        simp only [alGet, List.find?, hk] at hfound
        simpa using hfound
      simp only [alSet, hk, if_true, sumWeights, List.map_cons, List.sum_cons]
      rw [hw]
      omega
    · have hfound' : alGet rest k = some w := by
        simp only [alGet, List.find?, hk] at hfound ⊢
        simpa using hfound
      have hyp := ih hfound'
      unfold sumWeights at hyp
      simp only [alSet, hk, if_false, Bool.false_eq_true, sumWeights, List.map_cons,
        List.sum_cons]
      omega

/-- A `stepDeg` application cannot increase the combined measure
(weight-sum plus queue length). -/
theorem stepDeg_measure (keys : List String) (st : DegMap × List String) (dep : String) :
    sumWeights (stepDeg keys st dep).1 + (stepDeg keys st dep).2.length ≤
      sumWeights st.1 + st.2.length := by
  unfold stepDeg
  by_cases hmem : dep ∈ keys
  · simp only [hmem, if_true]
    rcases hget : alGet st.1 dep with _ | w
    · have hle := sumWeights_alSet st.1 dep none
      simp only [degWeight] at hle
      simp only [degDec]
      simp <;> omega
    · rcases w with _ | d
      · have hle := sumWeights_alSet_found st.1 dep none none hget
        simp only [degWeight] at hle
        simp only [degDec]
        simp <;> omega
      · have hle := sumWeights_alSet_found st.1 dep (some (d - 1)) (some d) hget
        simp only [degWeight] at hle
        simp only [degDec]
        by_cases hzero : (some (d - 1) : Option Int) = some 0
        · have hd1 : d - 1 = 0 := by simpa using hzero
          simp only [hzero] at hle ⊢
          simp only [if_true, List.length_append, List.length_cons, List.length_nil]
          omega
        · simp only [hzero, if_false]
          have : ((d - 1 : ℤ)).toNat ≤ d.toNat := by omega
          omega
  · simp only [hmem, if_false]
    omega

/-- `processDeps` cannot increase the combined measure. -/
theorem processDeps_measure (keys : List String) (dependents : List String)
    (st : DegMap × List String) :
    sumWeights (processDeps keys dependents st).1 + (processDeps keys dependents st).2.length ≤
      sumWeights st.1 + st.2.length := by
  induction dependents generalizing st with
  | nil => simp [processDeps]
  | cons d rest ih =>
    have h1 := stepDeg_measure keys st d
    have h2 := ih (stepDeg keys st d)
    unfold processDeps at h2 ⊢
    simp only [List.foldl_cons]
    omega

/-- The Kahn worklist loop. -/
def kahnLoop (g : Graph) (keys : List String) (m : DegMap) (queue result : List String) :
    DegMap × List String :=
  match queue with
  | [] => (m, result)
  | current :: rest =>
    let result' := result ++ [current]
    match alGet g current with
    | none => kahnLoop g keys m rest result'
    | some node =>
      let st := processDeps keys node.dependents (m, rest)
      kahnLoop g keys st.1 st.2 result'
termination_by sumWeights m + queue.length
decreasing_by
  · simp only [List.length_cons]
    omega
  · have hpm := processDeps_measure keys node.dependents (m, rest)
    simp only [List.length_cons]
    simp only [Prod.fst, Prod.snd] at hpm
    omega

/-- `getTopologicalOrder(keys)`. -/
def getTopologicalOrder (g : Graph) (keys : List String) : Option (List String) :=
  let (m, queue) := initDegrees g keys
  let (_, result) := kahnLoop g keys m queue []
  if result.length ≠ keys.length then none else some result

/-! ## General evaluator lemmas -/

theorem SAdd_append (l : List String) (x : String) : ∃ t, SAdd l x = l ++ t := by
  unfold SAdd
  by_cases h : x ∈ l
  · exact ⟨[], by simp [h]⟩
  · exact ⟨[x], by simp [h]⟩

theorem rangeWalk_append (get : CellGetter) (cells : List CellAddress)
    (st : List String × List Value) : ∃ t, (rangeWalk get cells st).1 = st.1 ++ t := by
  induction cells generalizing st with
  | nil => exact ⟨[], by simp [rangeWalk]⟩
  | cons c cs ih =>
    unfold rangeWalk at ih ⊢
    simp only [List.foldl_cons]
    rcases SAdd_append st.1 (addressToRef c) with ⟨t1, ht1⟩
    rcases hg : get (addressToRef c) with _ | v
    · rcases ih (SAdd st.1 (addressToRef c), st.2) with ⟨t2, ht2⟩
      simp only [hg] at ht2 ⊢
      exact ⟨t1 ++ t2, by rw [ht2, ht1]; simp⟩
    · rcases ih (SAdd st.1 (addressToRef c), st.2 ++ [v.toValue]) with ⟨t2, ht2⟩
      simp only [hg] at ht2 ⊢
      exact ⟨t1 ++ t2, by rw [ht2, ht1]; simp⟩

/-- The used-reference set only ever grows: the state after evaluating
any node extends the state before it (also when an error is thrown). -/
theorem evaluate_used_append (get : CellGetter) :
    ∀ n : ℕ,
      (∀ node : ASTNode, sizeOf node ≤ n →
        ∀ used, ∃ t, (evaluate get node used).2 = used ++ t) ∧
      (∀ args : List ASTNode, sizeOf args ≤ n →
        ∀ used, ∃ t, (collectNumericValues get args used).2 = used ++ t) := by
  intro n
  induction n using Nat.strong_induction_on with
  | _ n ih =>
    have hlt : n - 1 < n ∨ n = 0 := by omega
    constructor
    · intro node hsz used
      match node with
      | .NumberN v => exact ⟨[], by simp [evaluate]⟩
      | .StringN v => exact ⟨[], by simp [evaluate]⟩
      | .UnaryOp o x => exact ⟨[], by simp [evaluate]⟩
      | .CellRef r =>
        rcases SAdd_append used r with ⟨t, ht⟩
        rcases hg : get r with _ | v
        · exact ⟨t, by simp [evaluate, hg, ht]⟩
        · exact ⟨t, by simp [evaluate, hg, ht]⟩
      | .RangeRef s e =>
        rcases SAdd_append used s with ⟨t1, ht1⟩
        rcases SAdd_append (SAdd used s) e with ⟨t2, ht2⟩
        rcases ha : a1ToAddress (stripDollars s) with _ | sa
        · refine ⟨t1 ++ t2, ?_⟩
          simp only [evaluate, ha]
          rw [ht2, ht1]
          simp
        · rcases hb : a1ToAddress (stripDollars e) with _ | ea
          · refine ⟨t1 ++ t2, ?_⟩
            simp only [evaluate, ha, hb]
            rw [ht2, ht1]
            simp
          · rcases rangeWalk_append get
              ((intRange (min sa.row ea.row) (max sa.row ea.row)).flatMap
                (fun row => (intRange (min sa.col ea.col) (max sa.col ea.col)).map
                  (fun col => (⟨col, row⟩ : CellAddress))))
              (SAdd (SAdd used s) e, []) with ⟨t3, ht3⟩
            refine ⟨t1 ++ t2 ++ t3, ?_⟩
            simp only [evaluate, ha, hb]
            rcases hrw : rangeWalk get
              ((intRange (min sa.row ea.row) (max sa.row ea.row)).flatMap
                (fun row => (intRange (min sa.col ea.col) (max sa.col ea.col)).map
                  (fun col => (⟨col, row⟩ : CellAddress))))
              (SAdd (SAdd used s) e, []) with ⟨u3, vals⟩
            rw [hrw] at ht3
            simp only [hrw]
            simp only at ht3
            rw [ht3, ht2, ht1]
            simp
      | .BinaryOp op l r =>
        have hn0 : 1 ≤ sizeOf (ASTNode.BinaryOp op l r) := by
          simp only [ASTNode.BinaryOp.sizeOf_spec]; omega
        have hn : n - 1 < n := by omega
        have ihl := (ih (n - 1) hn).1 l
          (by simp only [ASTNode.BinaryOp.sizeOf_spec] at hsz; omega)
        have ihr := (ih (n - 1) hn).1 r
          (by simp only [ASTNode.BinaryOp.sizeOf_spec] at hsz; omega)
        rcases hevl : evaluate get l used with ⟨rl, u1⟩
        rcases ihl used with ⟨t1, ht1⟩
        rw [hevl] at ht1
        simp only at ht1
        rcases rl with el | vl
        · refine ⟨t1, ?_⟩
          simp only [evaluate, hevl]
          exact ht1
        · rcases hevr : evaluate get r u1 with ⟨rr, u2⟩
          rcases ihr u1 with ⟨t2, ht2⟩
          rw [hevr] at ht2
          simp only at ht2
          rcases rr with er | vr
          · refine ⟨t1 ++ t2, ?_⟩
            simp only [evaluate, hevl, hevr]
            rw [ht2, ht1]
            simp
          · refine ⟨t1 ++ t2, ?_⟩
            simp only [evaluate, hevl, hevr]
            have hfin : u2 = used ++ (t1 ++ t2) := by rw [ht2, ht1]; simp
            rcases toNumber vl with e1 | q1
            · exact hfin
            · rcases toNumber vr with e2 | q2
              · exact hfin
              · simp only []
                split_ifs <;> exact hfin
      | .FunctionCall name args =>
        have hn : n - 1 < n := by
          have : 1 ≤ sizeOf (ASTNode.FunctionCall name args) := by
            simp only [ASTNode.FunctionCall.sizeOf_spec]; omega
          omega
        have iha := (ih (n - 1) hn).2 args
          (by simp only [ASTNode.FunctionCall.sizeOf_spec] at hsz; omega)
        rcases hc : collectNumericValues get args used with ⟨rc, u1⟩
        rcases iha used with ⟨t1, ht1⟩
        rw [hc] at ht1
        simp only at ht1
        rcases rc with ec | values
        · refine ⟨t1, ?_⟩
          simp only [evaluate, hc]
          exact ht1
        · refine ⟨t1, ?_⟩
          simp only [evaluate, hc]
          split_ifs <;> exact ht1
    · intro args hsz used
      match args with
      | [] => exact ⟨[], by simp [collectNumericValues]⟩
      | arg :: rest =>
        have hn : n - 1 < n := by
          have : 1 ≤ sizeOf (arg :: rest) := by simp; omega
          omega
        have iha := (ih (n - 1) hn).1 arg (by simp at hsz; omega)
        have ihr := (ih (n - 1) hn).2 rest (by simp at hsz; omega)
        rcases hev : evaluate get arg used with ⟨ra, u1⟩
        rcases iha used with ⟨t1, ht1⟩
        rw [hev] at ht1
        simp only at ht1
        rcases ra with ea | va
        · refine ⟨t1, ?_⟩
          simp only [collectNumericValues, hev]
          exact ht1
        · rcases hrest : collectNumericValues get rest u1 with ⟨rr, u2⟩
          rcases ihr u1 with ⟨t2, ht2⟩
          rw [hrest] at ht2
          simp only at ht2
          rcases rr with er | more
          · refine ⟨t1 ++ t2, ?_⟩
            simp only [collectNumericValues, hev, hrest]
            rw [ht2, ht1]
            simp
          · refine ⟨t1 ++ t2, ?_⟩
            simp only [collectNumericValues, hev, hrest]
            rw [ht2, ht1]
            simp

/-! ## Claim C8 -/

/-- C8: `evaluateFormula` is total by construction; every result record
has exactly one meaningful outcome — a numeric value together with its
decimal text, a bare text, or an error — and in all three cases the
used-reference set accumulated by the walk (which only ever grows, also
across a thrown error) is returned. -/
theorem C8_evaluateFormula_total_shape (ast : ASTNode) (get : CellGetter) :
    ((∃ q, evaluateFormula ast get = ⟨some q, some (numToString q), none, (evaluate get ast []).2⟩) ∨
     (∃ s, evaluateFormula ast get = ⟨none, some s, none, (evaluate get ast []).2⟩) ∨
     (∃ e, evaluateFormula ast get = ⟨none, none, some e, (evaluate get ast []).2⟩)) ∧
    (∀ used, ∃ t, (evaluate get ast used).2 = used ++ t) := by
  constructor
  · unfold evaluateFormula
    rcases hev : evaluate get ast [] with ⟨res, used⟩
    rcases res with e | v
    · exact Or.inr (Or.inr ⟨e, rfl⟩)
    · rcases v with x | s | vs
      · exact Or.inl ⟨x, rfl⟩
      · exact Or.inr (Or.inl ⟨s, rfl⟩)
      · exact Or.inr (Or.inr ⟨"#VALUE!", rfl⟩)
  · intro used
    exact ((evaluate_used_append get (sizeOf ast)).1 ast (le_refl _) used)

/-! ## Claim C1 -/

/-- C1 (counterexample): evaluating a formula that is just a bare
reference to an empty cell DOES produce the number 0 (with text "0"),
contradicting the claim that the absent value is returned as-is. -/
theorem C1_counterexample :
    (evaluateFormula (.CellRef "A1") (fun _ => none)).value = some 0 ∧
    (evaluateFormula (.CellRef "A1") (fun _ => none)).text = some "0" ∧
    (evaluateFormula (.CellRef "A1") (fun _ => none)).error = none := by
  refine ⟨rfl, rfl, rfl⟩

/-- C1 (amended): an absent cell value is treated as numeric zero in
every context: the cell-reference node itself evaluates to the number 0
(hence contributes 0 to any arithmetic), and a bare top-level reference
to an empty cell produces the numeric result 0 with text "0". -/
theorem C1_amended (get : CellGetter) (ref : String) (h : get ref = none) :
    (∀ used, evaluate get (.CellRef ref) used = (.ok (.num 0), SAdd used ref)) ∧
    evaluateFormula (.CellRef ref) get = ⟨some 0, some "0", none, [ref]⟩ := by
  constructor
  · intro used
    simp [evaluate, h]
  · have h0 : numToString 0 = "0" := rfl
    simp [evaluateFormula, evaluate, h, SAdd, h0]

/-- Witness for C1_amended at a concrete lookup. -/
theorem C1_amended_witness :
    ((fun _ => none : CellGetter) "A1" = none) ∧
    ((∀ used, evaluate (fun _ => none) (.CellRef "A1") used = (.ok (.num 0), SAdd used "A1")) ∧
      evaluateFormula (.CellRef "A1") (fun _ => none) = ⟨some 0, some "0", none, ["A1"]⟩) :=
  ⟨rfl, C1_amended (fun _ => none) "A1" rfl⟩

/-! ## Claim C6 -/

/-- The lookup used in the range counterexample: only `AA1` holds a
value. -/
def c6get : CellGetter := fun r => if r = "AA1" then some (.pnum 5) else none

/-- C6 (code bug): expanding the rectangle `Z1:AB1` (columns 25..27,
within the application's 50-column grid), the evaluator's private
`addressToRef` truncates the column index modulo 26 to a single letter,
so the interior cell (col 26, row 0) — really `AA1`, as the repo's own
`addressToA1` renders it — is recorded and looked up as `A1`, and
column 27 as `B1`.  `AA1` is never visited, its value 5 is dropped from
`SUM`, and the spurious refs `A1`/`B1` are recorded. -/
theorem C6_code_bug :
    evaluateFormula (.FunctionCall "SUM" [.RangeRef "Z1" "AB1"]) c6get =
      ⟨some 0, some "0", none, ["Z1", "AB1", "A1", "B1"]⟩ ∧
    "AA1" ∉ (evaluateFormula (.FunctionCall "SUM" [.RangeRef "Z1" "AB1"]) c6get).usedRefs ∧
    addressToA1 ⟨26, 0⟩ = "AA1" ∧
    addressToRef ⟨26, 0⟩ = "A1" := by
  refine ⟨rfl, by decide, rfl, rfl⟩

/-! ## Claim C9 -/

/-- C9: numeric-coercion failure is context dependent.  In a binary
arithmetic operation it is a hard failure: once both operands have
evaluated, an operand that `toNumber` rejects (an unparseable string or
a non-scalar array) aborts the whole evaluation with `#VALUE!`.  While
flattening function arguments, the same failing value is silently
dropped: `tryToNumber` returns none and collection continues with the
remaining arguments, reporting no error. -/
theorem C9_coercion_contexts :
    (∀ s, jsParseFloat s = none → toNumber (.str s) = .error "#VALUE!") ∧
    (∀ vs, toNumber (.arr vs) = .error "#VALUE!") ∧
    (∀ get op l r used v used1 w used2,
      evaluate get l used = (.ok v, used1) →
      evaluate get r used1 = (.ok w, used2) →
      toNumber v = .error "#VALUE!" →
      evaluate get (.BinaryOp op l r) used = (.error "#VALUE!", used2)) ∧
    (∀ s, jsParseFloat s = none → tryToNumber (.str s) = none) ∧
    (∀ get arg rest used v used1,
      evaluate get arg used = (.ok v, used1) →
      tryToNumber v = none →
      (∀ vs, v ≠ .arr vs) →
      collectNumericValues get (arg :: rest) used = collectNumericValues get rest used1) := by
  refine ⟨?_, ?_, ?_, ?_, ?_⟩
  · intro s hs
    simp [toNumber, hs]
  · intro vs
    rfl
  · intro get op l r used v used1 w used2 hl hr hv
    simp only [evaluate, hl, hr, hv]
  · intro s hs
    simp [tryToNumber, hs]
  · intro get arg rest used v used1 hev htn hnarr
    rcases v with x | s | vs
    · exact absurd htn (by simp [tryToNumber])
    · simp only [collectNumericValues, hev]
      simp only [tryToNumber] at htn
      rcases hrest : collectNumericValues get rest used1 with ⟨rr, u2⟩
      rcases rr with er | more <;> simp [tryToNumber, htn]
    · exact absurd rfl (hnarr vs)

/-- The lookup used in the C9 witness: `A1` holds the non-numeric text
"abc". -/
def c9get : CellGetter := fun r => if r = "A1" then some (.pstr "abc") else none

/-- Witness for C9 at concrete inputs: `"abc"` fails coercion; in
`A1 + 2` this aborts with `#VALUE!`; in `SUM(A1, 2)` the same value is
silently dropped and the sum is 2. -/
theorem C9_witness :
    jsParseFloat "abc" = none ∧
    toNumber (.str "abc") = .error "#VALUE!" ∧
    evaluate c9get (.BinaryOp "+" (.CellRef "A1") (.NumberN 2)) [] = (.error "#VALUE!", ["A1"]) ∧
    tryToNumber (.str "abc") = none ∧
    collectNumericValues c9get [.CellRef "A1", .NumberN 2] [] =
      collectNumericValues c9get [.NumberN 2] ["A1"] := by
  have h1 : jsParseFloat "abc" = none := rfl
  have h2 := C9_coercion_contexts.1 "abc" h1
  have h3 : evaluate c9get (.CellRef "A1") [] = (.ok (.str "abc"), ["A1"]) := rfl
  have h4 : evaluate c9get (.NumberN 2) ["A1"] = (.ok (.num 2), ["A1"]) := rfl
  refine ⟨h1, h2, ?_, C9_coercion_contexts.2.2.2.1 "abc" h1, ?_⟩
  · exact C9_coercion_contexts.2.2.1 c9get "+" (.CellRef "A1") (.NumberN 2) [] (.str "abc")
      ["A1"] (.num 2) ["A1"] h3 h4 h2
  · exact C9_coercion_contexts.2.2.2.2 c9get (.CellRef "A1") [.NumberN 2] [] (.str "abc")
      ["A1"] h3 (C9_coercion_contexts.2.2.2.1 "abc" h1) (by intro vs h; cases h)

/-! ## Claim C2 -/

mutual

/-- Every cell-reference string in the AST that `parseCellRef` accepts
re-renders to itself (canonical form: uppercase letters, no leading
zeros in the row). -/
def refsCanonical : ASTNode → Bool
  | .CellRef r =>
    match parseCellRef r with
    | some ref => decide (cellRefToA1 ref = r)
    | none => true
  | .RangeRef s e =>
    (match parseCellRef s, parseCellRef e with
     | some sr, some er => decide (cellRefToA1 sr = s) && decide (cellRefToA1 er = e)
     | _, _ => true)
  | .BinaryOp _ l r => refsCanonical l && refsCanonical r
  | .UnaryOp _ x => refsCanonical x
  | .FunctionCall _ args => refsCanonicalList args
  | _ => true
termination_by structural a => a

/-- `refsCanonical` over an argument list. -/
def refsCanonicalList : List ASTNode → Bool
  | [] => true
  | a :: rest => refsCanonical a && refsCanonicalList rest
termination_by structural l => l

end

theorem adjustRefForFill_zero (ref : CellRefS) : adjustRefForFill ref 0 0 = ref := by
  unfold adjustRefForFill
  rcases ref with ⟨c, r, ac, ar⟩
  rcases ac <;> rcases ar <;> simp

/-- A zero shift leaves the AST unchanged whenever its references are
canonical (otherwise it still normalises each reference's text). -/
theorem adjustASTReferences_zero :
    ∀ n : ℕ,
      (∀ a : ASTNode, sizeOf a ≤ n → refsCanonical a = true →
        adjustASTReferences a 0 0 = a) ∧
      (∀ l : List ASTNode, sizeOf l ≤ n → refsCanonicalList l = true →
        adjustArgsReferences l 0 0 = l) := by
  intro n
  induction n using Nat.strong_induction_on with
  | _ n ih =>
    constructor
    · intro a ha hc
      match a with
      | .NumberN v => rfl
      | .StringN v => rfl
      | .CellRef r =>
        unfold adjustASTReferences
        rcases hp : parseCellRef r with _ | ref
        · rfl
        · simp only [refsCanonical, hp, decide_eq_true_eq] at hc
          simp [adjustRefForFill_zero, hc]
      | .RangeRef s e =>
        unfold adjustASTReferences
        rcases hs : parseCellRef s with _ | sr
        · rfl
        · rcases he : parseCellRef e with _ | er
          · rfl
          · simp only [refsCanonical, hs, he, Bool.and_eq_true, decide_eq_true_eq] at hc
            simp [adjustRefForFill_zero, hc.1, hc.2]
      | .BinaryOp op l r =>
        have hn : n - 1 < n := by
          have : 1 ≤ sizeOf (ASTNode.BinaryOp op l r) := by
            simp only [ASTNode.BinaryOp.sizeOf_spec]; omega
          omega
        simp only [refsCanonical, Bool.and_eq_true] at hc
        have h1 := (ih (n - 1) hn).1 l
          (by simp only [ASTNode.BinaryOp.sizeOf_spec] at ha; omega) hc.1
        have h2 := (ih (n - 1) hn).1 r
          (by simp only [ASTNode.BinaryOp.sizeOf_spec] at ha; omega) hc.2
        unfold adjustASTReferences
        rw [h1, h2]
      | .UnaryOp op x =>
        have hn : n - 1 < n := by
          have : 1 ≤ sizeOf (ASTNode.UnaryOp op x) := by
            simp only [ASTNode.UnaryOp.sizeOf_spec]; omega
          omega
        simp only [refsCanonical] at hc
        have h1 := (ih (n - 1) hn).1 x
          (by simp only [ASTNode.UnaryOp.sizeOf_spec] at ha; omega) hc
        unfold adjustASTReferences
        rw [h1]
      | .FunctionCall name args =>
        have hn : n - 1 < n := by
          have : 1 ≤ sizeOf (ASTNode.FunctionCall name args) := by
            simp only [ASTNode.FunctionCall.sizeOf_spec]; omega
          omega
        simp only [refsCanonical] at hc
        have h1 := (ih (n - 1) hn).2 args
          (by simp only [ASTNode.FunctionCall.sizeOf_spec] at ha; omega) hc
        unfold adjustASTReferences
        rw [h1]
    · intro l hl hc
      match l with
      | [] => rfl
      | a :: rest =>
        have hn : n - 1 < n := by
          have : 1 ≤ sizeOf (a :: rest) := by simp; omega
          omega
        simp only [refsCanonicalList, Bool.and_eq_true] at hc
        have h1 := (ih (n - 1) hn).1 a (by simp at hl; omega) hc.1
        have h2 := (ih (n - 1) hn).2 rest (by simp at hl; omega) hc.2
        unfold adjustArgsReferences
        rw [h1, h2]

/-- C2 (counterexample): `adjustFormulaForFill` under a zero shift is
not the identity even on formulas with only relative references — it
re-renders the parsed AST, so whitespace is dropped: `=A1 + B1` becomes
`=A1+B1`. -/
theorem C2_counterexample :
    adjustFormulaForFill "=A1 + B1" 0 0 = "=A1+B1" ∧
    adjustFormulaForFill "=A1 + B1" 0 0 ≠ "=A1 + B1" := by
  constructor
  · rfl
  · intro h
    have : ("=A1+B1" : String) = "=A1 + B1" := by
      calc ("=A1+B1" : String) = adjustFormulaForFill "=A1 + B1" 0 0 := rfl
        _ = "=A1 + B1" := h
    simp at this

/-- C2 (amended): under a zero row and column shift,
`adjustFormulaForFill(f, 0, 0)` returns the canonical re-rendering
`"=" ++ render(parse(f))` of any formula that parses and whose cell
references are in canonical form; it equals `f` exactly when `f` is
already canonically rendered. -/
theorem C2_amended (f : String) (ast : ASTNode) (h : parseFormula f = .ok ast)
    (hc : refsCanonical ast = true) :
    adjustFormulaForFill f 0 0 = "=" ++ astToString ast := by
  unfold adjustFormulaForFill
  simp only [h]
  rw [(adjustASTReferences_zero (sizeOf ast)).1 ast (le_refl _) hc]

/-- Witness for C2_amended: for `=A1+B1` the zero shift is literally the
identity. -/
theorem C2_amended_witness :
    parseFormula "=A1+B1" = .ok (.BinaryOp "+" (.CellRef "A1") (.CellRef "B1")) ∧
    refsCanonical (.BinaryOp "+" (.CellRef "A1") (.CellRef "B1")) = true ∧
    adjustFormulaForFill "=A1+B1" 0 0 =
      "=" ++ astToString (.BinaryOp "+" (.CellRef "A1") (.CellRef "B1")) ∧
    adjustFormulaForFill "=A1+B1" 0 0 = "=A1+B1" :=
  ⟨rfl, by decide,
    C2_amended "=A1+B1" (.BinaryOp "+" (.CellRef "A1") (.CellRef "B1")) rfl (by decide), rfl⟩

/-! ## Tokenizer structure lemmas -/

theorem numTail_append : ∀ (cs : List Char) (h : Bool),
    (numTail cs h).1 ++ (numTail cs h).2 = cs := by
  intro cs
  induction cs with
  | nil => intro h; rfl
  | cons c rest ih =>
    intro h
    unfold numTail
    by_cases hd : c.isDigit
    · simp only [hd, if_true]
      have := ih h
      rcases hnt : numTail rest h with ⟨t, r⟩
      rw [hnt] at this
      simp only [hnt]
      simpa using this
    · simp only [hd, Bool.false_eq_true, if_false]
      by_cases hdot : c = '.' ∧ ¬h
      · simp only [hdot, if_true]
        have := ih true
        rcases hnt : numTail rest true with ⟨t, r⟩
        rw [hnt] at this
        simp only [hnt]
        simpa using this
      · simp only [hdot, if_false]
        simp

theorem readNumber_cons_ne (c : Char) (rest : List Char) (hc : c ≠ '-') :
    readNumber (c :: rest) = numTail (c :: rest) false := by
  unfold readNumber
  split
  · simp_all
  · rfl

theorem readNumber_append (cs : List Char) :
    (readNumber cs).1 ++ (readNumber cs).2 = cs := by
  rcases cs with _ | ⟨c, rest⟩
  · rfl
  · by_cases hc : c = '-'
    · subst hc
      show (readNumber ('-' :: rest)).1 ++ (readNumber ('-' :: rest)).2 = '-' :: rest
      unfold readNumber
      have := numTail_append rest false
      rcases hnt : numTail rest false with ⟨t, r⟩
      rw [hnt] at this
      simp only [hnt]
      simpa using this
    · rw [readNumber_cons_ne c rest hc]
      exact numTail_append (c :: rest) false

theorem readNumber_ne_nil (c : Char) (cs : List Char)
    (h : c.isDigit = true ∨ (c = '-' ∧ peekDigit cs = true)) :
    (readNumber (c :: cs)).1 ≠ [] := by
  rcases h with hd | ⟨hc, hp⟩
  · have hne : c ≠ '-' := by
      intro he
      rw [he] at hd
      simp [Char.isDigit] at hd
    rw [readNumber_cons_ne c cs hne]
    unfold numTail
    simp [hd]
  · subst hc
    unfold readNumber
    simp

theorem strTail_append : ∀ (cs v r : List Char),
    strTail cs = some (v, r) → v ++ '"' :: r = cs := by
  intro cs
  induction cs with
  | nil => intro v r h; simp [strTail] at h
  | cons c rest ih =>
    intro v r h
    unfold strTail at h
    by_cases hc : c = '"'
    · simp only [hc, if_true, Option.some.injEq, Prod.mk.injEq] at h
      rcases h with ⟨rfl, rfl⟩
      · simp [hc]
    · simp only [hc, if_false] at h
      rcases hst : strTail rest with _ | p
      · rw [hst] at h; simp at h
      · rcases p with ⟨v', r'⟩
        rw [hst] at h
        simp only [Option.map_some', Option.some.injEq, Prod.mk.injEq] at h
        rcases h with ⟨rfl, rfl⟩
        · have hrec := ih v' r' hst
          simp only [List.cons_append, hrec]

theorem takeDollar_append (cs : List Char) :
    (if (takeDollar cs).1 then ['$'] else []) ++ (takeDollar cs).2 = cs := by
  rcases cs with _ | ⟨c, t⟩
  · rfl
  · by_cases hc : c = '$'
    · subst hc; rfl
    · have hne : takeDollar (c :: t) = (false, c :: t) := by
        unfold takeDollar
        split
        · simp_all
        · rfl
      rw [hne]
      simp

theorem cellRefMatch_append (cs v r : List Char) (h : cellRefMatch cs = some (v, r)) :
    v ++ r = cs ∧ v ≠ [] := by
  unfold cellRefMatch at h
  rcases hd1 : takeDollar cs with ⟨d1, cs1⟩
  simp only [hd1] at h
  rcases hsp : spanAlpha cs1 with ⟨ls, cs2⟩
  simp only [hsp] at h
  by_cases hls : ls = []
  · simp [hls] at h
  · simp only [hls, if_false] at h
    rcases hd2 : takeDollar cs2 with ⟨d2, cs3⟩
    simp only [hd2] at h
    rcases hsd : spanDigit cs3 with ⟨ds, cs4⟩
    simp only [hsd] at h
    by_cases hds : ds = []
    · simp [hds] at h
    · simp only [hds, if_false, Option.some.injEq, Prod.mk.injEq] at h
      rcases h with ⟨rfl, rfl⟩
      · have e1 : (if d1 then ['$'] else []) ++ cs1 = cs := by
          have := takeDollar_append cs
          rw [hd1] at this
          exact this
        have e2 : ls ++ cs2 = cs1 := by
          unfold spanAlpha at hsp
          simp only [Prod.mk.injEq] at hsp
          rw [← hsp.1, ← hsp.2]
          exact List.takeWhile_append_dropWhile _ _
        have e3 : (if d2 then ['$'] else []) ++ cs3 = cs2 := by
          have := takeDollar_append cs2
          rw [hd2] at this
          exact this
        have e4 : ds ++ cs4 = cs3 := by
          unfold spanDigit at hsd
          simp only [Prod.mk.injEq] at hsd
          rw [← hsd.1, ← hsd.2]
          exact List.takeWhile_append_dropWhile _ _
        constructor
        · rw [← e1, ← e2, ← e3, ← e4]
          simp
        · simp [hls]

/-- On a lone `$` that starts no cell reference the source tokenizer
loops forever; the model reports that as its fuel error for every fuel
value. -/
theorem tokenizeAux_stuck (rest : List Char) (hr : cellRefMatch ('$' :: rest) = none) :
    ∀ m, tokenizeAux m ('$' :: rest) = .error "tokenizer made no progress" := by
  intro m
  induction m with
  | zero => rfl
  | succ m ihm =>
    unfold tokenizeAux
    have h1 : jsWhitespace '$' = false := by decide
    have h2 : ¬(('$' : Char).isDigit = true ∨ ('$' = '-' ∧ peekDigit rest = true)) := by
      simp [Char.isDigit]
    have h3 : ¬('$' : Char) = '"' := by decide
    have h4 : ¬(('$' : Char) = '+' ∨ ('$' : Char) = '-' ∨ ('$' : Char) = '*' ∨
        ('$' : Char) = '/' ∨ ('$' : Char) = '^') := by decide
    have h5 : ¬('$' : Char) = '(' := by decide
    have h6 : ¬('$' : Char) = ')' := by decide
    have h7 : ¬('$' : Char) = ',' := by decide
    have h8 : ¬('$' : Char) = ':' := by decide
    have h9 : (('$' : Char) = '$' ∨ ('$' : Char).isAlpha = true) := Or.inl rfl
    simp only [h1, Bool.false_eq_true, if_false, h2, h3, h4, h5, h6, h7, h8, h9, if_true, hr]
    have hid : identChar '$' = false := by decide
    simp only [List.takeWhile, List.dropWhile, hid]
    rw [ihm]
    rfl

/-- Tokenizer fuel irrelevance: any fuel above the input length gives
the same result. -/
theorem tokenizeAux_fuel :
    ∀ (k : ℕ) (cs : List Char), cs.length ≤ k →
      ∀ m₁ m₂, cs.length < m₁ → cs.length < m₂ → tokenizeAux m₁ cs = tokenizeAux m₂ cs := by
  intro k
  induction k using Nat.strong_induction_on with
  | _ k ih =>
    intro cs hk m₁ m₂ h₁ h₂
    rcases cs with _ | ⟨c, rest⟩
    · obtain ⟨a, rfl⟩ : ∃ a, m₁ = a + 1 := ⟨m₁ - 1, by omega⟩
      obtain ⟨b, rfl⟩ : ∃ b, m₂ = b + 1 := ⟨m₂ - 1, by omega⟩
      rfl
    · obtain ⟨a, rfl⟩ : ∃ a, m₁ = a + 1 := ⟨m₁ - 1, by omega⟩
      obtain ⟨b, rfl⟩ : ∃ b, m₂ = b + 1 := ⟨m₂ - 1, by omega⟩
      simp only [List.length_cons] at h₁ h₂ hk
      have hk' : k - 1 < k := by omega
      unfold tokenizeAux
      by_cases c1 : jsWhitespace c = true
      · simp only [c1, if_true]
        exact ih (k - 1) hk' rest (by omega) a b (by omega) (by omega)
      · simp only [c1, Bool.false_eq_true, if_false]
        by_cases c2 : (c.isDigit = true ∨ (c = '-' ∧ peekDigit rest = true))
        · simp only [c2, if_true]
          rcases hrn : readNumber (c :: rest) with ⟨t, r⟩
          have happ := readNumber_append (c :: rest)
          rw [hrn] at happ
          have hne := readNumber_ne_nil c rest c2
          rw [hrn] at hne
          simp only at happ hne
          have hrlen : r.length ≤ rest.length := by
            have : t.length + r.length = rest.length + 1 := by
              have := congrArg List.length happ
              simpa using this
            have : 1 ≤ t.length := by
              rcases t with _ | _
              · exact absurd rfl hne
              · simp
            omega
          rw [ih (k - 1) hk' r (by omega) a b (by omega) (by omega)]
        · simp only [c2, if_false]
          by_cases c3 : c = '"'
          · simp only [c3, if_true]
            rcases hst : strTail rest with _ | ⟨v, r⟩
            · rfl
            · have happ := strTail_append rest v r hst
              have hrlen : r.length < rest.length := by
                have := congrArg List.length happ
                simp at this
                omega
              dsimp only
              rw [ih (k - 1) hk' r (by omega) a b (by omega) (by omega)]
          · simp only [c3, if_false]
            by_cases c4 : (c = '+' ∨ c = '-' ∨ c = '*' ∨ c = '/' ∨ c = '^')
            · simp only [c4, if_true]
              rw [ih (k - 1) hk' rest (by omega) a b (by omega) (by omega)]
            · simp only [c4, if_false]
              by_cases c5 : c = '('
              · simp only [c5, if_true]
                rw [ih (k - 1) hk' rest (by omega) a b (by omega) (by omega)]
              · simp only [c5, if_false]
                by_cases c6 : c = ')'
                · simp only [c6, if_true]
                  rw [ih (k - 1) hk' rest (by omega) a b (by omega) (by omega)]
                · simp only [c6, if_false]
                  by_cases c7 : c = ','
                  · simp only [c7, if_true]
                    rw [ih (k - 1) hk' rest (by omega) a b (by omega) (by omega)]
                  · simp only [c7, if_false]
                    by_cases c8 : c = ':'
                    · simp only [c8, if_true]
                      rw [ih (k - 1) hk' rest (by omega) a b (by omega) (by omega)]
                    · simp only [c8, if_false]
                      by_cases c9 : (c = '$' ∨ c.isAlpha = true)
                      · simp only [c9, if_true]
                        rcases hcm : cellRefMatch (c :: rest) with _ | ⟨v, r⟩
                        · -- identifier path
                          dsimp only
                          by_cases hidc : identChar c = true
                          · have hdw : (c :: rest).dropWhile identChar =
                                rest.dropWhile identChar := by
                              simp [List.dropWhile, hidc]
                            have hrlen : (rest.dropWhile identChar).length ≤ rest.length :=
                              List.Sublist.length_le (List.dropWhile_sublist _)
                            rw [hdw,
                              ih (k - 1) hk' (rest.dropWhile identChar) (by omega) a b
                                (by omega) (by omega)]
                          · -- empty identifier: only possible for '$'; stuck forever
                            have hc : c = '$' := by
                              rcases c9 with h | h
                              · exact h
                              · exfalso
                                apply hidc
                                simp [identChar, h]
                            subst hc
                            have hdw : ('$' :: rest).dropWhile identChar = '$' :: rest := by
                              simp [List.dropWhile, identChar]
                            rw [hdw, tokenizeAux_stuck rest hcm a,
                              tokenizeAux_stuck rest hcm b]
                        · dsimp only
                          have ⟨happ, hne⟩ := cellRefMatch_append (c :: rest) v r hcm
                          have hrlen : r.length ≤ rest.length := by
                            have := congrArg List.length happ
                            simp at this
                            rcases v with _ | _
                            · exact absurd rfl hne
                            · simp at this
                              omega
                          rw [ih (k - 1) hk' r (by omega) a b (by omega) (by omega)]
                      · simp only [c9, if_false]

/-! ## Claim C10 -/

/-- C10: a `-` immediately followed by a digit always lexes as the start
of a negative NUMBER literal regardless of what precedes it — whenever
the scan loop reaches remaining input `'-' :: d :: rest` with `d` a
digit, it emits a NUMBER token whose text starts with `-` (never an
OPERATOR token).  Consequently `5-3` tokenizes as the two adjacent
NUMBER tokens `5` and `-3` and `parseFormula` rejects both `5-3` and
`A1-2` with an unexpected-trailing-token error, while the
whitespace-separated `5 - 3` parses as the subtraction
`BinaryOp "-" 5 3`. -/
theorem C10_dash_digit_lexing :
    (∀ (d : Char) (rest : List Char) (m : ℕ), d.isDigit = true →
      tokenizeAux (m + 1) ('-' :: d :: rest) =
        (tokenizeAux m (numTail (d :: rest) false).2).map
          (fun ts => ⟨.NUMBER, String.mk ('-' :: (numTail (d :: rest) false).1)⟩ :: ts)) ∧
    tokenize "5-3" = .ok [⟨.NUMBER, "5"⟩, ⟨.NUMBER, "-3"⟩, ⟨.EOF, ""⟩] ∧
    parseFormula "5-3" = .error "Unexpected token: -3" ∧
    parseFormula "A1-2" = .error "Unexpected token: -2" ∧
    parseFormula "5 - 3" = .ok (.BinaryOp "-" (.NumberN 5) (.NumberN 3)) := by
  refine ⟨?_, rfl, rfl, rfl, ?_⟩
  · intro d rest m hd
    have hws : jsWhitespace '-' = false := by decide
    rcases hnt : numTail (d :: rest) false with ⟨t, r⟩
    have hrn : readNumber ('-' :: d :: rest) = ('-' :: t, r) := by
      simp [readNumber, hnt]
    conv_lhs => unfold tokenizeAux
    simp only [hws, Bool.false_eq_true, if_false, peekDigit, hd, eq_self_iff_true, true_and,
      and_self, or_true, if_true, hrn]
  · have h : parseFormula "5 - 3" =
        .ok (.BinaryOp "-" (.NumberN (jsParseFloatD "5")) (.NumberN (jsParseFloatD "3"))) := rfl
    have h5 : jsParseFloatD "5" = 5 := by
      have e : jsParseFloatD "5" = 1 * ((5 : ℚ) + 0 / 10 ^ 0) := rfl
      rw [e]; norm_num
    have h3 : jsParseFloatD "3" = 3 := by
      have e : jsParseFloatD "3" = 1 * ((3 : ℚ) + 0 / 10 ^ 0) := rfl
      rw [e]; norm_num
    rw [h, h5, h3]

/-- C10 witness: the universal lexing conjunct instantiated at the
concrete digit `3` and empty remainder: `-3` comes out as one NUMBER
token. -/
theorem C10_dash_digit_lexing_witness :
    ('3' : Char).isDigit = true ∧
    tokenizeAux 2 ['-', '3'] =
      (tokenizeAux 1 (numTail ['3'] false).2).map
        (fun ts => ⟨.NUMBER, String.mk ('-' :: (numTail ['3'] false).1)⟩ :: ts) ∧
    tokenizeAux 2 ['-', '3'] = .ok [⟨.NUMBER, "-3"⟩, ⟨.EOF, ""⟩] :=
  ⟨by decide, C10_dash_digit_lexing.1 '3' [] 1 (by decide), rfl⟩

/-! ## Claim C5: BFS over dependents -/

theorem mem_SAdd {l : List String} {x y : String} : x ∈ SAdd l y ↔ x ∈ l ∨ x = y := by
  unfold SAdd
  by_cases h : y ∈ l
  · simp only [h, if_true]
    constructor
    · exact Or.inl
    · rintro (hx | rfl)
      · exact hx
      · exact h
  · simp [h]

theorem SAdd_nodup {l : List String} (h : l.Nodup) (y : String) : (SAdd l y).Nodup := by
  unfold SAdd
  by_cases hy : y ∈ l
  · simpa [hy]
  · simp [hy, List.nodup_append, h]

theorem mem_foldl_SAdd : ∀ (ds a : List String) (x : String),
    x ∈ ds.foldl SAdd a ↔ x ∈ a ∨ x ∈ ds := by
  intro ds
  induction ds with
  | nil => simp
  | cons d ds ih =>
    intro a x
    simp only [List.foldl_cons, ih, mem_SAdd, List.mem_cons]
    constructor
    · rintro ((h | rfl) | h)
      · exact Or.inl h
      · exact Or.inr (Or.inl rfl)
      · exact Or.inr (Or.inr h)
    · rintro (h | rfl | h)
      · exact Or.inl (Or.inl h)
      · exact Or.inl (Or.inr rfl)
      · exact Or.inr h

theorem foldl_SAdd_nodup : ∀ (ds a : List String), a.Nodup → (ds.foldl SAdd a).Nodup := by
  intro ds
  induction ds with
  | nil => intro a h; exact h
  | cons d ds ih =>
    intro a h
    exact ih _ (SAdd_nodup h d)

theorem bfsAffected_nil (g : Graph) (affected visited : List String) :
    bfsAffected g affected visited [] = affected := by
  rw [bfsAffected.eq_def]

theorem bfsAffected_cons_visited (g : Graph) (affected visited : List String)
    {current : String} (rest : List String) (h : current ∈ visited) :
    bfsAffected g affected visited (current :: rest) = bfsAffected g affected visited rest := by
  rw [bfsAffected.eq_def]
  simp only [dif_pos h]

theorem bfsAffected_cons_none (g : Graph) (affected visited : List String)
    {current : String} (rest : List String) (h : current ∉ visited)
    (hn : alGet g current = none) :
    bfsAffected g affected visited (current :: rest) =
      bfsAffected g affected (SAdd visited current) rest := by
  rw [bfsAffected.eq_def]
  simp only [dif_neg h]
  split
  · rfl
  · next node heq => simp [hn] at heq

theorem bfsAffected_cons_some (g : Graph) (affected visited : List String)
    {current : String} (rest : List String) {node : GraphNode} (h : current ∉ visited)
    (hn : alGet g current = some node) :
    bfsAffected g affected visited (current :: rest) =
      bfsAffected g (node.dependents.foldl SAdd affected) (SAdd visited current)
        (rest ++ node.dependents) := by
  rw [bfsAffected.eq_def]
  simp only [dif_neg h]
  split
  · next heq => simp [hn] at heq
  · next node' heq =>
    rw [hn] at heq
    cases heq
    rfl

def depStep (g : Graph) (a b : String) : Prop :=
  ∃ n, alGet g a = some n ∧ b ∈ n.dependents

theorem bfsAffected_correct (g : Graph) (key : String) :
    ∀ affected visited queue,
      affected.Nodup →
      (∀ x ∈ affected, Relation.TransGen (depStep g) key x) →
      (∀ x ∈ queue, x = key ∨ Relation.TransGen (depStep g) key x) →
      (∀ v ∈ visited, ∀ n, alGet g v = some n → ∀ d ∈ n.dependents, d ∈ affected) →
      (∀ x ∈ affected, x ∈ visited ∨ x ∈ queue) →
      (key ∈ visited ∨ key ∈ queue) →
      ((bfsAffected g affected visited queue).Nodup ∧
       (∀ x ∈ affected, x ∈ bfsAffected g affected visited queue) ∧
       (∀ x ∈ bfsAffected g affected visited queue,
         x ∈ affected ∨ Relation.TransGen (depStep g) key x) ∧
       (∀ x, Relation.TransGen (depStep g) key x → x ∈ bfsAffected g affected visited queue)) := by
  intro affected visited queue
  induction affected, visited, queue using bfsAffected.induct g with
  | case1 affected visited =>
    intro h1 h2 h3 h4 h5 h6
    rw [bfsAffected_nil]
    refine ⟨h1, fun x hx => hx, fun x hx => Or.inl hx, ?_⟩
    have hkv : key ∈ visited := by
      rcases h6 with h | h
      · exact h
      · simp at h
    intro x hx
    induction hx with
    | single hstep =>
      rcases hstep with ⟨n, hn, hd⟩
      exact h4 key hkv n hn _ hd
    | tail hR hstep ih =>
      rcases hstep with ⟨n, hn, hd⟩
      rcases h5 _ ih with hbv | hbot
      · exact h4 _ hbv n hn _ hd
      · simp at hbot
  | case2 affected visited current rest hv ih =>
    intro h1 h2 h3 h4 h5 h6
    rw [bfsAffected_cons_visited g affected visited rest hv]
    apply ih h1 h2 (fun x hx => h3 x (List.mem_cons_of_mem _ hx)) h4
    · intro x hx
      rcases h5 x hx with h | h
      · exact Or.inl h
      · rcases List.mem_cons.mp h with rfl | h'
        · exact Or.inl hv
        · exact Or.inr h'
    · rcases h6 with h | h
      · exact Or.inl h
      · rcases List.mem_cons.mp h with rfl | h'
        · exact Or.inl hv
        · exact Or.inr h'
  | case3 affected visited current rest hv visited' hn ih =>
    intro h1 h2 h3 h4 h5 h6
    rw [bfsAffected_cons_none g affected visited rest hv hn]
    apply ih h1 h2 (fun x hx => h3 x (List.mem_cons_of_mem _ hx))
    · intro v hvv n hvn d hd
      rcases mem_SAdd.mp hvv with h | rfl
      · exact h4 v h n hvn d hd
      · rw [hn] at hvn
        cases hvn
    · intro x hx
      rcases h5 x hx with h | h
      · exact Or.inl (mem_SAdd.mpr (Or.inl h))
      · rcases List.mem_cons.mp h with rfl | h'
        · exact Or.inl (mem_SAdd.mpr (Or.inr rfl))
        · exact Or.inr h'
    · rcases h6 with h | h
      · exact Or.inl (mem_SAdd.mpr (Or.inl h))
      · rcases List.mem_cons.mp h with rfl | h'
        · exact Or.inl (mem_SAdd.mpr (Or.inr rfl))
        · exact Or.inr h'
  | case4 affected visited current rest hv visited' node hn affected' ih =>
    intro h1 h2 h3 h4 h5 h6
    have hRdep : ∀ d ∈ node.dependents, Relation.TransGen (depStep g) key d := by
      intro d hd
      rcases h3 current (List.mem_cons_self _ _) with rfl | hR
      · exact Relation.TransGen.single ⟨node, hn, hd⟩
      · exact Relation.TransGen.tail hR ⟨node, hn, hd⟩
    rw [bfsAffected_cons_some g affected visited rest hv hn]
    have hsub : ∀ x ∈ affected, x ∈ node.dependents.foldl SAdd affected :=
      fun x hx => (mem_foldl_SAdd _ _ _).mpr (Or.inl hx)
    obtain ⟨g1, g2, g3, g4⟩ := ih
      (foldl_SAdd_nodup _ _ h1)
      (by
        intro x hx
        rcases (mem_foldl_SAdd _ _ _).mp hx with h | h
        · exact h2 x h
        · exact hRdep x h)
      (by
        intro x hx
        rcases List.mem_append.mp hx with h | h
        · exact h3 x (List.mem_cons_of_mem _ h)
        · exact Or.inr (hRdep x h))
      (by
        intro v hvv n hvn d hd
        rcases mem_SAdd.mp hvv with h | rfl
        · exact hsub _ (h4 v h n hvn d hd)
        · rw [hn] at hvn
          cases hvn
          exact (mem_foldl_SAdd _ _ _).mpr (Or.inr hd))
      (by
        intro x hx
        rcases (mem_foldl_SAdd _ _ _).mp hx with h | h
        · rcases h5 x h with h' | h'
          · exact Or.inl (mem_SAdd.mpr (Or.inl h'))
          · rcases List.mem_cons.mp h' with rfl | h''
            · exact Or.inl (mem_SAdd.mpr (Or.inr rfl))
            · exact Or.inr (List.mem_append.mpr (Or.inl h''))
        · exact Or.inr (List.mem_append.mpr (Or.inr h)))
      (by
        rcases h6 with h | h
        · exact Or.inl (mem_SAdd.mpr (Or.inl h))
        · rcases List.mem_cons.mp h with rfl | h'
          · exact Or.inl (mem_SAdd.mpr (Or.inr rfl))
          · exact Or.inr (List.mem_append.mpr (Or.inl h')))
    refine ⟨g1, fun x hx => g2 x (hsub x hx), ?_, g4⟩
    intro x hx
    rcases g3 x hx with h | h
    · rcases (mem_foldl_SAdd _ _ _).mp h with h' | h'
      · exact Or.inl h'
      · exact Or.inr (hRdep x h')
    · exact Or.inr h

/-- C5 counterexample: in the graph where `a` depends on itself
(`updateCell` on an empty graph records the self-loop, making `a` its
own dependent), `getAffectedCells "a"` returns `["a"]` — the key itself
is in the result, contradicting the claim that the key is always
excluded. -/
theorem C5_counterexample :
    getAffectedCells (updateCell [] "a" ["a"]) "a" = ["a"] ∧
    "a" ∈ getAffectedCells (updateCell [] "a" ["a"]) "a" := by
  have hg : updateCell [] "a" ["a"] = [("a", ⟨"a", ["a"], ["a"]⟩)] := by rfl
  have he : getAffectedCells (updateCell [] "a" ["a"]) "a" = ["a"] := by
    rw [getAffectedCells, hg]
    rw [bfsAffected.eq_def]
    norm_num [alGet, SAdd]
    split
    · next h => simp [alGet] at h
    · next node h =>
      have hn : node = ⟨"a", ["a"], ["a"]⟩ := by
        simp [alGet] at h
        exact h.symm
      subst hn
      rw [bfsAffected.eq_def]
      norm_num [alGet, SAdd]
      rw [bfsAffected.eq_def]
  exact ⟨he, by rw [he]; simp⟩

/-- C5 (amended): for every graph state and key, `getAffectedCells`
returns each affected cell exactly once (no duplicates), and its
members are exactly the strings reachable from the key by one or more
dependents-edge steps (`depStep`).  The key itself is therefore
included exactly when it lies on a dependents-cycle through itself, not
always excluded as claimed. -/
theorem C5_amended (g : Graph) (key : String) :
    (getAffectedCells g key).Nodup ∧
    ∀ x, x ∈ getAffectedCells g key ↔ Relation.TransGen (depStep g) key x := by
  obtain ⟨g1, g2, g3, g4⟩ := bfsAffected_correct g key [] [] [key]
    List.nodup_nil (by simp) (fun x hx => Or.inl (by simpa using hx)) (by simp) (by simp)
    (Or.inr (by simp))
  refine ⟨g1, fun x => ⟨fun hx => ?_, g4 x⟩⟩
  rcases g3 x hx with h | h
  · simp at h
  · exact h

/-! ## Claim C7: edge symmetry invariant -/

theorem alGet_cons_self {α : Type} (a : String) (b : α) (rest : List (String × α)) :
    alGet ((a, b) :: rest) a = some b := by
  unfold alGet
  rw [List.find?_cons_of_pos _ (by simp)]
  rfl

theorem alGet_cons_ne {α : Type} {a k : String} (b : α) (rest : List (String × α))
    (h : a ≠ k) : alGet ((a, b) :: rest) k = alGet rest k := by
  unfold alGet
  rw [List.find?_cons_of_neg _ (by simpa using h)]

theorem alGet_alSet_self {α : Type} (l : List (String × α)) (k : String) (v : α) :
    alGet (alSet l k v) k = some v := by
  induction l with
  | nil => simp [alGet, alSet]
  | cons p rest ih =>
    rcases p with ⟨a, b⟩
    unfold alSet
    by_cases h : (a == k) = true
    · simp only [h, if_true]
      exact alGet_cons_self k v rest
    · simp only [h, Bool.false_eq_true, if_false]
      rw [alGet_cons_ne _ _ (by simpa using h)]
      exact ih

theorem alGet_alSet_ne {α : Type} (l : List (String × α)) (k : String) (v : α)
    {k' : String} (h : k' ≠ k) : alGet (alSet l k v) k' = alGet l k' := by
  induction l with
  | nil =>
    unfold alSet
    rw [alGet_cons_ne _ _ (Ne.symm h)]
  | cons p rest ih =>
    rcases p with ⟨a, b⟩
    unfold alSet
    by_cases hak : (a == k) = true
    · have ha : a = k := beq_iff_eq.mp hak
      subst ha
      simp only [hak, if_true]
      rw [alGet_cons_ne _ _ (Ne.symm h), alGet_cons_ne _ _ (Ne.symm h)]
    · simp only [hak, Bool.false_eq_true, if_false]
      by_cases hak' : a = k'
      · subst hak'
        rw [alGet_cons_self, alGet_cons_self]
      · rw [alGet_cons_ne _ _ hak', alGet_cons_ne _ _ hak']
        exact ih

theorem alDel_cons_self {α : Type} (a : String) (b : α) (rest : List (String × α)) :
    alDel ((a, b) :: rest) a = alDel rest a := by
  simp [alDel, List.filter_cons]

theorem alDel_cons_ne {α : Type} {a k : String} (b : α) (rest : List (String × α))
    (h : a ≠ k) : alDel ((a, b) :: rest) k = (a, b) :: alDel rest k := by
  simp [alDel, List.filter_cons, h]

theorem alGet_alDel_self {α : Type} (l : List (String × α)) (k : String) :
    alGet (alDel l k) k = none := by
  induction l with
  | nil => simp [alGet, alDel]
  | cons p rest ih =>
    rcases p with ⟨a, b⟩
    by_cases hak : a = k
    · subst hak
      rw [alDel_cons_self]
      exact ih
    · rw [alDel_cons_ne _ _ hak, alGet_cons_ne _ _ hak]
      exact ih

theorem alGet_alDel_ne {α : Type} (l : List (String × α)) (k : String)
    {k' : String} (h : k' ≠ k) : alGet (alDel l k) k' = alGet l k' := by
  induction l with
  | nil => simp [alGet, alDel]
  | cons p rest ih =>
    rcases p with ⟨a, b⟩
    by_cases hak : a = k
    · subst hak
      rw [alDel_cons_self, alGet_cons_ne _ _ (Ne.symm h)]
      exact ih
    · rw [alDel_cons_ne _ _ hak]
      by_cases hak' : a = k'
      · subst hak'
        rw [alGet_cons_self, alGet_cons_self]
      · rw [alGet_cons_ne _ _ hak', alGet_cons_ne _ _ hak']
        exact ih

theorem SDel_idem (l : List String) (x : String) : SDel (SDel l x) x = SDel l x := by
  unfold SDel
  rw [List.filter_eq_self]
  intro a ha
  exact (List.mem_filter.mp ha).2

theorem SAdd_idem (l : List String) (x : String) : SAdd (SAdd l x) x = SAdd l x := by
  unfold SAdd
  by_cases h : x ∈ l
  · simp [h]
  · simp [h]

theorem foldl_touch_get (upd : GraphNode → GraphNode)
    (hid : ∀ n, upd (upd n) = upd n) :
    ∀ (ds : List String) (h : Graph) (b : String),
      alGet (ds.foldl (fun g dep =>
        match alGet g dep with
        | some n => alSet g dep (upd n)
        | none => g) h) b =
      (alGet h b).map (fun n => if b ∈ ds then upd n else n) := by
  intro ds
  induction ds with
  | nil =>
    intro h b
    simp
  | cons d ds ih =>
    intro h b
    simp only [List.foldl_cons]
    rw [ih]
    by_cases hbd : b = d
    · subst hbd
      rcases hd : alGet h b with _ | n
      · rw [hd]
        simp
      · rw [alGet_alSet_self]
        simp only [List.mem_cons, true_or, if_true, Option.map_some']
        by_cases hbs : b ∈ ds
        · simp [hbs, hid]
        · simp [hbs]
    · have hg : alGet (match alGet h d with
          | some n => alSet h d (upd n)
          | none => h) b = alGet h b := by
        rcases hd : alGet h d with _ | n
        · rfl
        · exact alGet_alSet_ne _ _ _ hbd
      rw [hg]
      rcases alGet h b with _ | n
      · simp
      · simp only [Option.map_some', Option.some.injEq, List.mem_cons]
        by_cases hbs : b ∈ ds <;> simp [hbs, hbd]

theorem foldl_add_get (key : String) :
    ∀ (ds : List String) (h : Graph) (b : String),
      alGet (ds.foldl (fun g dep =>
        match alGet g dep with
        | some depNode => alSet g dep { depNode with dependents := SAdd depNode.dependents key }
        | none => alSet g dep { key := dep, dependencies := [], dependents := [key] }) h) b =
      (if b ∈ ds then
        some (match alGet h b with
          | some n => { n with dependents := SAdd n.dependents key }
          | none => { key := b, dependencies := [], dependents := [key] })
      else alGet h b) := by
  intro ds
  induction ds with
  | nil =>
    intro h b
    simp
  | cons d ds ih =>
    intro h b
    simp only [List.foldl_cons]
    rw [ih]
    by_cases hbd : b = d
    · subst hbd
      simp only [List.mem_cons, true_or, if_true]
      rcases hd : alGet h b with _ | n
      · rw [alGet_alSet_self]
        by_cases hbs : b ∈ ds
        · simp [hbs, SAdd]
        · simp [hbs]
      · rw [alGet_alSet_self]
        by_cases hbs : b ∈ ds
        · simp [hbs, SAdd_idem]
        · simp [hbs]
    · have hg : alGet (match alGet h d with
          | some depNode => alSet h d { depNode with dependents := SAdd depNode.dependents key }
          | none => alSet h d { key := d, dependencies := [], dependents := [key] }) b
          = alGet h b := by
        rcases hd : alGet h d with _ | n
        · exact alGet_alSet_ne _ _ _ hbd
        · exact alGet_alSet_ne _ _ _ hbd
      rw [hg]
      simp only [List.mem_cons]
      by_cases hbs : b ∈ ds <;> simp [hbs, hbd]

/-- The dependencies of `key`'s existing node (empty if absent); the
list whose reverse edges `updateCell` / `removeCell` first remove. -/
def oldDepsOf (g : Graph) (key : String) : List String :=
  match alGet g key with
  | some old => old.dependencies
  | none => []

/-- Lookup after the remove-old-reverse-edges pass shared by
`updateCell` and `removeCell`. -/
def phase1Get (g : Graph) (key x : String) : Option GraphNode :=
  (alGet g x).map (fun n =>
    if x ∈ oldDepsOf g key then { n with dependents := SDel n.dependents key } else n)

/-- Lookup after `updateCell` has stored the rebuilt node for `key`. -/
def phase2Get (g : Graph) (key : String) (ds : List String) (x : String) : Option GraphNode :=
  if x = key then
    some { key := key, dependencies := jsDedup ds,
           dependents := match phase1Get g key key with
             | some n => n.dependents
             | none => [] }
  else phase1Get g key x

theorem updateCell_get (g : Graph) (key : String) (ds : List String) (x : String) :
    alGet (updateCell g key ds) x =
      if x ∈ jsDedup ds then
        some (match phase2Get g key ds x with
          | some n => { n with dependents := SAdd n.dependents key }
          | none => { key := x, dependencies := [], dependents := [key] })
      else phase2Get g key ds x := by
  rcases hold : alGet g key with _ | old
  · unfold updateCell
    rw [hold]
    dsimp only
    rw [foldl_add_get]
    have hset : ∀ y, alGet (alSet g key
        { key := key, dependencies := jsDedup ds,
          dependents := match alGet g key with
            | some n => n.dependents
            | none => [] }) y = phase2Get g key ds y := by
      intro y
      by_cases hy : y = key
      · subst hy
        rw [alGet_alSet_self]
        simp [phase2Get, phase1Get, hold]
      · rw [alGet_alSet_ne _ _ _ hy]
        simp [phase2Get, phase1Get, hy, oldDepsOf, hold]
    rw [hset]
  · unfold updateCell
    rw [hold]
    dsimp only
    have h1 : ∀ y, alGet (old.dependencies.foldl
        (fun g dep =>
          match alGet g dep with
          | some depNode => alSet g dep { depNode with dependents := SDel depNode.dependents key }
          | none => g) g) y = phase1Get g key y := by
      intro y
      rw [foldl_touch_get (fun n => { n with dependents := SDel n.dependents key })
        (fun n => by simp [SDel_idem])]
      simp [phase1Get, oldDepsOf, hold]
    rw [foldl_add_get]
    rw [h1]
    have hset : ∀ y, alGet (alSet (old.dependencies.foldl
        (fun g dep =>
          match alGet g dep with
          | some depNode => alSet g dep { depNode with dependents := SDel depNode.dependents key }
          | none => g) g) key
        { key := key, dependencies := jsDedup ds,
          dependents := match phase1Get g key key with
            | some n => n.dependents
            | none => [] }) y = phase2Get g key ds y := by
      intro y
      by_cases hy : y = key
      · subst hy
        rw [alGet_alSet_self]
        simp [phase2Get]
      · rw [alGet_alSet_ne _ _ _ hy, h1]
        simp [phase2Get, hy]
    rw [hset]

/-- `a` records `b` among its dependencies. -/
def depEdge (g : Graph) (a b : String) : Prop :=
  ∃ n, alGet g a = some n ∧ b ∈ n.dependencies

theorem mem_SDel {l : List String} {x y : String} : x ∈ SDel l y ↔ x ∈ l ∧ x ≠ y := by
  simp [SDel]

theorem depEdge_key_oldDeps (g : Graph) (key b : String) :
    depEdge g key b ↔ b ∈ oldDepsOf g key := by
  unfold depEdge oldDepsOf
  rcases hok : alGet g key with _ | old <;> simp

theorem updateCell_depEdge (g : Graph) (key : String) (ds : List String) (a b : String) :
    depEdge (updateCell g key ds) a b ↔
      (a = key ∧ b ∈ jsDedup ds) ∨ (a ≠ key ∧ depEdge g a b) := by
  unfold depEdge
  rw [updateCell_get]
  by_cases ha : a = key
  · subst ha
    by_cases haD : a ∈ jsDedup ds <;>
      simp [haD, phase2Get]
  · by_cases haD : a ∈ jsDedup ds
    · simp only [haD, if_true, phase2Get, if_neg ha, phase1Get]
      rcases hga : alGet g a with _ | n
      · simp [ha]
      · by_cases hao : a ∈ oldDepsOf g key <;> simp [hao, ha]
    · simp only [haD, if_false, phase2Get, if_neg ha, phase1Get]
      rcases hga : alGet g a with _ | n
      · simp [ha]
      · by_cases hao : a ∈ oldDepsOf g key <;> simp [hao, ha]

theorem updateCell_depStep (g : Graph) (key : String) (ds : List String)
    (hs : ∀ a b, depEdge g a b ↔ depStep g b a) (a b : String) :
    depStep (updateCell g key ds) b a ↔
      (a = key ∧ b ∈ jsDedup ds) ∨ (a ≠ key ∧ depEdge g a b) := by
  have hnb : ∀ x y, alGet g y = none → ¬ depEdge g x y := by
    intro x y hy hd
    rcases (hs x y).mp hd with ⟨n, hn, _⟩
    rw [hy] at hn
    cases hn
  have hmem : ∀ (nb : GraphNode) x, alGet g b = some nb → (x ∈ nb.dependents ↔ depEdge g x b) := by
    intro nb x hnbg
    constructor
    · intro hx
      exact (hs x b).mpr ⟨nb, hnbg, hx⟩
    · intro hd
      rcases (hs x b).mp hd with ⟨nb', hnb', hx⟩
      rw [hnbg] at hnb'
      cases hnb'
      exact hx
  unfold depStep
  rw [updateCell_get g key ds b]
  by_cases hbk : b = key
  · subst hbk
    rcases hok : alGet g b with _ | old
    · have hp2 : phase2Get g b ds b =
          some { key := b, dependencies := jsDedup ds, dependents := [] } := by
        simp [phase2Get, phase1Get, hok]
      by_cases hbD : b ∈ jsDedup ds
      · rw [if_pos hbD, hp2]
        simp only [Option.some.injEq, exists_eq_left']
        simp [SAdd, hbD, hnb a b hok]
      · rw [if_neg hbD, hp2]
        simp [hbD, hnb a b hok]
    · have hod : oldDepsOf g b = old.dependencies := by simp [oldDepsOf, hok]
      have hma : a ∈ old.dependents ↔ depEdge g a b := hmem old a hok
      have hko : b ∈ old.dependents ↔ b ∈ old.dependencies := by
        rw [hmem old b hok]
        simp [depEdge, hok]
      by_cases hbo : b ∈ old.dependencies
      · have hp2 : phase2Get g b ds b =
            some { key := b, dependencies := jsDedup ds,
                   dependents := SDel old.dependents b } := by
          simp [phase2Get, phase1Get, hok, hod, hbo]
        by_cases hbD : b ∈ jsDedup ds
        · rw [if_pos hbD, hp2]
          simp only [Option.some.injEq, exists_eq_left']
          simp only [mem_SAdd, mem_SDel, hma, hbD, and_true]
          tauto
        · rw [if_neg hbD, hp2]
          simp only [Option.some.injEq, exists_eq_left']
          simp only [mem_SDel, hma, hbD, false_and, false_or]
          tauto
      · have hp2 : phase2Get g b ds b =
            some { key := b, dependencies := jsDedup ds,
                   dependents := old.dependents } := by
          simp [phase2Get, phase1Get, hok, hod, hbo]
        have hnd : ¬ depEdge g b b := by
          simp [depEdge, hok, hbo]
        by_cases hbD : b ∈ jsDedup ds
        · rw [if_pos hbD, hp2]
          simp only [Option.some.injEq, exists_eq_left']
          simp only [mem_SAdd, hma, hbD, and_true]
          tauto
        · rw [if_neg hbD, hp2]
          simp only [Option.some.injEq, exists_eq_left']
          simp only [hma, hbD, and_false, false_or]
          constructor
          · intro hd
            refine ⟨?_, hd⟩
            rintro rfl
            exact hnd hd
          · exact fun h => h.2
  · rcases hgb : alGet g b with _ | nb
    · have hp2 : phase2Get g key ds b = none := by
        simp [phase2Get, phase1Get, hbk, hgb]
      by_cases hbD : b ∈ jsDedup ds
      · rw [if_pos hbD, hp2]
        simp only [Option.some.injEq, exists_eq_left']
        simp [hbD, hnb a b hgb]
      · rw [if_neg hbD, hp2]
        simp [hbD, hnb a b hgb]
    · have hma : a ∈ nb.dependents ↔ depEdge g a b := hmem nb a hgb
      have hmk : key ∈ nb.dependents ↔ b ∈ oldDepsOf g key := by
        rw [hmem nb key hgb, depEdge_key_oldDeps]
      by_cases hbo : b ∈ oldDepsOf g key
      · have hp2 : phase2Get g key ds b =
            some { nb with dependents := SDel nb.dependents key } := by
          simp [phase2Get, phase1Get, hbk, hgb, hbo]
        by_cases hbD : b ∈ jsDedup ds
        · rw [if_pos hbD, hp2]
          simp only [Option.some.injEq, exists_eq_left']
          simp only [mem_SAdd, mem_SDel, hma, hbD, and_true]
          tauto
        · rw [if_neg hbD, hp2]
          simp only [Option.some.injEq, exists_eq_left']
          simp only [mem_SDel, hma, hbD, false_and, false_or]
          tauto
      · have hknd : key ∉ nb.dependents := fun h => hbo (hmk.mp h)
        have hnd : ¬ depEdge g key b := fun h => hbo ((depEdge_key_oldDeps g key b).mp h)
        by_cases hbD : b ∈ jsDedup ds
        · have hp2 : phase2Get g key ds b = some nb := by
            simp [phase2Get, phase1Get, hbk, hgb, hbo]
          rw [if_pos hbD, hp2]
          simp only [Option.some.injEq, exists_eq_left']
          simp only [mem_SAdd, hma, hbD, and_true]
          tauto
        · have hp2 : phase2Get g key ds b = some nb := by
            simp [phase2Get, phase1Get, hbk, hgb, hbo]
          rw [if_neg hbD, hp2]
          simp only [Option.some.injEq, exists_eq_left']
          simp only [hma, hbD, and_false, false_or]
          constructor
          · intro hd
            refine ⟨?_, hd⟩
            rintro rfl
            exact hnd hd
          · exact fun h => h.2

/-- The dependents list `removeCell` iterates over: `key`'s dependents
as they stand after the first removal pass (a self-loop has already
been deleted from it). -/
def keyDependents1 (g : Graph) (key : String) : List String :=
  match phase1Get g key key with
  | some n => n.dependents
  | none => []

theorem removeCell_get (g : Graph) (key x : String) :
    alGet (removeCell g key) x =
      match alGet g key with
      | none => alGet g x
      | some _ =>
        if x = key then none
        else (phase1Get g key x).map (fun n =>
          if x ∈ keyDependents1 g key then { n with dependencies := SDel n.dependencies key }
          else n) := by
  rcases hok : alGet g key with _ | old
  · unfold removeCell
    rw [hok]
  · unfold removeCell
    rw [hok]
    dsimp only
    have h1 : ∀ y, alGet (old.dependencies.foldl
        (fun g dep =>
          match alGet g dep with
          | some depNode => alSet g dep { depNode with dependents := SDel depNode.dependents key }
          | none => g) g) y = phase1Get g key y := by
      intro y
      rw [foldl_touch_get (fun n => { n with dependents := SDel n.dependents key })
        (fun n => by simp [SDel_idem])]
      simp [phase1Get, oldDepsOf, hok]
    rw [h1]
    have hkd : (match phase1Get g key key with
        | some n => n.dependents
        | none => []) = keyDependents1 g key := rfl
    rw [hkd]
    have h2 : ∀ y, alGet ((keyDependents1 g key).foldl
        (fun g dependent =>
          match alGet g dependent with
          | some depNode =>
            alSet g dependent { depNode with dependencies := SDel depNode.dependencies key }
          | none => g) (old.dependencies.foldl
        (fun g dep =>
          match alGet g dep with
          | some depNode => alSet g dep { depNode with dependents := SDel depNode.dependents key }
          | none => g) g)) y =
        (phase1Get g key y).map (fun n =>
          if y ∈ keyDependents1 g key then { n with dependencies := SDel n.dependencies key }
          else n) := by
      intro y
      rw [foldl_touch_get (fun n => { n with dependencies := SDel n.dependencies key })
        (fun n => by simp [SDel_idem])]
      rw [h1]
    by_cases hx : x = key
    · subst hx
      rw [alGet_alDel_self]
      simp
    · rw [alGet_alDel_ne _ _ hx, h2]
      simp [hx]

theorem removeCell_depEdge (g : Graph) (key : String)
    (hs : ∀ a b, depEdge g a b ↔ depStep g b a) (a b : String) :
    depEdge (removeCell g key) a b ↔ a ≠ key ∧ b ≠ key ∧ depEdge g a b := by
  have hsf : ∀ x y, alGet g y = none → ¬ depEdge g x y := by
    intro x y hy hd
    rcases (hs x y).mp hd with ⟨n, hn, _⟩
    rw [hy] at hn
    cases hn
  unfold depEdge
  rw [removeCell_get g key a]
  rcases hok : alGet g key with _ | old
  · dsimp only
    constructor
    · rintro ⟨n, hn, hb⟩
      refine ⟨?_, ?_, n, hn, hb⟩
      · rintro rfl
        rw [hok] at hn
        cases hn
      · rintro rfl
        exact hsf a b hok ⟨n, hn, hb⟩
    · rintro ⟨_, _, n, hn, hb⟩
      exact ⟨n, hn, hb⟩
  · dsimp only
    have hod : oldDepsOf g key = old.dependencies := by simp [oldDepsOf, hok]
    have hkdep : ∀ x, x ≠ key → (x ∈ keyDependents1 g key ↔ x ∈ old.dependents) := by
      intro x hx
      unfold keyDependents1
      simp only [phase1Get, hok, Option.map_some', hod]
      by_cases hko : key ∈ old.dependencies
      · simp [hko, mem_SDel, hx]
      · simp [hko]
    by_cases hak : a = key
    · rw [if_pos hak]
      constructor
      · rintro ⟨n, hn, _⟩
        cases hn
      · rintro ⟨hna, _, _⟩
        exact absurd hak hna
    · rw [if_neg hak]
      rcases hga : alGet g a with _ | na
      · have hp1 : phase1Get g key a = none := by simp [phase1Get, hga]
        rw [hp1]
        constructor
        · rintro ⟨n, hn, _⟩
          cases hn
        · rintro ⟨_, _, n, hn, _⟩
          cases hn
      · have hdk : key ∈ na.dependencies ↔ a ∈ old.dependents := by
          constructor
          · intro h
            rcases (hs a key).mp ⟨na, hga, h⟩ with ⟨nk, hnk, ha⟩
            rw [hok] at hnk
            cases hnk
            exact ha
          · intro h
            rcases (hs a key).mpr ⟨old, hok, h⟩ with ⟨na', hna', hk⟩
            rw [hga] at hna'
            cases hna'
            exact hk
        by_cases hao : a ∈ oldDepsOf g key
        · have hp1 : phase1Get g key a =
              some { na with dependents := SDel na.dependents key } := by
            simp [phase1Get, hga, hao]
          rw [hp1]
          simp only [Option.map_some', Option.some.injEq, exists_eq_left']
          by_cases hakd : a ∈ keyDependents1 g key
          · simp only [if_pos hakd]
            simp only [mem_SDel, ne_eq]
            tauto
          · have hand : a ∉ old.dependents := fun h => hakd ((hkdep a hak).mpr h)
            have hknd : key ∉ na.dependencies := fun h => hand (hdk.mp h)
            simp only [if_neg hakd]
            constructor
            · intro h
              refine ⟨hak, ?_, h⟩
              rintro rfl
              exact hknd h
            · exact fun h => h.2.2
        · have hp1 : phase1Get g key a = some na := by
            simp [phase1Get, hga, hao]
          rw [hp1]
          simp only [Option.map_some', Option.some.injEq, exists_eq_left']
          by_cases hakd : a ∈ keyDependents1 g key
          · simp only [if_pos hakd]
            simp only [mem_SDel, ne_eq]
            tauto
          · have hand : a ∉ old.dependents := fun h => hakd ((hkdep a hak).mpr h)
            have hknd : key ∉ na.dependencies := fun h => hand (hdk.mp h)
            simp only [if_neg hakd]
            constructor
            · intro h
              refine ⟨hak, ?_, h⟩
              rintro rfl
              exact hknd h
            · exact fun h => h.2.2

theorem removeCell_depStep (g : Graph) (key : String)
    (hs : ∀ a b, depEdge g a b ↔ depStep g b a) (a b : String) :
    depStep (removeCell g key) b a ↔ a ≠ key ∧ b ≠ key ∧ depEdge g a b := by
  unfold depStep
  rw [removeCell_get g key b]
  rcases hok : alGet g key with _ | old
  · dsimp only
    constructor
    · rintro ⟨n, hn, ha⟩
      refine ⟨?_, ?_, (hs a b).mpr ⟨n, hn, ha⟩⟩
      · rintro rfl
        rcases (hs a b).mpr ⟨n, hn, ha⟩ with ⟨nk, hnk, _⟩
        rw [hok] at hnk
        cases hnk
      · rintro rfl
        rw [hok] at hn
        cases hn
    · rintro ⟨_, _, hd⟩
      exact (hs a b).mp hd
  · dsimp only
    by_cases hbk : b = key
    · rw [if_pos hbk]
      constructor
      · rintro ⟨n, hn, _⟩
        cases hn
      · rintro ⟨_, hnb, _⟩
        exact absurd hbk hnb
    · rw [if_neg hbk]
      rcases hgb : alGet g b with _ | nb
      · have hp1 : phase1Get g key b = none := by simp [phase1Get, hgb]
        rw [hp1]
        constructor
        · rintro ⟨n, hn, _⟩
          cases hn
        · rintro ⟨_, _, hd⟩
          rcases (hs a b).mp hd with ⟨n, hn, _⟩
          rw [hgb] at hn
          cases hn
      · have hma : ∀ x, x ∈ nb.dependents ↔ depEdge g x b := by
          intro x
          constructor
          · intro hx
            exact (hs x b).mpr ⟨nb, hgb, hx⟩
          · intro hd
            rcases (hs x b).mp hd with ⟨nb', hnb', hx⟩
            rw [hgb] at hnb'
            cases hnb'
            exact hx
        have hmk : key ∈ nb.dependents ↔ b ∈ oldDepsOf g key := by
          rw [hma key, depEdge_key_oldDeps]
        by_cases hbo : b ∈ oldDepsOf g key
        · have hp1 : phase1Get g key b =
              some { nb with dependents := SDel nb.dependents key } := by
            simp [phase1Get, hgb, hbo]
          rw [hp1]
          simp only [Option.map_some', Option.some.injEq, exists_eq_left']
          by_cases hbkd : b ∈ keyDependents1 g key
          · simp only [if_pos hbkd]
            constructor
            · intro ha
              rcases mem_SDel.mp ha with ⟨hand, hank⟩
              exact ⟨hank, hbk, (hma a).mp hand⟩
            · rintro ⟨hank, _, hd⟩
              exact mem_SDel.mpr ⟨(hma a).mpr hd, hank⟩
          · simp only [if_neg hbkd]
            constructor
            · intro ha
              rcases mem_SDel.mp ha with ⟨hand, hank⟩
              exact ⟨hank, hbk, (hma a).mp hand⟩
            · rintro ⟨hank, _, hd⟩
              exact mem_SDel.mpr ⟨(hma a).mpr hd, hank⟩
        · have hp1 : phase1Get g key b = some nb := by
            simp [phase1Get, hgb, hbo]
          rw [hp1]
          simp only [Option.map_some', Option.some.injEq, exists_eq_left']
          have hknd : key ∉ nb.dependents := fun h => hbo (hmk.mp h)
          by_cases hbkd : b ∈ keyDependents1 g key
          · simp only [if_pos hbkd]
            constructor
            · intro ha
              refine ⟨?_, hbk, (hma a).mp ha⟩
              rintro rfl
              exact hknd ha
            · rintro ⟨_, _, hd⟩
              exact (hma a).mpr hd
          · simp only [if_neg hbkd]
            constructor
            · intro ha
              refine ⟨?_, hbk, (hma a).mp ha⟩
              rintro rfl
              exact hknd ha
            · rintro ⟨_, _, hd⟩
              exact (hma a).mpr hd

/-- Graph states reachable through the public mutators: the fresh
(empty) graph, `updateCell`, `removeCell` and `clear`. -/
inductive Reachable : Graph → Prop where
  | init : Reachable clearGraph
  | update (g : Graph) (key : String) (ds : List String) :
      Reachable g → Reachable (updateCell g key ds)
  | remove (g : Graph) (key : String) : Reachable g → Reachable (removeCell g key)
  | clear (g : Graph) : Reachable g → Reachable clearGraph

/-- C7: edge symmetry is an invariant preserved by every mutation.  In
every graph state reachable through `updateCell` / `removeCell` /
`clear` from the fresh graph, a key `a` has `b` in its dependencies set
(`depEdge g a b`) if and only if `b`'s node exists and has `a` in its
dependents set (`depStep g b a`). -/
theorem C7_edge_symmetry (g : Graph) (hg : Reachable g) :
    ∀ a b, depEdge g a b ↔ depStep g b a := by
  induction hg with
  | init =>
    intro a b
    constructor
    · rintro ⟨n, hn, _⟩
      simp [alGet, clearGraph] at hn
    · rintro ⟨n, hn, _⟩
      simp [alGet, clearGraph] at hn
  | update g key ds hg ih =>
    intro a b
    rw [updateCell_depEdge g key ds a b, updateCell_depStep g key ds ih a b]
  | remove g key hg ih =>
    intro a b
    rw [removeCell_depEdge g key ih a b, removeCell_depStep g key ih a b]
  | clear g hg ih =>
    intro a b
    constructor
    · rintro ⟨n, hn, _⟩
      simp [alGet, clearGraph] at hn
    · rintro ⟨n, hn, _⟩
      simp [alGet, clearGraph] at hn

/-- C7 witness: the invariant instantiated on the concrete reachable
state reached by one `updateCell` from the fresh graph. -/
theorem C7_edge_symmetry_witness :
    Reachable (updateCell clearGraph "A1" ["B1"]) ∧
    (depEdge (updateCell clearGraph "A1" ["B1"]) "A1" "B1" ↔
      depStep (updateCell clearGraph "A1" ["B1"]) "B1" "A1") :=
  ⟨Reachable.update clearGraph "A1" ["B1"] Reachable.init,
   C7_edge_symmetry _ (Reachable.update clearGraph "A1" ["B1"] Reachable.init) "A1" "B1"⟩

/-! ## Claim C4: Kahn's algorithm on a key subset -/

/-- The in-subset dependencies of a key: what the in-degree
initialisation counts and the emission loop decrements. -/
def depsIn (g : Graph) (keys : List String) (k : String) : List String :=
  match alGet g k with
  | some n => n.dependencies.filter (fun d => decide (d ∈ keys))
  | none => []

theorem filter_notMem_length_succ {U vis : List String} {x : String} (hU : U.Nodup)
    (hxU : x ∈ U) (hxv : x ∉ vis) :
    (U.filter (fun y => ¬ y ∈ vis ++ [x])).length + 1 =
      (U.filter (fun y => ¬ y ∈ vis)).length := by
  induction U with
  | nil => simp at hxU
  | cons u rest ih =>
    rcases List.nodup_cons.mp hU with ⟨hur, hrest⟩
    simp only [List.filter_cons]
    rcases List.mem_cons.mp hxU with rfl | hxr
    · have e1 : (decide ¬x ∈ vis ++ [x]) = false := by simp
      have e2 : (decide ¬x ∈ vis) = true := by simp [hxv]
      simp only [e1, e2, if_true, if_false, Bool.false_eq_true, List.length_cons]
      rw [filter_notMem_length_eq hur]
    · have hux : u ≠ x := fun h => hur (h ▸ hxr)
      have e0 : (u ∈ vis ++ [x]) ↔ (u ∈ vis) := by simp [hux]
      by_cases hu : u ∈ vis
      · have e1 : (decide ¬u ∈ vis ++ [x]) = false := by simp [e0.mpr hu]
        have e2 : (decide ¬u ∈ vis) = false := by simp [hu]
        simp only [e1, e2, if_false, Bool.false_eq_true]
        exact ih hrest hxr
      · have e1 : (decide ¬u ∈ vis ++ [x]) = true := by simp [hu, hux]
        have e2 : (decide ¬u ∈ vis) = true := by simp [hu]
        simp only [e1, e2, if_true, List.length_cons]
        have := ih hrest hxr
        omega

theorem processDeps_getD (keys : List String) :
    ∀ (deps : List String) (m : DegMap) (rest : List String) (k : String),
      deps.Nodup →
      alGet (processDeps keys deps (m, rest)).1 k =
        if k ∈ deps ∧ k ∈ keys then some (degDec (alGet m k)) else alGet m k := by
  intro deps
  induction deps with
  | nil =>
    intro m rest k _
    simp [processDeps]
  | cons d ds ih =>
    intro m rest k hnd
    rcases List.nodup_cons.mp hnd with ⟨hdds, hds⟩
    unfold processDeps at ih ⊢
    simp only [List.foldl_cons]
    by_cases hdk : d ∈ keys
    · have hstep : stepDeg keys (m, rest) d =
          (alSet m d (degDec (alGet m d)),
           if degDec (alGet m d) = some 0 then rest ++ [d] else rest) := by
        simp [stepDeg, hdk]
      rw [hstep]
      by_cases hrq : degDec (alGet m d) = some 0
      · rw [if_pos hrq]
        rw [ih _ _ _ hds]
        by_cases hkd : k = d
        · subst hkd
          have hknds : k ∉ ds := hdds
          simp only [hknds, false_and, if_false, alGet_alSet_self]
          simp [hdk]
        · rw [alGet_alSet_ne _ _ _ hkd]
          simp only [List.mem_cons]
          by_cases hkds : k ∈ ds <;> by_cases hkk : k ∈ keys <;>
            simp [hkds, hkk, hkd]
      · rw [if_neg hrq]
        rw [ih _ _ _ hds]
        by_cases hkd : k = d
        · subst hkd
          have hknds : k ∉ ds := hdds
          simp only [hknds, false_and, if_false, alGet_alSet_self]
          simp [hdk]
        · rw [alGet_alSet_ne _ _ _ hkd]
          simp only [List.mem_cons]
          by_cases hkds : k ∈ ds <;> by_cases hkk : k ∈ keys <;>
            simp [hkds, hkk, hkd]
    · have hstep : stepDeg keys (m, rest) d = (m, rest) := by
        simp [stepDeg, hdk]
      rw [hstep, ih _ _ _ hds]
      simp only [List.mem_cons]
      by_cases hkds : k ∈ ds <;> by_cases hkk : k ∈ keys <;> by_cases hkd : k = d <;>
        simp_all

theorem processDeps_queueD (keys : List String) :
    ∀ (deps : List String) (m : DegMap) (rest : List String),
      deps.Nodup →
      (processDeps keys deps (m, rest)).2 =
        rest ++ deps.filter (fun d =>
          decide (d ∈ keys) && decide (degDec (alGet m d) = some 0)) := by
  intro deps
  induction deps with
  | nil =>
    intro m rest _
    simp [processDeps]
  | cons d ds ih =>
    intro m rest hnd
    rcases List.nodup_cons.mp hnd with ⟨hdds, hds⟩
    unfold processDeps at ih ⊢
    simp only [List.foldl_cons, List.filter_cons]
    have hget : ∀ x ∈ ds, alGet (stepDeg keys (m, rest) d).1 x = alGet m x := by
      intro x hx
      have hxd : x ≠ d := fun h => hdds (h ▸ hx)
      unfold stepDeg
      by_cases hdk : d ∈ keys
      · simp only [hdk, if_true]
        exact alGet_alSet_ne _ _ _ hxd
      · simp [hdk]
    have hfilter : ds.filter (fun x =>
          decide (x ∈ keys) && decide (degDec (alGet (stepDeg keys (m, rest) d).1 x) = some 0)) =
        ds.filter (fun x => decide (x ∈ keys) && decide (degDec (alGet m x) = some 0)) := by
      apply List.filter_congr
      intro x hx
      rw [hget x hx]
    by_cases hdk : d ∈ keys
    · by_cases hz : degDec (alGet m d) = some 0
      · have hstep : stepDeg keys (m, rest) d =
            (alSet m d (degDec (alGet m d)), rest ++ [d]) := by
          simp [stepDeg, hdk, hz]
        rw [ih _ _ hds]
        have hcond : (decide (d ∈ keys) && decide (degDec (alGet m d) = some 0)) = true := by
          simp [hdk, hz]
        rw [hcond]
        simp only [if_true]
        rw [hstep] at hfilter ⊢
        simp only at hfilter ⊢
        rw [hfilter]
        simp
      · have hstep : stepDeg keys (m, rest) d =
            (alSet m d (degDec (alGet m d)), rest) := by
          simp [stepDeg, hdk, hz]
        rw [ih _ _ hds]
        have hcond : (decide (d ∈ keys) && decide (degDec (alGet m d) = some 0)) = false := by
          simp [hz]
        rw [hcond]
        simp only [Bool.false_eq_true, if_false]
        rw [hstep] at hfilter ⊢
        simp only at hfilter ⊢
        rw [hfilter]
    · have hstep : stepDeg keys (m, rest) d = (m, rest) := by
        simp [stepDeg, hdk]
      rw [ih _ _ hds]
      have hcond : (decide (d ∈ keys) && decide (degDec (alGet m d) = some 0)) = false := by
        simp [hdk]
      rw [hcond]
      simp only [Bool.false_eq_true, if_false]
      rw [hstep] at hfilter ⊢

theorem initDegrees_spec (g : Graph) (keys : List String)
    (hpres : ∀ k ∈ keys, (alGet g k).isSome = true) :
    ∀ (ks : List String) (st : DegMap × List String),
      ks.Nodup → (∀ k ∈ ks, k ∈ keys) →
      ((∀ k, alGet (ks.foldl
        (fun (st : DegMap × List String) key =>
          match alGet g key with
          | none => st
          | some node =>
            let degree : ℤ := node.dependencies.countP (fun dep => decide (dep ∈ keys))
            (alSet st.1 key (some degree), if degree = 0 then st.2 ++ [key] else st.2)) st).1 k =
        if k ∈ ks then some (some ((depsIn g keys k).length : ℤ)) else alGet st.1 k) ∧
       (ks.foldl
        (fun (st : DegMap × List String) key =>
          match alGet g key with
          | none => st
          | some node =>
            let degree : ℤ := node.dependencies.countP (fun dep => decide (dep ∈ keys))
            (alSet st.1 key (some degree), if degree = 0 then st.2 ++ [key] else st.2)) st).2 =
        st.2 ++ ks.filter (fun k => decide ((depsIn g keys k).length = 0))) := by
  intro ks
  induction ks with
  | nil =>
    intro st _ _
    refine ⟨fun k => by simp, by simp⟩
  | cons c ks ih =>
    intro st hnd hsub
    rcases List.nodup_cons.mp hnd with ⟨hcks, hksnd⟩
    have hc : c ∈ keys := hsub c (List.mem_cons_self _ _)
    rcases hn : alGet g c with _ | node
    · have := hpres c hc
      rw [hn] at this
      simp at this
    · have hdeg : (node.dependencies.countP (fun dep => decide (dep ∈ keys)) : ℤ) =
          ((depsIn g keys c).length : ℤ) := by
        simp [depsIn, hn, List.countP_eq_length_filter]
      simp only [List.foldl_cons, hn]
      obtain ⟨ihg, ihq⟩ := ih _ hksnd (fun k hk => hsub k (List.mem_cons_of_mem _ hk))
      constructor
      · intro k
        rw [ihg k]
        by_cases hkks : k ∈ ks
        · simp [hkks, List.mem_cons]
        · simp only [hkks, if_false, Bool.false_eq_true]
          by_cases hkc : k = c
          · subst hkc
            simp only [List.mem_cons, true_or, if_true, alGet_alSet_self]
            rw [hdeg]
          · rw [alGet_alSet_ne _ _ _ hkc]
            simp [hkc, hkks, List.mem_cons]
      · rw [ihq]
        simp only [List.filter_cons]
        by_cases hz : (node.dependencies.countP (fun dep => decide (dep ∈ keys)) : ℤ) = 0
        · have hz' : (decide ((depsIn g keys c).length = 0)) = true := by
            rw [hdeg] at hz
            simpa using hz
          rw [hz']
          simp only [if_pos hz, if_true]
          simp
        · have hz' : (decide ((depsIn g keys c).length = 0)) = false := by
            rw [hdeg] at hz
            simpa using hz
          rw [hz']
          simp only [if_neg hz, Bool.false_eq_true, if_false]

theorem kahnLoop_nil (g : Graph) (keys : List String) (m : DegMap) (result : List String) :
    kahnLoop g keys m [] result = (m, result) := by
  rw [kahnLoop.eq_def]

theorem kahnLoop_cons_none (g : Graph) (keys : List String) (m : DegMap)
    {current : String} (rest result : List String) (hn : alGet g current = none) :
    kahnLoop g keys m (current :: rest) result =
      kahnLoop g keys m rest (result ++ [current]) := by
  rw [kahnLoop.eq_def]
  dsimp only
  split
  · rfl
  · next node heq => simp [hn] at heq

theorem kahnLoop_cons_some (g : Graph) (keys : List String) (m : DegMap)
    {current : String} (rest result : List String) {node : GraphNode}
    (hn : alGet g current = some node) :
    kahnLoop g keys m (current :: rest) result =
      kahnLoop g keys (processDeps keys node.dependents (m, rest)).1
        (processDeps keys node.dependents (m, rest)).2 (result ++ [current]) := by
  rw [kahnLoop.eq_def]
  dsimp only
  split
  · next heq => simp [hn] at heq
  · next node' heq =>
    rw [hn] at heq
    cases heq
    rfl

theorem eq_singleton_of_nodup {l : List String} {c : String} (hnd : l.Nodup)
    (hsub : ∀ x ∈ l, x = c) (hc : c ∈ l) : l = [c] := by
  rcases l with _ | ⟨a, rest⟩
  · simp at hc
  · have ha : a = c := hsub a (List.mem_cons_self _ _)
    subst ha
    rcases rest with _ | ⟨b, rest'⟩
    · rfl
    · have hb : b = a := hsub b (by simp)
      subst hb
      simp at hnd

theorem kahnLoop_spec (g : Graph) (keys : List String)
    (hpres : ∀ k ∈ keys, (alGet g k).isSome = true)
    (hs : ∀ a b, depEdge g a b ↔ depStep g b a)
    (hadj : ∀ k ∈ keys, ∀ n, alGet g k = some n →
      n.dependencies.Nodup ∧ n.dependents.Nodup) :
    ∀ (m : DegMap) (queue result : List String),
      (∀ k ∈ keys, alGet m k =
        some (some (((depsIn g keys k).filter (fun a => ¬ a ∈ result)).length : ℤ))) →
      (result ++ queue).Nodup →
      (∀ x ∈ result ++ queue, x ∈ keys) →
      (∀ q ∈ queue, ∀ a ∈ depsIn g keys q, a ∈ result) →
      (∀ k ∈ keys, (∀ a ∈ depsIn g keys k, a ∈ result) → k ∈ result ∨ k ∈ queue) →
      (∀ r1 a r2, result = r1 ++ a :: r2 → ∀ p ∈ depsIn g keys a, p ∈ r1) →
      ((kahnLoop g keys m queue result).2.Nodup ∧
       (∀ x ∈ (kahnLoop g keys m queue result).2, x ∈ keys) ∧
       (∀ k ∈ keys, (∀ a ∈ depsIn g keys k, a ∈ (kahnLoop g keys m queue result).2) →
         k ∈ (kahnLoop g keys m queue result).2) ∧
       (∀ r1 a r2, (kahnLoop g keys m queue result).2 = r1 ++ a :: r2 →
         ∀ p ∈ depsIn g keys a, p ∈ r1)) := by
  have hdin : ∀ k ∈ keys, (depsIn g keys k).Nodup := by
    intro k hk
    unfold depsIn
    rcases hgk : alGet g k with _ | n
    · simp
    · exact ((hadj k hk n hgk).1).filter _
  intro m queue result
  induction m, queue, result using kahnLoop.induct g keys with
  | case1 m result =>
    intro hJ1 hJ2 hJ3 hJ4 hJ5 hJ6
    rw [kahnLoop_nil]
    refine ⟨by simpa using hJ2, fun x hx => hJ3 x (by simpa using hx), ?_, hJ6⟩
    intro k hk hall
    rcases hJ5 k hk hall with h | h
    · exact h
    · simp at h
  | case2 m result current rest result' hn ih =>
    intro hJ1 hJ2 hJ3 hJ4 hJ5 hJ6
    exfalso
    have hc : current ∈ keys := hJ3 current (by simp)
    have := hpres current hc
    rw [hn] at this
    simp at this
  | case3 m result current rest result' oldNode hn st ih =>
    intro hJ1 hJ2 hJ3 hJ4 hJ5 hJ6
    simp only [show result' = result ++ [current] from rfl] at ih
    have hck : current ∈ keys := hJ3 current (by simp)
    have hcr : current ∉ result := by
      intro h
      have := List.disjoint_of_nodup_append hJ2
      exact this h (by simp)
    have hcrest : current ∉ rest := by
      have h2 : (result ++ current :: rest).Nodup := hJ2
      have := (List.nodup_append.mp h2).2.1
      simp only [List.nodup_cons] at this
      exact this.1
    have hDnd : oldNode.dependents.Nodup := (hadj current hck oldNode hn).2
    have hcd : ∀ x, x ∈ keys → (x ∈ oldNode.dependents ↔ current ∈ depsIn g keys x) := by
      intro x hx
      constructor
      · intro hmemx
        have hds : depStep g current x := ⟨oldNode, hn, hmemx⟩
        have hde : depEdge g x current := (hs x current).mpr hds
        rcases hde with ⟨nx, hnx, hcx⟩
        unfold depsIn
        rw [hnx]
        simp [hcx, hck]
      · intro hmemx
        unfold depsIn at hmemx
        rcases hnx : alGet g x with _ | nx
        · rw [hnx] at hmemx
          simp at hmemx
        · rw [hnx] at hmemx
          simp only [List.mem_filter, decide_eq_true_eq] at hmemx
          have hde : depEdge g x current := ⟨nx, hnx, hmemx.1⟩
          rcases (hs x current).mp hde with ⟨node', hnode', hx'⟩
          rw [hn] at hnode'
          cases hnode'
          exact hx'
    have hstget : ∀ k, alGet st.1 k =
        if k ∈ oldNode.dependents ∧ k ∈ keys then some (degDec (alGet m k)) else alGet m k :=
      fun k => processDeps_getD keys oldNode.dependents m rest k hDnd
    have hstq : st.2 = rest ++ oldNode.dependents.filter (fun d =>
        decide (d ∈ keys) && decide (degDec (alGet m d) = some 0)) :=
      processDeps_queueD keys oldNode.dependents m rest hDnd
    -- membership facts for the pushed list
    have hpushmem : ∀ x, x ∈ oldNode.dependents.filter (fun d =>
        decide (d ∈ keys) && decide (degDec (alGet m d) = some 0)) ↔
        x ∈ oldNode.dependents ∧ x ∈ keys ∧ degDec (alGet m x) = some 0 := by
      intro x
      simp [List.mem_filter, and_assoc]
    have hpush_deps : ∀ x, x ∈ oldNode.dependents → x ∈ keys →
        degDec (alGet m x) = some 0 → ∀ a ∈ depsIn g keys x, a ∈ (result ++ [current]) := by
      intro x hxd hxk hzero
      have hcx : current ∈ depsIn g keys x := (hcd x hxk).mp hxd
      have hcnt := hJ1 x hxk
      rw [hcnt] at hzero
      simp only [degDec, Option.some.injEq] at hzero
      have hlen : ((depsIn g keys x).filter (fun a => ¬ a ∈ result)).length = 1 := by omega
      have hsucc := filter_notMem_length_succ (hdin x hxk) hcx hcr
      have hzero' : ((depsIn g keys x).filter (fun a => ¬ a ∈ result ++ [current])).length = 0 := by
        omega
      have hnil := List.length_eq_zero.mp hzero'
      intro a ha
      by_contra hna
      have : a ∈ (depsIn g keys x).filter (fun a => ¬ a ∈ result ++ [current]) := by
        simp only [List.mem_filter, decide_eq_true_eq]
        exact ⟨ha, hna⟩
      rw [hnil] at this
      simp at this
    have hqdeps : ∀ q ∈ current :: rest, ∀ a ∈ depsIn g keys q, a ∈ result := hJ4
    have hpush_notin : ∀ x, x ∈ oldNode.dependents → x ∈ keys →
        degDec (alGet m x) = some 0 → x ∉ result ∧ x ∉ rest ∧ x ≠ current := by
      intro x hxd hxk hzero
      have hcx : current ∈ depsIn g keys x := (hcd x hxk).mp hxd
      refine ⟨?_, ?_, ?_⟩
      · intro hxr
        rcases List.append_of_mem hxr with ⟨r1, r2, hsplit⟩
        have hsub := hJ6 r1 x r2 hsplit current hcx
        apply hcr
        rw [hsplit]
        simp [hsub]
      · intro hxrest
        exact hcr (hqdeps x (List.mem_cons_of_mem _ hxrest) current hcx)
      · rintro rfl
        exact hcr (hqdeps x (List.mem_cons_self _ _) x hcx)
    -- new invariants
    have hJ1' : ∀ k ∈ keys, alGet st.1 k =
        some (some (((depsIn g keys k).filter (fun a => ¬ a ∈ (result ++ [current]))).length : ℤ)) := by
      intro k hk
      rw [hstget k]
      by_cases hkd : k ∈ oldNode.dependents
      · simp only [hkd, hk, and_self, if_true]
        have hck' : current ∈ depsIn g keys k := (hcd k hk).mp hkd
        have hsucc := filter_notMem_length_succ (hdin k hk) hck' hcr
        rw [hJ1 k hk]
        simp only [degDec, Option.some.injEq]
        congr 1
        congr 1
        omega
      · simp only [hkd, false_and, if_false]
        have hck' : current ∉ depsIn g keys k := fun h => hkd ((hcd k hk).mpr h)
        rw [hJ1 k hk]
        rw [filter_notMem_length_eq hck']
    have hJ2' : ((result ++ [current]) ++ st.2).Nodup := by
      rw [hstq]
      have horig : ((result ++ [current]) ++ rest).Nodup := by
        have : (result ++ [current]) ++ rest = result ++ current :: rest := by
          simp
        rw [this]
        exact hJ2
      rw [show (result ++ [current]) ++ (rest ++ oldNode.dependents.filter (fun d =>
          decide (d ∈ keys) && decide (degDec (alGet m d) = some 0))) =
        ((result ++ [current]) ++ rest) ++ oldNode.dependents.filter (fun d =>
          decide (d ∈ keys) && decide (degDec (alGet m d) = some 0)) by simp]
      rw [List.nodup_append]
      refine ⟨horig, hDnd.filter _, ?_⟩
      intro x hx hx2
      rcases hpushmem x |>.mp hx2 with ⟨hxd, hxk, hz⟩
      rcases hpush_notin x hxd hxk hz with ⟨h1, h2, h3⟩
      rcases List.mem_append.mp hx with h | h
      · rcases List.mem_append.mp h with h' | h'
        · exact h1 h'
        · simp at h'
          exact h3 h'
      · exact h2 h
    have hJ3' : ∀ x ∈ (result ++ [current]) ++ st.2, x ∈ keys := by
      rw [hstq]
      intro x hx
      rcases List.mem_append.mp hx with h | h
      · rcases List.mem_append.mp h with h' | h'
        · exact hJ3 x (List.mem_append.mpr (Or.inl h'))
        · simp at h'
          subst h'
          exact hck
      · rcases List.mem_append.mp h with h' | h'
        · exact hJ3 x (by simp [h'])
        · exact ((hpushmem x).mp h').2.1
    have hJ4' : ∀ q ∈ st.2, ∀ a ∈ depsIn g keys q, a ∈ (result ++ [current]) := by
      rw [hstq]
      intro q hq a ha
      rcases List.mem_append.mp hq with h | h
      · have := hJ4 q (List.mem_cons_of_mem _ h) a ha
        simp [this]
      · rcases (hpushmem q).mp h with ⟨hqd, hqk, hz⟩
        exact hpush_deps q hqd hqk hz a ha
    have hJ5' : ∀ k ∈ keys, (∀ a ∈ depsIn g keys k, a ∈ (result ++ [current])) → k ∈ (result ++ [current]) ∨ k ∈ st.2 := by
      intro k hk hall
      by_cases hold : ∀ a ∈ depsIn g keys k, a ∈ result
      · rcases hJ5 k hk hold with h | h
        · left
          simp [h]
        · rcases List.mem_cons.mp h with rfl | h'
          · left
            simp
          · right
            rw [hstq]
            simp [h']
      · push_neg at hold
        rcases hold with ⟨a, ha, hanr⟩
        have har' : a ∈ (result ++ [current]) := hall a ha
        have hac : a = current := by
          rcases List.mem_append.mp har' with h | h
          · exact absurd h hanr
          · simpa using h
        subst hac
        have hkd : k ∈ oldNode.dependents := (hcd k hk).mpr ha
        -- the stored count is exactly 1, so k is pushed
        have hflt : (depsIn g keys k).filter (fun x => ¬ x ∈ result) = [a] := by
          apply eq_singleton_of_nodup ((hdin k hk).filter _)
          · intro x hx
            rcases List.mem_filter.mp hx with ⟨hx1, hx2⟩
            simp only [decide_eq_true_eq] at hx2
            have := hall x hx1
            rcases List.mem_append.mp this with h | h
            · exact absurd h hx2
            · simpa using h
          · exact List.mem_filter.mpr ⟨ha, by simpa using hanr⟩
        have hz : degDec (alGet m k) = some 0 := by
          rw [hJ1 k hk, hflt]
          simp [degDec]
        right
        rw [hstq]
        refine List.mem_append.mpr (Or.inr ((hpushmem k).mpr ⟨hkd, hk, hz⟩))
    have hJ6' : ∀ r1 b r2, (result ++ [current]) = r1 ++ b :: r2 → ∀ p ∈ depsIn g keys b, p ∈ r1 := by
      intro r1 b r2 hsplit p hp
      rcases List.eq_nil_or_concat r2 with rfl | ⟨r2', c2, rfl⟩
      · have : result = r1 ∧ current = b := by
          have h2 : result ++ [current] = r1 ++ [b] := hsplit
          constructor
          · exact (List.append_inj' h2 rfl).1
          · simpa using (List.append_inj' h2 rfl).2
        rcases this with ⟨rfl, rfl⟩
        exact hJ4 current (List.mem_cons_self _ _) p hp
      · have h2 : result ++ [current] = (r1 ++ b :: r2') ++ [c2] := by
          rw [hsplit]
          simp
        have h3 := List.append_inj' h2 rfl
        have hres : result = r1 ++ b :: r2' := h3.1
        exact hJ6 r1 b r2' hres p hp
    have hrec := ih hJ1' hJ2' hJ3' hJ4' hJ5' hJ6'
    rw [kahnLoop_cons_some g keys m rest result hn]
    exact hrec

theorem mem_depsIn (g : Graph) (keys : List String) (a b : String) :
    b ∈ depsIn g keys a ↔ depEdge g a b ∧ b ∈ keys := by
  unfold depsIn depEdge
  rcases hga : alGet g a with _ | n <;> simp [hga]

theorem pairwise_of_split (g : Graph) (keys : List String) :
    ∀ (l acc : List String),
      l.Nodup →
      (∀ x ∈ l, x ∈ keys) →
      (∀ x ∈ l, x ∉ acc) →
      (∀ r1 a r2, l = r1 ++ a :: r2 → ∀ p ∈ depsIn g keys a, p ∈ acc ++ r1) →
      l.Pairwise (fun a b => ¬ depEdge g a b) := by
  intro l
  induction l with
  | nil => intro acc _ _ _ _; exact List.Pairwise.nil
  | cons c rest ih =>
    intro acc hnd hmem hacc hsplit
    rcases List.nodup_cons.mp hnd with ⟨hcr, hrestnd⟩
    refine List.Pairwise.cons ?_ ?_
    · intro b hb hdep
      have hbk : b ∈ keys := hmem b (List.mem_cons_of_mem _ hb)
      have hbd : b ∈ depsIn g keys c := (mem_depsIn g keys c b).mpr ⟨hdep, hbk⟩
      have := hsplit [] c rest (by simp) b hbd
      simp only [List.append_nil] at this
      exact hacc b (List.mem_cons_of_mem _ hb) this
    · apply ih (acc ++ [c]) hrestnd (fun x hx => hmem x (List.mem_cons_of_mem _ hx))
      · intro x hx
        simp only [List.mem_append, List.mem_singleton]
        rintro (h | rfl)
        · exact hacc x (List.mem_cons_of_mem _ hx) h
        · exact hcr hx
      · intro r1 a r2 hr p hp
        have := hsplit (c :: r1) a r2 (by simp [hr]) p hp
        simpa [List.append_assoc] using this

theorem idx_lt_of_dep (g : Graph) (keys : List String) :
    ∀ (l acc : List String),
      (∀ r1 a r2, l = r1 ++ a :: r2 → ∀ p ∈ depsIn g keys a, p ∈ acc ++ r1) →
      ∀ x y, y ∈ depsIn g keys x → x ∈ l → y ∉ acc →
        l.indexOf y < l.indexOf x := by
  intro l
  induction l with
  | nil =>
    intro acc _ x y _ hx
    simp at hx
  | cons c rest ih =>
    intro acc hsplit x y hy hx hyacc
    by_cases hxc : x = c
    · subst hxc
      have := hsplit [] x rest (by simp) y hy
      simp only [List.append_nil] at this
      exact absurd this hyacc
    · have hxrest : x ∈ rest := by
        rcases List.mem_cons.mp hx with h | h
        · exact absurd h hxc
        · exact h
      by_cases hyc : y = c
      · subst hyc
        rw [List.indexOf_cons_self]
        rw [List.indexOf_cons_ne _ (fun h => hxc h.symm)]
        exact Nat.succ_pos _
      · rw [List.indexOf_cons_ne _ (fun h => hyc h.symm),
          List.indexOf_cons_ne _ (fun h => hxc h.symm)]
        have hrec := ih (acc ++ [c]) ?_ x y hy hxrest ?_
        · omega
        · intro r1 a r2 hr p hp
          have := hsplit (c :: r1) a r2 (by simp [hr]) p hp
          simpa [List.append_assoc] using this
        · simp only [List.mem_append, List.mem_singleton]
          rintro (h | rfl)
          · exact hyacc h
          · exact hyc rfl

theorem exists_cycle_of_succ (E : String → String → Prop) (S : List String) (hne : S ≠ [])
    (hstep : ∀ x ∈ S, ∃ y, y ∈ S ∧ E x y) :
    ∃ x, x ∈ S ∧ Relation.TransGen E x x := by
  classical
  have hSmem : ∀ x : {a // a ∈ S}, ∃ y : {a // a ∈ S}, E x.1 y.1 := by
    rintro ⟨x, hx⟩
    rcases hstep x hx with ⟨y, hy, he⟩
    exact ⟨⟨y, hy⟩, he⟩
  choose f hf using hSmem
  obtain ⟨s0, hs0⟩ : ∃ x, x ∈ S := by
    rcases S with _ | ⟨a, t⟩
    · exact absurd rfl hne
    · exact ⟨a, List.mem_cons_self _ _⟩
  have hfin : Finite {a // a ∈ S} := by
    have : Finite {a | a ∈ S} := S.finite_toSet
    exact this
  obtain ⟨i, j, hij, heq⟩ :=
    Finite.exists_ne_map_eq_of_infinite (fun n : ℕ => f^[n] ⟨s0, hs0⟩)
  have hchain : ∀ i j : ℕ, i < j →
      Relation.TransGen E (f^[i] ⟨s0, hs0⟩).1 (f^[j] ⟨s0, hs0⟩).1 := by
    intro i j hlt
    induction j with
    | zero => omega
    | succ j ihj =>
      have hstep' : E (f^[j] ⟨s0, hs0⟩).1 (f^[j + 1] ⟨s0, hs0⟩).1 := by
        rw [Function.iterate_succ_apply']
        exact hf _
      rcases Nat.lt_succ_iff_lt_or_eq.mp hlt with h | h
      · exact Relation.TransGen.tail (ihj h) hstep'
      · subst h
        exact Relation.TransGen.single hstep'
  rcases lt_or_gt_of_ne hij with h | h
  · refine ⟨(f^[i] ⟨s0, hs0⟩).1, (f^[i] ⟨s0, hs0⟩).2, ?_⟩
    have := hchain i j h
    rw [← heq] at this
    exact this
  · refine ⟨(f^[j] ⟨s0, hs0⟩).1, (f^[j] ⟨s0, hs0⟩).2, ?_⟩
    have := hchain j i h
    rw [heq] at this
    exact this

/-- C4 (amended): over well-formed graph states (symmetric edges and
duplicate-free adjacency lists, as every graph built by the mutators
satisfies) and a duplicate-free key subset in which every key has a
node, `getTopologicalOrder` returns an ordering that is a permutation
of the subset in which no cell precedes one of its dependencies, and it
returns the null cycle signal exactly when the subset contains a
dependency cycle confined to the subset.  Without the every-key-has-a-
node condition the original claim is false: node-less keys are skipped
by the in-degree initialisation, so the emission is incomplete and
`null` is returned with no cycle present. -/
theorem C4_amended (g : Graph) (keys : List String)
    (hknd : keys.Nodup)
    (hpres : ∀ k ∈ keys, (alGet g k).isSome = true)
    (hs : ∀ a b, depEdge g a b ↔ depStep g b a)
    (hadj : ∀ k ∈ keys, ∀ n, alGet g k = some n →
      n.dependencies.Nodup ∧ n.dependents.Nodup) :
    (∀ l, getTopologicalOrder g keys = some l →
      l.Perm keys ∧ l.Pairwise (fun a b => ¬ depEdge g a b)) ∧
    (getTopologicalOrder g keys = none ↔
      ∃ k, k ∈ keys ∧ Relation.TransGen
        (fun x y => depEdge g x y ∧ x ∈ keys ∧ y ∈ keys) k k) := by
  obtain ⟨hig, hiq⟩ := initDegrees_spec g keys hpres keys ([], []) hknd (fun k hk => hk)
  have hig' : ∀ k ∈ keys, alGet (initDegrees g keys).1 k =
      some (some (((depsIn g keys k).filter (fun a => ¬ a ∈ ([] : List String))).length : ℤ)) := by
    intro k hk
    unfold initDegrees
    rw [hig k]
    simp [hk]
  have hiq' : (initDegrees g keys).2 =
      keys.filter (fun k => decide ((depsIn g keys k).length = 0)) := by
    unfold initDegrees
    rw [hiq]
    simp
  obtain ⟨hK1, hK2, hK3, hK4⟩ := kahnLoop_spec g keys hpres hs hadj
    (initDegrees g keys).1 (initDegrees g keys).2 []
    hig'
    (by
      rw [hiq']
      simpa using hknd.filter _)
    (by
      rw [hiq']
      intro x hx
      simp only [List.nil_append] at hx
      exact (List.mem_filter.mp hx).1)
    (by
      rw [hiq']
      intro q hq a ha
      rcases List.mem_filter.mp hq with ⟨_, hz⟩
      simp only [decide_eq_true_eq] at hz
      rw [List.length_eq_zero.mp hz] at ha
      simp at ha)
    (by
      rw [hiq']
      intro k hk hall
      right
      refine List.mem_filter.mpr ⟨hk, ?_⟩
      simp only [decide_eq_true_eq]
      rw [List.length_eq_zero]
      rw [List.eq_nil_iff_forall_not_mem]
      intro a ha
      have := hall a ha
      simp at this)
    (by
      intro r1 a r2 h
      simp [List.append_eq_nil] at h)
  set rf := (kahnLoop g keys (initDegrees g keys).1 (initDegrees g keys).2 []).2 with hrf
  have hTO : getTopologicalOrder g keys =
      if rf.length ≠ keys.length then none else some rf := by
    unfold getTopologicalOrder
    rw [hrf]
  have hsubperm : rf.Subperm keys := List.subperm_of_subset hK1 hK2
  have hlenle : rf.length ≤ keys.length := hsubperm.length_le
  have hsplit0 : ∀ r1 a r2, rf = r1 ++ a :: r2 → ∀ p ∈ depsIn g keys a, p ∈ [] ++ r1 := by
    intro r1 a r2 h p hp
    simpa using hK4 r1 a r2 h p hp
  -- cycle implies incomplete emission
  have hcyc_ne : (∃ k, k ∈ keys ∧ Relation.TransGen
      (fun x y => depEdge g x y ∧ x ∈ keys ∧ y ∈ keys) k k) → rf.length ≠ keys.length := by
    rintro ⟨k, hk, htg⟩ hlen
    have hperm : rf.Perm keys := hsubperm.perm_of_length_le (le_of_eq hlen.symm)
    have hallin : ∀ x ∈ keys, x ∈ rf := fun x hx => hperm.mem_iff.mpr hx
    have hstep_idx : ∀ x y, (depEdge g x y ∧ x ∈ keys ∧ y ∈ keys) →
        rf.indexOf y < rf.indexOf x := by
      rintro x y ⟨hd, hxk, hyk⟩
      exact idx_lt_of_dep g keys rf [] hsplit0 x y
        ((mem_depsIn g keys x y).mpr ⟨hd, hyk⟩) (hallin x hxk) (by simp)
    have hdec : ∀ a b, Relation.TransGen
        (fun x y => depEdge g x y ∧ x ∈ keys ∧ y ∈ keys) a b →
        rf.indexOf b < rf.indexOf a := by
      intro a b htg'
      induction htg' with
      | single h => exact hstep_idx _ _ h
      | tail _ h ihd =>
        have := hstep_idx _ _ h
        omega
    have := hdec k k htg
    omega
  -- incomplete emission implies a cycle
  have hne_cyc : rf.length ≠ keys.length → ∃ k, k ∈ keys ∧ Relation.TransGen
      (fun x y => depEdge g x y ∧ x ∈ keys ∧ y ∈ keys) k k := by
    intro hlen
    have hSne : keys.filter (fun k => decide (¬ k ∈ rf)) ≠ [] := by
      intro hnil
      have hsub2 : ∀ k ∈ keys, k ∈ rf := by
        intro k hk
        by_contra hnk
        have : k ∈ keys.filter (fun k => decide (¬ k ∈ rf)) := by
          simp only [List.mem_filter, decide_eq_true_eq]
          exact ⟨hk, hnk⟩
        rw [hnil] at this
        simp at this
      have : keys.Subperm rf := List.subperm_of_subset hknd hsub2
      have := this.length_le
      omega
    obtain ⟨x, hxS, htg⟩ := exists_cycle_of_succ
      (fun x y => depEdge g x y ∧ x ∈ keys ∧ y ∈ keys)
      (keys.filter (fun k => decide (¬ k ∈ rf))) hSne
      (by
        intro x hx
        rcases List.mem_filter.mp hx with ⟨hxk, hxnr⟩
        simp only [decide_eq_true_eq] at hxnr
        have : ¬ ∀ a ∈ depsIn g keys x, a ∈ rf := by
          intro hall
          exact hxnr (hK3 x hxk hall)
        push_neg at this
        rcases this with ⟨a, ha, hanr⟩
        rcases (mem_depsIn g keys x a).mp ha with ⟨hde, hak⟩
        refine ⟨a, ?_, ⟨hde, hxk, hak⟩⟩
        simp only [List.mem_filter, decide_eq_true_eq]
        exact ⟨hak, hanr⟩)
    rcases List.mem_filter.mp hxS with ⟨hxk, _⟩
    exact ⟨x, hxk, htg⟩
  constructor
  · intro l hl
    rw [hTO] at hl
    by_cases hlen : rf.length = keys.length
    · have hcond : ¬ rf.length ≠ keys.length := by simp [hlen]
      rw [if_neg hcond] at hl
      have hlrf : l = rf := (Option.some.inj hl).symm
      subst hlrf
      refine ⟨hsubperm.perm_of_length_le (le_of_eq hlen.symm), ?_⟩
      exact pairwise_of_split g keys rf [] hK1 hK2 (by simp) hsplit0
    · rw [if_pos hlen] at hl
      cases hl
  · rw [hTO]
    by_cases hlen : rf.length = keys.length
    · rw [if_neg (by simp [hlen])]
      constructor
      · intro h
        cases h
      · intro hcyc
        exact absurd hlen (hcyc_ne hcyc)
    · rw [if_pos hlen]
      constructor
      · intro _
        exact hne_cyc hlen
      · intro _
        rfl

/-- C4 counterexample: on the empty graph the key subset `{r0}` has no
dependency edges at all — no cycle — yet `getTopologicalOrder` returns
the null cycle signal, because the node-less key is skipped during
in-degree initialisation and never emitted. -/
theorem C4_counterexample :
    getTopologicalOrder ([] : Graph) ["r0"] = none ∧
    ¬ ∃ k, k ∈ (["r0"] : List String) ∧
      Relation.TransGen (fun x y => depEdge ([] : Graph) x y ∧
        x ∈ (["r0"] : List String) ∧ y ∈ (["r0"] : List String)) k k := by
  constructor
  · have h1 : initDegrees ([] : Graph) ["r0"] = ([], []) := rfl
    unfold getTopologicalOrder
    rw [h1]
    dsimp only
    rw [kahnLoop_nil]
    decide
  · rintro ⟨k, _, htg⟩
    have hE : ∀ x y : String,
        ¬ (depEdge ([] : Graph) x y ∧ x ∈ (["r0"] : List String) ∧
           y ∈ (["r0"] : List String)) := by
      rintro x y ⟨⟨n, hn, _⟩, _, _⟩
      simp [alGet] at hn
    have hgen : ∀ a b : String, Relation.TransGen (fun x y => depEdge ([] : Graph) x y ∧
        x ∈ (["r0"] : List String) ∧ y ∈ (["r0"] : List String)) a b → False := by
      intro a b h
      induction h with
      | single h => exact hE _ _ h
      | tail _ h _ => exact hE _ _ h
    exact hgen k k htg

/-- C4 witness: the amended theorem applied to the two-cell chain
`b` depends on `a` — the order `[a, b]` is returned, is a permutation
of the keys, and no cell precedes a dependency. -/
theorem C4_amended_witness :
    ((["a", "b"] : List String).Nodup ∧
     (∀ k ∈ (["a", "b"] : List String),
       (alGet (updateCell [] "b" ["a"]) k).isSome = true)) ∧
    getTopologicalOrder (updateCell [] "b" ["a"]) ["a", "b"] = some ["a", "b"] ∧
    ((["a", "b"] : List String).Perm ["a", "b"] ∧
     (["a", "b"] : List String).Pairwise
       (fun x y => ¬ depEdge (updateCell [] "b" ["a"]) x y)) := by
  have hs0 : ∀ a b, depEdge ([] : Graph) a b ↔ depStep ([] : Graph) b a := by
    intro a b
    constructor <;> rintro ⟨n, hn, _⟩ <;> simp [alGet] at hn
  have hs1 : ∀ a b, depEdge (updateCell [] "b" ["a"]) a b ↔
      depStep (updateCell [] "b" ["a"]) b a := by
    intro a b
    rw [updateCell_depEdge, updateCell_depStep ([] : Graph) "b" ["a"] hs0]
  have hadj1 : ∀ k ∈ (["a", "b"] : List String), ∀ n,
      alGet (updateCell [] "b" ["a"]) k = some n →
      n.dependencies.Nodup ∧ n.dependents.Nodup := by
    intro k hk n hn
    have hg : updateCell [] "b" ["a"] =
        [("b", ⟨"b", ["a"], []⟩), ("a", ⟨"a", [], ["b"]⟩)] := rfl
    rw [hg] at hn
    rcases List.mem_cons.mp hk with rfl | hk'
    · have : alGet [("b", (⟨"b", ["a"], []⟩ : GraphNode)),
          ("a", ⟨"a", [], ["b"]⟩)] "a" = some ⟨"a", [], ["b"]⟩ := rfl
      rw [this] at hn
      cases hn
      exact ⟨by decide, by decide⟩
    · have hkb : k = "b" := by simpa using hk'
      subst hkb
      have : alGet [("b", (⟨"b", ["a"], []⟩ : GraphNode)),
          ("a", ⟨"a", [], ["b"]⟩)] "b" = some ⟨"b", ["a"], []⟩ := rfl
      rw [this] at hn
      cases hn
      exact ⟨by decide, by decide⟩
  have hTO : getTopologicalOrder (updateCell [] "b" ["a"]) ["a", "b"] = some ["a", "b"] := by
    have h1 : initDegrees (updateCell [] "b" ["a"]) ["a", "b"] =
        ([("a", some 0), ("b", some 1)], ["a"]) := rfl
    have h2 : alGet (updateCell [] "b" ["a"]) "a" = some ⟨"a", [], ["b"]⟩ := rfl
    have h3 : alGet (updateCell [] "b" ["a"]) "b" = some ⟨"b", ["a"], []⟩ := rfl
    unfold getTopologicalOrder
    rw [h1]
    dsimp only
    rw [kahnLoop_cons_some _ _ _ _ _ h2]
    have h4 : processDeps ["a", "b"]
        (GraphNode.dependents ⟨"a", [], ["b"]⟩) ([("a", some 0), ("b", some 1)], []) =
        ([("a", some 0), ("b", some 0)], ["b"]) := rfl
    rw [h4]
    rw [kahnLoop_cons_some _ _ _ _ _ h3]
    have h5 : processDeps ["a", "b"]
        (GraphNode.dependents ⟨"b", ["a"], []⟩) ([("a", some 0), ("b", some 0)], []) =
        ([("a", some 0), ("b", some 0)], []) := rfl
    rw [h5]
    rw [kahnLoop_nil]
    decide
  refine ⟨⟨by decide, by decide⟩, hTO, ?_⟩
  exact (C4_amended (updateCell [] "b" ["a"]) ["a", "b"] (by decide) (by decide)
    hs1 hadj1).1 ["a", "b"] hTO

def numTokenEntry (cs : List Char) : Bool :=
  match cs with
  | c :: rest => c.isDigit || (c = '-' && peekDigit rest)
  | [] => false

def numTokenOK (v : ℚ) : Bool :=
  numTokenEntry (numToString v).data &&
  decide (readNumber (numToString v).data = ((numToString v).data, [])) &&
  decide (jsParseFloatD (numToString v) = v)

def strTokenOK (s : String) : Bool := decide (¬ '"' ∈ s.data)

def refTokenOK (r : String) : Bool :=
  decide (cellRefMatch r.data = some (r.data, []))

def goodName (s : String) : Bool :=
  decide (s.data ≠ []) && s.data.all (fun c => c.isAlpha && decide (c.toUpper = c))

def renderLevel : ASTNode → ℕ
  | .BinaryOp op _ _ => opPrecedence op
  | _ => 4

def rendersDigit : ASTNode → Bool
  | .NumberN v =>
    match (numToString v).data with
    | c :: _ => c.isDigit
    | [] => false
  | .StringN _ => false
  | .CellRef r =>
    match r.data with
    | c :: _ => c.isDigit
    | [] => false
  | .RangeRef s _ =>
    match s.data with
    | c :: _ => c.isDigit
    | [] => false
  | .BinaryOp op l _ => if needsParentheses l op then false else rendersDigit l
  | .UnaryOp op _ =>
    match op.data with
    | c :: _ => c.isDigit
    | [] => false
  | .FunctionCall name _ =>
    match name.data with
    | c :: _ => c.isDigit
    | [] => false

mutual

/-- The token list the rendering of a stable AST lexes to. -/
def tokensOf : ASTNode → List Token
  | .NumberN v => [⟨.NUMBER, numToString v⟩]
  | .StringN s => [⟨.STRING, s⟩]
  | .CellRef r => [⟨.CELL_REF, r⟩]
  | .RangeRef s e => [⟨.CELL_REF, s⟩, ⟨.COLON, ":"⟩, ⟨.CELL_REF, e⟩]
  | .BinaryOp op l r =>
    (if needsParentheses l op then ⟨.LPAREN, "("⟩ :: tokensOf l ++ [⟨.RPAREN, ")"⟩]
     else tokensOf l) ++
    ⟨.OPERATOR, op⟩ ::
    (if needsParentheses r op then ⟨.LPAREN, "("⟩ :: tokensOf r ++ [⟨.RPAREN, ")"⟩]
     else tokensOf r)
  | .UnaryOp op x => ⟨.OPERATOR, op⟩ :: tokensOf x
  | .FunctionCall name args =>
    ⟨.IDENTIFIER, name⟩ :: ⟨.LPAREN, "("⟩ :: tokensOfArgs args ++ [⟨.RPAREN, ")"⟩]
termination_by structural a => a

def tokensOfArgs : List ASTNode → List Token
  | [] => []
  | [a] => tokensOf a
  | a :: rest => tokensOf a ++ ⟨.COMMA, ","⟩ :: tokensOfArgs rest
termination_by structural l => l

end

mutual

/-- Syntactic stability of an AST under the renderer: re-tokenizing and
re-parsing its rendering reproduces it.  Numbers must round-trip
through `numToString`/`parseFloat` and lex as one NUMBER token; strings
must not contain quotes; references must match the tokenizer's
cell-reference pattern exactly; function names are uppercase alphabetic;
operators are the five the grammar knows; the renderer's omitted parens
must be harmless: no equal-precedence right operand (except for the
right-associative `^`), no `^`-rooted left operand of `^`, and the right
operand of `-` must not render with a leading digit (else the `-` lexes
into the number). -/
def renderStable : ASTNode → Bool
  | .NumberN v => numTokenOK v
  | .StringN s => strTokenOK s
  | .CellRef r => refTokenOK r
  | .RangeRef s e => refTokenOK s && refTokenOK e
  | .BinaryOp op l r =>
    (decide (op = "+") || decide (op = "-") || decide (op = "*") ||
      decide (op = "/") || decide (op = "^")) &&
    renderStable l && renderStable r &&
    !(decide (op = "^") && decide (renderLevel l = 3)) &&
    !(decide (renderLevel r = opPrecedence op) && !(decide (op = "^"))) &&
    !(decide (op = "-") && rendersDigit r)
  | .UnaryOp _ _ => false
  | .FunctionCall name args => goodName name && renderStableList args
termination_by structural a => a

def renderStableList : List ASTNode → Bool
  | [] => true
  | a :: rest => renderStable a && renderStableList rest
termination_by structural l => l

end

def headFails (p : Char → Bool) (cs : List Char) : Prop :=
  match cs with
  | [] => True
  | c :: _ => p c = false

theorem span_extend (p : Char → Bool) :
    ∀ (v cs : List Char), (v.dropWhile p = [] → headFails p cs) →
      (v ++ cs).takeWhile p = v.takeWhile p ∧
      (v ++ cs).dropWhile p = v.dropWhile p ++ cs := by
  intro v
  induction v with
  | nil =>
    intro cs h
    have h' := h rfl
    rcases cs with _ | ⟨c, cs'⟩
    · simp
    · simp only [headFails] at h'
      simp [List.takeWhile, List.dropWhile, h']
  | cons c v ih =>
    intro cs h
    by_cases hc : p c = true
    · have h' : v.dropWhile p = [] → headFails p cs := by
        intro hv
        apply h
        simp [List.dropWhile, hc, hv]
      obtain ⟨h1, h2⟩ := ih cs h'
      simp [List.takeWhile, List.dropWhile, hc, h1, h2]
    · have hc' : p c = false := by simpa using hc
      simp [List.takeWhile, List.dropWhile, hc']

theorem takeDollar_extend (v cs : List Char) (hv : v ≠ []) :
    takeDollar (v ++ cs) = ((takeDollar v).1, (takeDollar v).2 ++ cs) := by
  rcases v with _ | ⟨c, v'⟩
  · exact absurd rfl hv
  · by_cases hc : c = '$'
    · subst hc
      rfl
    · unfold takeDollar
      rcases c with ⟨n, hn⟩
      simp only [List.cons_append]
      split
      · next heq =>
        cases heq
        exact absurd rfl hc
      · split
        · next heq =>
          cases heq
          exact absurd rfl hc
        · rfl

theorem numTail_extend :
    ∀ (xs cs : List Char) (h : Bool), numTail xs h = (xs, []) →
      headFails (fun c => c.isDigit || decide (c = '.')) cs →
      numTail (xs ++ cs) h = (xs, cs) := by
  intro xs
  induction xs with
  | nil =>
    intro cs h _ hsafe
    rcases cs with _ | ⟨c, cs'⟩
    · rfl
    · simp only [headFails, Bool.or_eq_false_iff, decide_eq_false_iff_not] at hsafe
      unfold numTail
      simp [hsafe.1, hsafe.2]
  | cons x xs ih =>
    intro cs h hfull hsafe
    by_cases hx : x.isDigit = true
    · have e1 : ∀ ys, numTail (x :: ys) h =
          (x :: (numTail ys h).1, (numTail ys h).2) := by
        intro ys
        simp only [numTail, hx, if_true]
      have hnt' : numTail xs h = (xs, []) := by
        rw [e1 xs] at hfull
        rcases hget : numTail xs h with ⟨t, r⟩
        rw [hget] at hfull
        simp only [Prod.mk.injEq, List.cons.injEq] at hfull
        rw [hfull.1.2, hfull.2]
      rw [List.cons_append, e1 (xs ++ cs), ih cs h hnt' hsafe]
    · by_cases hdot : x = '.' ∧ h = false
      · obtain ⟨rfl, rfl⟩ := hdot
        have e1 : ∀ ys, numTail ('.' :: ys) false =
            ('.' :: (numTail ys true).1, (numTail ys true).2) := by
          intro ys
          simp only [numTail]
          rw [if_neg (by decide), if_pos (by decide)]
        have hnt' : numTail xs true = (xs, []) := by
          rw [e1 xs] at hfull
          rcases hget : numTail xs true with ⟨t, r⟩
          rw [hget] at hfull
          simp only [Prod.mk.injEq, List.cons.injEq] at hfull
          rw [hfull.1.2, hfull.2]
        rw [List.cons_append, e1 (xs ++ cs), ih cs true hnt' hsafe]
      · have hcond : ¬(x = '.' ∧ ¬h = true) := by
          intro hcc
          apply hdot
          exact ⟨hcc.1, by simpa using hcc.2⟩
        have e1 : numTail (x :: xs) h = ([], x :: xs) := by
          simp only [numTail, hx, Bool.false_eq_true, if_false, hcond]
        rw [e1] at hfull
        simp only [Prod.mk.injEq] at hfull
        exact absurd hfull.1.symm (by simp)

theorem readNumber_extend (xs cs : List Char) (hfull : readNumber xs = (xs, []))
    (hne : xs ≠ [])
    (hsafe : headFails (fun c => c.isDigit || decide (c = '.')) cs) :
    readNumber (xs ++ cs) = (xs, cs) := by
  rcases xs with _ | ⟨x, xs'⟩
  · exact absurd rfl hne
  · by_cases hx : x = '-'
    · subst hx
      have e : ∀ ys, readNumber ('-' :: ys) =
          ('-' :: (numTail ys false).1, (numTail ys false).2) := fun ys => rfl
      rw [e xs'] at hfull
      rcases hget : numTail xs' false with ⟨t, r⟩
      rw [hget] at hfull
      simp only [Prod.mk.injEq, List.cons.injEq] at hfull
      have hnt' : numTail xs' false = (xs', []) := by
        rw [hget, hfull.1.2, hfull.2]
      rw [List.cons_append, e (xs' ++ cs), numTail_extend xs' cs false hnt' hsafe]
    · unfold readNumber at hfull ⊢
      split at hfull
      · next rest heq =>
        rw [List.cons.injEq] at heq
        exact absurd heq.1 hx
      · split
        · next rest heq =>
          rw [List.cons_append, List.cons.injEq] at heq
          exact absurd heq.1 hx
        · rw [List.cons_append]
          exact numTail_extend (x :: xs') cs false hfull hsafe

theorem strTail_no_quote :
    ∀ (v r : List Char), ¬ '"' ∈ v → strTail (v ++ '"' :: r) = some (v, r) := by
  intro v
  induction v with
  | nil =>
    intro r _
    simp [strTail]
  | cons c v ih =>
    intro r hq
    have hc : ¬ c = '"' := fun h => hq (by simp [h])
    have hv : ¬ '"' ∈ v := fun h => hq (by simp [h])
    unfold strTail
    simp only [List.cons_append]
    rw [if_neg hc, ih r hv]
    rfl

theorem numTail_chars :
    ∀ (cs : List Char) (h : Bool), ∀ c ∈ (numTail cs h).1, c.isDigit = true ∨ c = '.' := by
  intro cs
  induction cs with
  | nil => intro h c hc; simp [numTail] at hc
  | cons x xs ih =>
    intro h c hc
    unfold numTail at hc
    by_cases hx : x.isDigit = true
    · simp only [hx, if_true] at hc
      rcases hnt : numTail xs h with ⟨t, r⟩
      rw [hnt] at hc
      simp only at hc
      rcases List.mem_cons.mp hc with rfl | hc'
      · exact Or.inl hx
      · have := ih h c
        rw [hnt] at this
        exact this hc'
    · simp only [hx, Bool.false_eq_true, if_false] at hc
      by_cases hdot : x = '.' ∧ ¬h = true
      · simp only [hdot, if_true] at hc
        rcases hnt : numTail xs true with ⟨t, r⟩
        rw [hnt] at hc
        simp only at hc
        rcases List.mem_cons.mp hc with rfl | hc'
        · exact Or.inr rfl
        · have := ih true c
          rw [hnt] at this
          exact this hc'
      · simp only [hdot, if_false] at hc
        simp at hc

theorem readNumber_chars (cs : List Char) :
    ∀ c ∈ (readNumber cs).1, c.isDigit = true ∨ c = '.' ∨ c = '-' := by
  intro c hc
  unfold readNumber at hc
  split at hc
  · next h1 h2 =>
    rcases hget : numTail h2 false with ⟨t, r⟩
    rw [hget] at hc
    simp only at hc
    rcases List.mem_cons.mp hc with rfl | hc'
    · exact Or.inr (Or.inr rfl)
    · have := numTail_chars h2 false c
      rw [hget] at this
      rcases this hc' with h | h
      · exact Or.inl h
      · exact Or.inr (Or.inl h)
  · rcases numTail_chars _ false c hc with h | h
    · exact Or.inl h
    · exact Or.inr (Or.inl h)

theorem trimChars_eq_self {l : List Char} {c d : Char} (hhead : l.head? = some c)
    (hlast : l.getLast? = some d) (hc : jsWhitespace c = false)
    (hd : jsWhitespace d = false) : trimChars l = l := by
  unfold trimChars
  have h1 : l.dropWhile jsWhitespace = l := by
    rcases l with _ | ⟨x, xs⟩
    · simp at hhead
    · simp only [List.head?] at hhead
      cases hhead
      simp [List.dropWhile, hc]
  rw [h1]
  have h2 : l.reverse.dropWhile jsWhitespace = l.reverse := by
    rcases hrev : l.reverse with _ | ⟨y, ys⟩
    · simp
    · have : l.getLast? = some y := by
        rw [← List.head?_reverse, hrev]
        rfl
      rw [hlast] at this
      cases this
      simp [List.dropWhile, hd]
  rw [h2, List.reverse_reverse]

theorem takeDollar_eq (x : List Char) {d : Bool} {t : List Char} (h : takeDollar x = (d, t)) :
    x = (if d then '$' :: t else t) := by
  rcases x with _ | ⟨c, x'⟩
  · unfold takeDollar at h
    simp only [Prod.mk.injEq] at h
    rw [← h.1, ← h.2]
    rfl
  · by_cases hc : c = '$'
    · subst hc
      unfold takeDollar at h
      simp only [Prod.mk.injEq] at h
      rw [← h.1, ← h.2]
      rfl
    · unfold takeDollar at h
      rcases c with ⟨n, hn⟩
      split at h
      · next heq =>
        cases heq
        exact absurd rfl hc
      · simp only [Prod.mk.injEq] at h
        rw [← h.1, ← h.2]
        rfl

theorem takeWhile_all {p : Char → Bool} :
    ∀ {l : List Char}, (∀ c ∈ l, p c = true) → l.takeWhile p = l ∧ l.dropWhile p = [] := by
  intro l
  induction l with
  | nil => intro _; exact ⟨rfl, rfl⟩
  | cons c l ih =>
    intro h
    have hc : p c = true := h c (List.mem_cons_self _ _)
    have ⟨h1, h2⟩ := ih (fun x hx => h x (List.mem_cons_of_mem _ hx))
    simp [List.takeWhile, List.dropWhile, hc, h1, h2]

theorem cellRefMatch_extend (v cs : List Char)
    (hfull : cellRefMatch v = some (v, []))
    (hsafe : headFails (fun c => c.isDigit) cs) :
    cellRefMatch (v ++ cs) = some (v, cs) := by
  rcases htd1 : takeDollar v with ⟨d1, v1⟩
  rcases hsa : spanAlpha v1 with ⟨ls, v2⟩
  rcases htd2 : takeDollar v2 with ⟨d2, v3⟩
  rcases hsd : spanDigit v3 with ⟨ds, v4⟩
  unfold cellRefMatch at hfull
  rw [htd1] at hfull
  try simp only at hfull
  rw [hsa] at hfull
  try simp only at hfull
  by_cases hls : ls = []
  · rw [if_pos hls] at hfull
    cases hfull
  · rw [if_neg hls] at hfull
    try simp only at hfull
    rw [htd2] at hfull
    try simp only at hfull
    rw [hsd] at hfull
    try simp only at hfull
    by_cases hds : ds = []
    · rw [if_pos hds] at hfull
      cases hfull
    · rw [if_neg hds] at hfull
      simp only [Option.some.injEq, Prod.mk.injEq] at hfull
      obtain ⟨hveq, hv4⟩ := hfull
      subst hv4
      -- structure facts
      have hv3eq : v3 = ds ++ [] := by
        have : v3.takeWhile Char.isDigit = ds ∧ v3.dropWhile Char.isDigit = [] := by
          unfold spanDigit at hsd
          simp only [Prod.mk.injEq] at hsd
          exact ⟨hsd.1, hsd.2⟩
        rw [← this.1]
        conv_lhs => rw [← List.takeWhile_append_dropWhile Char.isDigit v3]
        rw [this.2]
      have hv3ne : v3 ≠ [] := by
        rw [hv3eq]
        simp [hds]
      have hv2eq : v2 = (if d2 then '$' :: v3 else v3) := takeDollar_eq v2 htd2
      have hv2ne : v2 ≠ [] := by
        rw [hv2eq]
        rcases d2 <;> simp [hv3ne]
      have hv1ne : v1 ≠ [] := by
        intro h
        rw [h] at hsa
        unfold spanAlpha at hsa
        simp only [List.takeWhile_nil, List.dropWhile_nil, Prod.mk.injEq] at hsa
        exact hls hsa.1.symm
      have hvne : v ≠ [] := by
        have hveq2 : v = (if d1 then '$' :: v1 else v1) := takeDollar_eq v htd1
        rw [hveq2]
        rcases d1 <;> simp [hv1ne]
      -- extension computations
      have etd1 : takeDollar (v ++ cs) = (d1, v1 ++ cs) := by
        rw [takeDollar_extend v cs hvne, htd1]
      have hsa' : v1.takeWhile Char.isAlpha = ls ∧ v1.dropWhile Char.isAlpha = v2 := by
        unfold spanAlpha at hsa
        simp only [Prod.mk.injEq] at hsa
        exact ⟨hsa.1, hsa.2⟩
      have esa : spanAlpha (v1 ++ cs) = (ls, v2 ++ cs) := by
        unfold spanAlpha
        have := span_extend Char.isAlpha v1 cs (by
          intro hdw
          rw [hsa'.2] at hdw
          exact absurd hdw hv2ne)
        rw [this.1, this.2, hsa'.1, hsa'.2]
      have etd2 : takeDollar (v2 ++ cs) = (d2, v3 ++ cs) := by
        rw [takeDollar_extend v2 cs hv2ne, htd2]
      have hsd' : v3.takeWhile Char.isDigit = ds ∧ v3.dropWhile Char.isDigit = [] := by
        unfold spanDigit at hsd
        simp only [Prod.mk.injEq] at hsd
        exact ⟨hsd.1, hsd.2⟩
      have esd : spanDigit (v3 ++ cs) = (ds, cs) := by
        unfold spanDigit
        have := span_extend Char.isDigit v3 cs (by intro _; exact hsafe)
        rw [this.1, this.2, hsd'.1, hsd'.2]
        simp
      unfold cellRefMatch
      rw [etd1]
      try simp only
      rw [esa]
      try simp only
      rw [if_neg hls]
      rw [etd2]
      try simp only
      rw [esd]
      try simp only
      rw [if_neg hds, hveq]

theorem cellRefMatch_struct (v : List Char) (hfull : cellRefMatch v = some (v, [])) :
    ∃ (d1 d2 : Bool) (ls ds : List Char),
      v = (if d1 then ['$'] else []) ++ ls ++ (if d2 then ['$'] else []) ++ ds ∧
      ls ≠ [] ∧ ds ≠ [] ∧ (∀ c ∈ ls, c.isAlpha = true) ∧ (∀ c ∈ ds, c.isDigit = true) := by
  rcases htd1 : takeDollar v with ⟨d1, v1⟩
  rcases hsa : spanAlpha v1 with ⟨ls, v2⟩
  rcases htd2 : takeDollar v2 with ⟨d2, v3⟩
  rcases hsd : spanDigit v3 with ⟨ds, v4⟩
  unfold cellRefMatch at hfull
  rw [htd1] at hfull
  try simp only at hfull
  rw [hsa] at hfull
  try simp only at hfull
  by_cases hls : ls = []
  · rw [if_pos hls] at hfull
    cases hfull
  · rw [if_neg hls] at hfull
    try simp only at hfull
    rw [htd2] at hfull
    try simp only at hfull
    rw [hsd] at hfull
    try simp only at hfull
    by_cases hds : ds = []
    · rw [if_pos hds] at hfull
      cases hfull
    · rw [if_neg hds] at hfull
      simp only [Option.some.injEq, Prod.mk.injEq] at hfull
      refine ⟨d1, d2, ls, ds, hfull.1.symm, hls, hds, ?_, ?_⟩
      · intro c hc
        have : c ∈ v1.takeWhile Char.isAlpha := by
          unfold spanAlpha at hsa
          simp only [Prod.mk.injEq] at hsa
          rw [hsa.1]
          exact hc
        exact List.mem_takeWhile_imp this
      · intro c hc
        have : c ∈ v3.takeWhile Char.isDigit := by
          unfold spanDigit at hsd
          simp only [Prod.mk.injEq] at hsd
          rw [hsd.1]
          exact hc
        exact List.mem_takeWhile_imp this

theorem goodName_lex (nm cs : List Char) (hne : nm ≠ [])
    (halpha : ∀ c ∈ nm, c.isAlpha = true)
    (hsafe1 : headFails Char.isAlpha cs)
    (hsafe2 : headFails (fun c => decide (c = '$')) cs)
    (hsafe3 : headFails Char.isDigit cs)
    (hsafe4 : headFails identChar cs) :
    cellRefMatch (nm ++ cs) = none ∧
    (nm ++ cs).takeWhile identChar = nm ∧ (nm ++ cs).dropWhile identChar = cs := by
  obtain ⟨c0, nm', rfl⟩ : ∃ c0 nm', nm = c0 :: nm' := by
    rcases nm with _ | ⟨c0, nm'⟩
    · exact absurd rfl hne
    · exact ⟨c0, nm', rfl⟩
  have hc0 : c0.isAlpha = true := halpha c0 (List.mem_cons_self _ _)
  have hc0d : ¬ c0 = '$' := by
    intro h
    rw [h] at hc0
    simp [Char.isAlpha] at hc0
  constructor
  · unfold cellRefMatch
    have etd : takeDollar ((c0 :: nm') ++ cs) = (false, (c0 :: nm') ++ cs) := by
      unfold takeDollar
      rcases c0 with ⟨n, hn⟩
      simp only [List.cons_append]
      split
      · next heq =>
        cases heq
        exact absurd rfl hc0d
      · rfl
    rw [etd]
    try simp only
    have ⟨ht, hd⟩ := takeWhile_all (p := Char.isAlpha) (l := c0 :: nm') halpha
    have hext := span_extend Char.isAlpha (c0 :: nm') cs (fun _ => hsafe1)
    have esa : spanAlpha ((c0 :: nm') ++ cs) = (c0 :: nm', cs) := by
      unfold spanAlpha
      rw [hext.1, hext.2, ht, hd]
      simp
    rw [esa]
    try simp only
    rw [if_neg (by simp)]
    have etd2 : takeDollar cs = (false, cs) := by
      rcases cs with _ | ⟨c, cs'⟩
      · rfl
      · simp only [headFails, decide_eq_false_iff_not] at hsafe2
        unfold takeDollar
        rcases c with ⟨n, hn⟩
        split
        · next heq =>
          cases heq
          exact absurd rfl hsafe2
        · rfl
    rw [etd2]
    try simp only
    have esd : spanDigit cs = ([], cs) := by
      unfold spanDigit
      rcases cs with _ | ⟨c, cs'⟩
      · rfl
      · simp only [headFails] at hsafe3
        simp [List.takeWhile, List.dropWhile, hsafe3]
    rw [esd]
    simp
  · have hiall : ∀ c ∈ c0 :: nm', identChar c = true := by
      intro c hc
      have := halpha c hc
      simp [identChar, this]
    have ⟨ht, hd⟩ := takeWhile_all (p := identChar) hiall
    have hext := span_extend identChar (c0 :: nm') cs (fun _ => hsafe4)
    rw [hext.1, hext.2, ht, hd]
    simp

theorem mem_of_getLast?_eq : ∀ (l : List Char) (a : Char), l.getLast? = some a → a ∈ l := by
  intro l
  induction l with
  | nil => intro a h; simp at h
  | cons x xs ih =>
    intro a h
    rcases xs with _ | ⟨y, ys⟩
    · simp at h
      simp [h]
    · rw [List.getLast?_cons_cons] at h
      exact List.mem_cons_of_mem _ (ih a h)

theorem exists_getLast?_of_ne_nil : ∀ (l : List Char), l ≠ [] → ∃ c, l.getLast? = some c := by
  intro l
  induction l with
  | nil => intro h; exact absurd rfl h
  | cons x xs ih =>
    intro _
    rcases xs with _ | ⟨y, ys⟩
    · exact ⟨x, rfl⟩
    · rcases ih (by simp) with ⟨c, hc⟩
      exact ⟨c, by rw [List.getLast?_cons_cons]; exact hc⟩

theorem isDigit_not_ws {c : Char} (h : c.isDigit = true) : jsWhitespace c = false := by
  rcases hw : jsWhitespace c
  · rfl
  · exfalso
    unfold jsWhitespace at hw
    simp only [Bool.or_eq_true, decide_eq_true_eq] at hw
    rcases hw with ((((rfl | rfl) | rfl) | rfl) | rfl) | rfl <;> simp [Char.isDigit] at h

theorem isAlpha_not_ws {c : Char} (h : c.isAlpha = true) : jsWhitespace c = false := by
  rcases hw : jsWhitespace c
  · rfl
  · exfalso
    unfold jsWhitespace at hw
    simp only [Bool.or_eq_true, decide_eq_true_eq] at hw
    rcases hw with ((((rfl | rfl) | rfl) | rfl) | rfl) | rfl <;> simp [Char.isAlpha] at h

theorem isAlpha_not_digit {c : Char} (h : c.isAlpha = true) : c.isDigit = false := by
  rcases hd : c.isDigit
  · rfl
  · exfalso
    unfold Char.isAlpha Char.isUpper Char.isLower at h
    unfold Char.isDigit at hd
    simp [UInt32.le_def, BitVec.le_def] at h hd
    rcases h with ⟨h1, h2⟩ | ⟨h1, h2⟩ <;> rcases hd with ⟨h3, h4⟩ <;> omega

theorem isDigit_ne_eq {c : Char} (h : c.isDigit = true) : c ≠ '=' := by
  rintro rfl
  simp [Char.isDigit] at h

theorem isAlpha_ne_eq {c : Char} (h : c.isAlpha = true) : c ≠ '=' := by
  rintro rfl
  simp [Char.isAlpha] at h

theorem renderHeadLast :
    ∀ (n : ℕ) (a : ASTNode), sizeOf a ≤ n → renderStable a = true →
      (∃ c rest, (astToString a).data = c :: rest ∧ jsWhitespace c = false ∧ c ≠ '=' ∧
        c.isDigit = rendersDigit a) ∧
      (∃ c, (astToString a).data.getLast? = some c ∧ jsWhitespace c = false) := by
  intro n
  induction n using Nat.strong_induction_on with
  | _ n ih =>
    intro a ha hs
    match a with
    | .NumberN v =>
      simp only [renderStable] at hs
      unfold numTokenOK at hs
      simp only [Bool.and_eq_true, decide_eq_true_eq] at hs
      obtain ⟨⟨hentry, hread⟩, _⟩ := hs
      unfold numTokenEntry at hentry
      rcases hdata : (numToString v).data with _ | ⟨c, rest⟩
      · rw [hdata] at hentry
        simp at hentry
      · rw [hdata] at hentry
        simp only [Bool.or_eq_true, Bool.and_eq_true, decide_eq_true_eq] at hentry
        constructor
        · refine ⟨c, rest, by simp [astToString, hdata], ?_, ?_, ?_⟩
          · rcases hentry with h | ⟨rfl, _⟩
            · exact isDigit_not_ws h
            · rfl
          · rcases hentry with h | ⟨rfl, _⟩
            · exact isDigit_ne_eq h
            · decide
          · simp only [rendersDigit, hdata]
        · obtain ⟨d, hd⟩ := exists_getLast?_of_ne_nil (numToString v).data (by rw [hdata]; simp)
          refine ⟨d, by simp [astToString, hd], ?_⟩
          have hmem := mem_of_getLast?_eq _ _ hd
          have hchars : ∀ x ∈ (numToString v).data, x.isDigit = true ∨ x = '.' ∨ x = '-' := by
            intro x hx
            have := readNumber_chars (numToString v).data x
            rw [hread] at this
            exact this hx
          rcases hchars d hmem with h | rfl | rfl
          · exact isDigit_not_ws h
          · decide
          · decide
    | .StringN s =>
      constructor
      · refine ⟨'"', s.data ++ ['"'], ?_, by decide, by decide, by simp [rendersDigit]⟩
        simp [astToString, String.data_append]
      · refine ⟨'"', ?_, by decide⟩
        have h1 : (astToString (.StringN s)).data = ('"' :: s.data) ++ ['"'] := by
          simp [astToString, String.data_append]
        rw [h1]
        exact List.getLast?_concat ('"' :: s.data)
    | .CellRef r =>
      simp only [renderStable] at hs
      unfold refTokenOK at hs
      simp only [decide_eq_true_eq] at hs
      obtain ⟨d1, d2, ls, ds, hveq, hls, hds, hlsa, hdsd⟩ := cellRefMatch_struct r.data hs
      constructor
      · rcases hd1 : d1
        · rcases hls' : ls with _ | ⟨c, ls'⟩
          · exact absurd hls' hls
          · have hca : c.isAlpha = true := hlsa c (by rw [hls']; simp)
            refine ⟨c, (ls' ++ (if d2 = true then ['$'] else [])) ++ ds, ?_, isAlpha_not_ws hca, isAlpha_ne_eq hca, ?_⟩
            · show r.data = _
              rw [hveq, hd1, hls']
              simp
            · simp only [rendersDigit]
              rw [hveq, hd1, hls']
              simp [isAlpha_not_digit hca]
      

        · refine ⟨'$', (ls ++ (if d2 = true then ['$'] else [])) ++ ds, ?_, by decide, by decide, ?_⟩
          · show r.data = _
            rw [hveq, hd1]
            simp
          · simp only [rendersDigit]
            rw [hveq, hd1]
            simp
      · obtain ⟨d, hd⟩ := exists_getLast?_of_ne_nil ds hds
        have hlast : r.data.getLast? = some d := by
          rw [hveq]
          rw [List.getLast?_append_of_ne_nil _ hds]
          exact hd
        refine ⟨d, by simpa [astToString] using hlast, ?_⟩
        exact isDigit_not_ws (hdsd d (mem_of_getLast?_eq _ _ hd))
    | .RangeRef s e =>
      simp only [renderStable, Bool.and_eq_true] at hs
      obtain ⟨hs1, hs2⟩ := hs
      unfold refTokenOK at hs1 hs2
      simp only [decide_eq_true_eq] at hs1 hs2
      obtain ⟨d1, d2, ls, ds, hveq, hls, hds, hlsa, hdsd⟩ := cellRefMatch_struct s.data hs1
      have hdata : (astToString (.RangeRef s e)).data = s.data ++ ':' :: e.data := by
        simp [astToString, String.data_append]
      constructor
      · rcases hd1 : d1
        · rcases hls' : ls with _ | ⟨c, ls'⟩
          · exact absurd hls' hls
          · have hca : c.isAlpha = true := hlsa c (by rw [hls']; simp)
            refine ⟨c, ((ls' ++ (if d2 = true then ['$'] else [])) ++ ds) ++ ':' :: e.data, ?_, isAlpha_not_ws hca, isAlpha_ne_eq hca, ?_⟩
            · rw [hdata, hveq, hd1, hls']
              simp
            · simp only [rendersDigit]
              rw [hveq, hd1, hls']
              simp [isAlpha_not_digit hca]
      

        · refine ⟨'$', ((ls ++ (if d2 = true then ['$'] else [])) ++ ds) ++ ':' :: e.data, ?_, by decide, by decide, ?_⟩
          · rw [hdata, hveq, hd1]
            simp
          · simp only [rendersDigit]
            rw [hveq, hd1]
            simp
      · obtain ⟨d2', d2'', ls2, ds2, hveq2, hls2, hds2, _, hdsd2⟩ := cellRefMatch_struct e.data hs2
        obtain ⟨d, hd⟩ := exists_getLast?_of_ne_nil ds2 hds2
        have hlast : e.data.getLast? = some d := by
          rw [hveq2]
          rw [List.getLast?_append_of_ne_nil _ hds2]
          exact hd
        refine ⟨d, ?_, isDigit_not_ws (hdsd2 d (mem_of_getLast?_eq _ _ hd))⟩
        have hedne : e.data ≠ [] := by
          rw [hveq2]
          simp [hds2]
        rw [hdata, List.getLast?_append_of_ne_nil _ (by simp),
          show (':' :: e.data) = [':'] ++ e.data from rfl,
          List.getLast?_append_of_ne_nil _ hedne]
        exact hlast
    | .UnaryOp op x =>
      simp [renderStable] at hs
    | .BinaryOp op l r =>
      have hsl : renderStable l = true := by
        simp only [renderStable, Bool.and_eq_true] at hs
        exact hs.1.1.1.1.2
      have hsr : renderStable r = true := by
        simp only [renderStable, Bool.and_eq_true] at hs
        exact hs.1.1.1.2
      have hsz : sizeOf (ASTNode.BinaryOp op l r) = 1 + sizeOf op + sizeOf l + sizeOf r :=
        ASTNode.BinaryOp.sizeOf_spec op l r
      have hszl : sizeOf l ≤ n - 1 := by omega
      have hszr : sizeOf r ≤ n - 1 := by omega
      have hn : n - 1 < n := by omega
      obtain ⟨⟨cl, restl, hcl, hwl, hel, hdl⟩, _⟩ := ih (n - 1) hn l hszl hsl
      obtain ⟨_, ⟨cr, hcr, hwr⟩⟩ := ih (n - 1) hn r hszr hsr
      have hdata : (astToString (.BinaryOp op l r)).data =
          (if needsParentheses l op then "(" ++ astToString l ++ ")" else astToString l).data ++
          op.data ++
          (if needsParentheses r op then "(" ++ astToString r ++ ")" else astToString r).data := by
        show (_ : String).data = _
        simp only [astToString]
        rcases needsParentheses l op <;> rcases needsParentheses r op <;>
          simp [String.data_append]
      constructor
      · by_cases hp : needsParentheses l op = true
        · have heq : (astToString (ASTNode.BinaryOp op l r)).data = '(' :: ((astToString l).data ++ [')'] ++ op.data ++ (if needsParentheses r op = true then "(" ++ astToString r ++ ")" else astToString r).data) := by
            rw [hdata, hp]
            simp [String.data_append]
          refine ⟨'(', _, heq, by decide, by decide, ?_⟩
          simp only [rendersDigit, hp, if_true]
          decide
        · have hp' : needsParentheses l op = false := by simpa using hp
          have heq : (astToString (ASTNode.BinaryOp op l r)).data = cl :: (restl ++ op.data ++ (if needsParentheses r op = true then "(" ++ astToString r ++ ")" else astToString r).data) := by
            rw [hdata, hp']
            simp only [if_false, Bool.false_eq_true]
            rw [hcl]
            simp
          refine ⟨cl, _, heq, hwl, hel, ?_⟩
          simp only [rendersDigit, hp', Bool.false_eq_true, if_false]
          exact hdl
      · by_cases hp : needsParentheses r op = true
        · refine ⟨')', ?_, by decide⟩
          rw [hdata, hp]
          simp only [if_true, String.data_append]
          rw [List.getLast?_append_of_ne_nil _ (by simp [String.data_append])]
          exact List.getLast?_concat (['('] ++ (astToString r).data)
        · have hp' : needsParentheses r op = false := by simpa using hp
          refine ⟨cr, ?_, hwr⟩
          rw [hdata, hp']
          simp only [if_false, Bool.false_eq_true]
          have hne : (astToString r).data ≠ [] := by
            intro h
            rw [h] at hcr
            simp at hcr
          rw [List.getLast?_append_of_ne_nil _ hne]
          exact hcr
    | .FunctionCall name args =>
      simp only [renderStable, Bool.and_eq_true] at hs
      obtain ⟨hgn, _⟩ := hs
      unfold goodName at hgn
      simp only [Bool.and_eq_true, decide_eq_true_eq, List.all_eq_true] at hgn
      obtain ⟨hne, hall⟩ := hgn
      rcases hnm : name.data with _ | ⟨c, rest⟩
      · exact absurd hnm hne
      · have hca : c.isAlpha = true := by
          have := hall c (by rw [hnm]; simp)
          simp only [Bool.and_eq_true, decide_eq_true_eq] at this
          exact this.1
        have hdata : (astToString (.FunctionCall name args)).data =
            name.data ++ '(' :: (argsToString args).data ++ [')'] := by
          simp [astToString, String.data_append]
        constructor
        · have heq : (astToString (.FunctionCall name args)).data = c :: (rest ++ '(' :: (argsToString args).data ++ [')']) := by
            rw [hdata, hnm]
            simp
          refine ⟨c, _, heq, isAlpha_not_ws hca, isAlpha_ne_eq hca, ?_⟩
          simp only [rendersDigit, hnm]
        · refine ⟨')', ?_, by decide⟩
          rw [hdata]
          rw [List.getLast?_append_of_ne_nil _ (by simp)]
          simp

theorem except_map_map (x : Except String (List Token)) (f g : List Token → List Token) :
    (x.map f).map g = x.map (fun l => g (f l)) := by
  cases x <;> rfl

theorem except_map_congr (x : Except String (List Token)) (f g : List Token → List Token)
    (h : ∀ l, f l = g l) : x.map f = x.map g := by
  cases x with
  | error e => rfl
  | ok l =>
    show Except.ok (f l) = Except.ok (g l)
    rw [h l]

def safeFollow (cs : List Char) : Bool :=
  match cs with
  | [] => true
  | c :: _ => decide (c = ')') || decide (c = ',') || decide (c = '+') || decide (c = '-') ||
      decide (c = '*') || decide (c = '/') || decide (c = '^')

theorem safeFollow_cases {cs : List Char} (h : safeFollow cs = true) :
    cs = [] ∨ ∃ c t, cs = c :: t ∧
      (c = ')' ∨ c = ',' ∨ c = '+' ∨ c = '-' ∨ c = '*' ∨ c = '/' ∨ c = '^') := by
  rcases cs with _ | ⟨c, t⟩
  · exact Or.inl rfl
  · refine Or.inr ⟨c, t, rfl, ?_⟩
    simp only [safeFollow, Bool.or_eq_true, decide_eq_true_eq] at h
    tauto

theorem safeFollow_numSafe {cs : List Char} (h : safeFollow cs = true) :
    headFails (fun c => c.isDigit || decide (c = '.')) cs := by
  rcases safeFollow_cases h with rfl | ⟨c, t, rfl, hc⟩
  · trivial
  · show (c.isDigit || decide (c = '.')) = false
    rcases hc with rfl | rfl | rfl | rfl | rfl | rfl | rfl <;> decide

theorem safeFollow_digitSafe {cs : List Char} (h : safeFollow cs = true) :
    headFails (fun c => c.isDigit) cs := by
  rcases safeFollow_cases h with rfl | ⟨c, t, rfl, hc⟩
  · trivial
  · show c.isDigit = false
    rcases hc with rfl | rfl | rfl | rfl | rfl | rfl | rfl <;> decide

theorem tch_step (tok : Token) (p r : List Char) (hp : p ≠ [])
    (hstep : ∀ fuel, tokenizeAux (fuel + 1) (p ++ r) =
      (tokenizeAux fuel r).map (fun ts => tok :: ts)) :
    tokenizeChars (p ++ r) = (tokenizeChars r).map (fun ts => tok :: ts) := by
  have hp1 : 1 ≤ p.length := by
    rcases p with _ | ⟨c, t⟩
    · exact absurd rfl hp
    · simp
  unfold tokenizeChars
  have hl : (p ++ r).length + 1 = (p.length + r.length) + 1 := by simp
  rw [hl, hstep (p.length + r.length),
    tokenizeAux_fuel r.length r (le_refl _) (p.length + r.length) (r.length + 1)
      (by omega) (by omega)]

theorem step_lparen (fuel : ℕ) (r : List Char) :
    tokenizeAux (fuel + 1) ('(' :: r) =
      (tokenizeAux fuel r).map (fun ts => (⟨.LPAREN, "("⟩ : Token) :: ts) := by
  conv_lhs => unfold tokenizeAux
  rw [if_neg (by decide : ¬ jsWhitespace '(' = true),
    if_neg (by rintro (h | ⟨h, -⟩) <;> exact absurd h (by decide)),
    if_neg (by decide : ¬ '(' = '"'),
    if_neg (by rintro (h | h | h | h | h) <;> exact absurd h (by decide)),
    if_pos rfl]

theorem step_rparen (fuel : ℕ) (r : List Char) :
    tokenizeAux (fuel + 1) (')' :: r) =
      (tokenizeAux fuel r).map (fun ts => (⟨.RPAREN, ")"⟩ : Token) :: ts) := by
  conv_lhs => unfold tokenizeAux
  rw [if_neg (by decide : ¬ jsWhitespace ')' = true),
    if_neg (by rintro (h | ⟨h, -⟩) <;> exact absurd h (by decide)),
    if_neg (by decide : ¬ ')' = '"'),
    if_neg (by rintro (h | h | h | h | h) <;> exact absurd h (by decide)),
    if_neg (by decide : ¬ ')' = '('), if_pos rfl]

theorem step_comma (fuel : ℕ) (r : List Char) :
    tokenizeAux (fuel + 1) (',' :: r) =
      (tokenizeAux fuel r).map (fun ts => (⟨.COMMA, ","⟩ : Token) :: ts) := by
  conv_lhs => unfold tokenizeAux
  rw [if_neg (by decide : ¬ jsWhitespace ',' = true),
    if_neg (by rintro (h | ⟨h, -⟩) <;> exact absurd h (by decide)),
    if_neg (by decide : ¬ ',' = '"'),
    if_neg (by rintro (h | h | h | h | h) <;> exact absurd h (by decide)),
    if_neg (by decide : ¬ ',' = '('), if_neg (by decide : ¬ ',' = ')'), if_pos rfl]

theorem step_colon (fuel : ℕ) (r : List Char) :
    tokenizeAux (fuel + 1) (':' :: r) =
      (tokenizeAux fuel r).map (fun ts => (⟨.COLON, ":"⟩ : Token) :: ts) := by
  conv_lhs => unfold tokenizeAux
  rw [if_neg (by decide : ¬ jsWhitespace ':' = true),
    if_neg (by rintro (h | ⟨h, -⟩) <;> exact absurd h (by decide)),
    if_neg (by decide : ¬ ':' = '"'),
    if_neg (by rintro (h | h | h | h | h) <;> exact absurd h (by decide)),
    if_neg (by decide : ¬ ':' = '('), if_neg (by decide : ¬ ':' = ')'),
    if_neg (by decide : ¬ ':' = ','), if_pos rfl]

theorem step_op (oc : Char)
    (hoc : oc = '+' ∨ oc = '-' ∨ oc = '*' ∨ oc = '/' ∨ oc = '^')
    (fuel : ℕ) (r : List Char) (hpk : oc = '-' → peekDigit r = false) :
    tokenizeAux (fuel + 1) (oc :: r) =
      (tokenizeAux fuel r).map (fun ts => (⟨.OPERATOR, String.mk [oc]⟩ : Token) :: ts) := by
  have hws : ¬ jsWhitespace oc = true := by
    rcases hoc with rfl | rfl | rfl | rfl | rfl <;> decide
  have hdig : oc.isDigit = false := by
    rcases hoc with rfl | rfl | rfl | rfl | rfl <;> decide
  have hq : ¬ oc = '"' := by
    rcases hoc with rfl | rfl | rfl | rfl | rfl <;> decide
  conv_lhs => unfold tokenizeAux
  rw [if_neg hws,
    if_neg (by
      rintro (h | ⟨hm, hp⟩)
      · rw [hdig] at h
        exact absurd h (by decide)
      · rw [hpk hm] at hp
        exact absurd hp (by decide)),
    if_neg hq, if_pos hoc]

theorem step_string (s : String) (hq : ¬ '"' ∈ s.data) (fuel : ℕ) (r : List Char) :
    tokenizeAux (fuel + 1) ('"' :: (s.data ++ '"' :: r)) =
      (tokenizeAux fuel r).map (fun ts => (⟨.STRING, s⟩ : Token) :: ts) := by
  have hst : strTail (s.data ++ '"' :: r) = some (s.data, r) := strTail_no_quote s.data r hq
  conv_lhs => unfold tokenizeAux
  rw [if_neg (by decide : ¬ jsWhitespace '"' = true),
    if_neg (by rintro (h | ⟨h, -⟩) <;> exact absurd h (by decide)),
    if_pos rfl]
  simp only [hst]

theorem step_number (v : ℚ) (hok : numTokenOK v = true) (fuel : ℕ) (r : List Char)
    (hsafe : headFails (fun c => c.isDigit || decide (c = '.')) r) :
    tokenizeAux (fuel + 1) ((numToString v).data ++ r) =
      (tokenizeAux fuel r).map (fun ts => (⟨.NUMBER, numToString v⟩ : Token) :: ts) := by
  unfold numTokenOK at hok
  simp only [Bool.and_eq_true, decide_eq_true_eq] at hok
  obtain ⟨⟨hentry, hread⟩, -⟩ := hok
  rcases hd : (numToString v).data with _ | ⟨c, rest⟩
  · rw [hd] at hentry
    exact absurd hentry (by simp [numTokenEntry])
  · rw [hd] at hentry hread
    simp only [numTokenEntry, Bool.or_eq_true, Bool.and_eq_true, decide_eq_true_eq] at hentry
    have hrn : readNumber ((c :: rest) ++ r) = (c :: rest, r) :=
      readNumber_extend (c :: rest) r hread (by simp) hsafe
    have hws : jsWhitespace c = false := by
      rcases hentry with h | ⟨rfl, -⟩
      · exact isDigit_not_ws h
      · decide
    have hcond : c.isDigit = true ∨ (c = '-' ∧ peekDigit (rest ++ r) = true) := by
      rcases hentry with h | ⟨rfl, hpk⟩
      · exact Or.inl h
      · refine Or.inr ⟨rfl, ?_⟩
        rcases rest with _ | ⟨d, rest'⟩
        · exact absurd hpk (by simp [peekDigit])
        · exact hpk
    show tokenizeAux (fuel + 1) (c :: (rest ++ r)) = _
    conv_lhs => unfold tokenizeAux
    rw [if_neg (by simp [hws]), if_pos hcond]
    simp only [show readNumber (c :: (rest ++ r)) = (c :: rest, r) from hrn]
    have hmk : String.mk (c :: rest) = numToString v := by
      rw [← hd]
    rw [hmk]

theorem refTokenOK_head (s : String) (hok : refTokenOK s = true) :
    ∃ c rest, s.data = c :: rest ∧ (c = '$' ∨ c.isAlpha = true) := by
  have hfull : cellRefMatch s.data = some (s.data, []) := by
    simpa [refTokenOK] using hok
  obtain ⟨d1, d2, ls, ds, hveq, hls, hds, hlsa, -⟩ := cellRefMatch_struct s.data hfull
  rcases d1 with _ | _
  · rcases hls' : ls with _ | ⟨c, ls'⟩
    · exact absurd hls' hls
    · refine ⟨c, ls' ++ ((if d2 then ['$'] else []) ++ ds), ?_,
        Or.inr (hlsa c (by rw [hls']; simp))⟩
      rw [hveq, hls']
      simp
  · refine ⟨'$', ls ++ ((if d2 then ['$'] else []) ++ ds), ?_, Or.inl rfl⟩
    rw [hveq]
    simp

theorem dollarAlpha_facts {c : Char} (h : c = '$' ∨ c.isAlpha = true) :
    jsWhitespace c = false ∧ c.isDigit = false ∧ ¬ c = '-' ∧ ¬ c = '"' ∧
    ¬ (c = '+' ∨ c = '-' ∨ c = '*' ∨ c = '/' ∨ c = '^') ∧ ¬ c = '(' ∧
    ¬ c = ')' ∧ ¬ c = ',' ∧ ¬ c = ':' := by
  rcases h with rfl | ha
  · exact ⟨by decide, by decide, by decide, by decide,
      by rintro (h | h | h | h | h) <;> exact absurd h (by decide), by decide, by decide,
      by decide, by decide⟩
  · refine ⟨isAlpha_not_ws ha, isAlpha_not_digit ha, ?_, ?_, ?_, ?_, ?_, ?_, ?_⟩
    · intro h
      subst h
      exact absurd ha (by decide)
    · intro h
      subst h
      exact absurd ha (by decide)
    · rintro (rfl | rfl | rfl | rfl | rfl) <;> exact absurd ha (by decide)
    · intro h
      subst h
      exact absurd ha (by decide)
    · intro h
      subst h
      exact absurd ha (by decide)
    · intro h
      subst h
      exact absurd ha (by decide)
    · intro h
      subst h
      exact absurd ha (by decide)

theorem step_cellref (s : String) (hok : refTokenOK s = true) (fuel : ℕ) (r : List Char)
    (hsafe : headFails (fun c => c.isDigit) r) :
    tokenizeAux (fuel + 1) (s.data ++ r) =
      (tokenizeAux fuel r).map (fun ts => (⟨.CELL_REF, s⟩ : Token) :: ts) := by
  have hfull : cellRefMatch s.data = some (s.data, []) := by
    simpa [refTokenOK] using hok
  have hcm : cellRefMatch (s.data ++ r) = some (s.data, r) :=
    cellRefMatch_extend s.data r hfull hsafe
  obtain ⟨c, rest, hd, hc⟩ := refTokenOK_head s hok
  obtain ⟨hws, hdig, hm, hq, hop, hlp, hrp, hcomma, hcolon⟩ := dollarAlpha_facts hc
  rw [hd] at hcm
  rw [hd]
  show tokenizeAux (fuel + 1) (c :: (rest ++ r)) = _
  conv_lhs => unfold tokenizeAux
  rw [if_neg (by simp [hws]),
    if_neg (by
      rintro (h | ⟨h, -⟩)
      · rw [hdig] at h
        exact absurd h (by decide)
      · exact hm h),
    if_neg hq, if_neg hop, if_neg hlp, if_neg hrp, if_neg hcomma, if_neg hcolon, if_pos hc]
  simp only [show cellRefMatch (c :: (rest ++ r)) = some (c :: rest, r) from hcm]
  have hmk : String.mk (c :: rest) = s := by
    rw [← hd]
  rw [hmk]

theorem goodName_parts (s : String) (hok : goodName s = true) :
    s.data ≠ [] ∧ ∀ c ∈ s.data, c.isAlpha = true ∧ c.toUpper = c := by
  unfold goodName at hok
  simp only [Bool.and_eq_true, decide_eq_true_eq, List.all_eq_true] at hok
  refine ⟨hok.1, fun c hc => ?_⟩
  have := hok.2 c hc
  simpa using this

theorem step_ident (s : String) (hok : goodName s = true) (fuel : ℕ) (r : List Char)
    (h1 : headFails Char.isAlpha r) (h2 : headFails (fun c => decide (c = '$')) r)
    (h3 : headFails Char.isDigit r) (h4 : headFails identChar r) :
    tokenizeAux (fuel + 1) (s.data ++ r) =
      (tokenizeAux fuel r).map (fun ts => (⟨.IDENTIFIER, s⟩ : Token) :: ts) := by
  obtain ⟨hne, hall⟩ := goodName_parts s hok
  have halpha : ∀ c ∈ s.data, c.isAlpha = true := fun c hc => (hall c hc).1
  obtain ⟨hcm, htw, hdw⟩ := goodName_lex s.data r hne halpha h1 h2 h3 h4
  rcases hd : s.data with _ | ⟨c, rest⟩
  · exact absurd hd hne
  · have hca : c.isAlpha = true := halpha c (by rw [hd]; simp)
    obtain ⟨hws, hdig, hm, hq, hop, hlp, hrp, hcomma, hcolon⟩ := dollarAlpha_facts (Or.inr hca)
    rw [hd] at hcm htw hdw
    show tokenizeAux (fuel + 1) (c :: (rest ++ r)) = _
    conv_lhs => unfold tokenizeAux
    rw [if_neg (by simp [hws]),
      if_neg (by
        rintro (h | ⟨h, -⟩)
        · rw [hdig] at h
          exact absurd h (by decide)
        · exact hm h),
      if_neg hq, if_neg hop, if_neg hlp, if_neg hrp, if_neg hcomma, if_neg hcolon,
      if_pos (Or.inr hca)]
    simp only [show cellRefMatch (c :: (rest ++ r)) = none from hcm]
    simp only [show (c :: (rest ++ r)).takeWhile identChar = c :: rest from htw,
      show (c :: (rest ++ r)).dropWhile identChar = r from hdw]
    have hmk : String.mk (c :: rest) = s := by
      rw [← hd]
    rw [hmk]

theorem renderStable_bin {op : String} {l r : ASTNode}
    (h : renderStable (.BinaryOp op l r) = true) :
    (op = "+" ∨ op = "-" ∨ op = "*" ∨ op = "/" ∨ op = "^") ∧
    renderStable l = true ∧ renderStable r = true ∧
    (op = "^" → renderLevel l ≠ 3) ∧
    (op ≠ "^" → renderLevel r ≠ opPrecedence op) ∧
    (op = "-" → rendersDigit r = false) := by
  simp only [renderStable, Bool.and_eq_true] at h
  obtain ⟨⟨⟨⟨⟨hA, hB⟩, hC⟩, hD⟩, hE⟩, hF⟩ := h
  refine ⟨?_, hB, hC, ?_, ?_, ?_⟩
  · simp only [Bool.or_eq_true, decide_eq_true_eq] at hA
    tauto
  · intro h1 h2
    rw [h1, h2] at hD
    exact absurd hD (by decide)
  · intro h1 h2
    rw [h2] at hE
    simp at hE
    exact h1 hE
  · intro h1
    rw [h1] at hF
    simpa using hF

theorem lexRender : ∀ (n : ℕ),
    (∀ a : ASTNode, sizeOf a ≤ n → renderStable a = true → ∀ cs, safeFollow cs = true →
      tokenizeChars ((astToString a).data ++ cs) =
        (tokenizeChars cs).map (fun ts => tokensOf a ++ ts)) ∧
    (∀ l : List ASTNode, sizeOf l ≤ n → renderStableList l = true → ∀ cs, safeFollow cs = true →
      tokenizeChars ((argsToString l).data ++ cs) =
        (tokenizeChars cs).map (fun ts => tokensOfArgs l ++ ts)) := by
  intro n
  induction n using Nat.strong_induction_on with
  | _ n ih =>
    constructor
    · intro a ha hs cs hcs
      match a with
      | .NumberN v =>
        simp only [renderStable] at hs
        have hne : (numToString v).data ≠ [] := by
          intro hnil
          unfold numTokenOK at hs
          rw [hnil] at hs
          simp [numTokenEntry] at hs
        exact tch_step ⟨.NUMBER, numToString v⟩ (numToString v).data cs hne
          (fun fuel => step_number v hs fuel cs (safeFollow_numSafe hcs))
      | .StringN s =>
        have hq : ¬ '"' ∈ s.data := by
          simpa [renderStable, strTokenOK] using hs
        have hdd : (astToString (.StringN s)).data ++ cs =
            (('"' :: s.data) ++ ['"']) ++ cs := by
          have h1 : (astToString (.StringN s)).data = ('"' :: s.data) ++ ['"'] := by
            simp [astToString, String.data_append]
          rw [h1]
        rw [hdd]
        refine tch_step ⟨.STRING, s⟩ (('"' :: s.data) ++ ['"']) cs (by simp) (fun fuel => ?_)
        have e : (('"' :: s.data) ++ ['"']) ++ cs = '"' :: (s.data ++ '"' :: cs) := by simp
        rw [e]
        exact step_string s hq fuel cs
      | .CellRef s =>
        simp only [renderStable] at hs
        obtain ⟨c, rest, hd, -⟩ := refTokenOK_head s hs
        have hne : s.data ≠ [] := by
          rw [hd]
          simp
        exact tch_step ⟨.CELL_REF, s⟩ s.data cs hne
          (fun fuel => step_cellref s hs fuel cs (safeFollow_digitSafe hcs))
      | .RangeRef s e =>
        simp only [renderStable, Bool.and_eq_true] at hs
        obtain ⟨hs1, hs2⟩ := hs
        obtain ⟨c1, r1, hd1, -⟩ := refTokenOK_head s hs1
        have hne1 : s.data ≠ [] := by
          rw [hd1]
          simp
        obtain ⟨c2, r2, hd2, -⟩ := refTokenOK_head e hs2
        have hne2 : e.data ≠ [] := by
          rw [hd2]
          simp
        have hdd : (astToString (.RangeRef s e)).data ++ cs =
            s.data ++ (':' :: (e.data ++ cs)) := by
          simp [astToString, String.data_append]
        have h1 : tokenizeChars (s.data ++ (':' :: (e.data ++ cs))) =
            (tokenizeChars (':' :: (e.data ++ cs))).map
              (fun ts => (⟨.CELL_REF, s⟩ : Token) :: ts) :=
          tch_step _ _ _ hne1 (fun fuel => step_cellref s hs1 fuel _
            (show (':').isDigit = false from by decide))
        have h2 : tokenizeChars (':' :: (e.data ++ cs)) =
            (tokenizeChars (e.data ++ cs)).map (fun ts => (⟨.COLON, ":"⟩ : Token) :: ts) :=
          tch_step _ [':'] _ (by simp) (fun fuel => step_colon fuel _)
        have h3 : tokenizeChars (e.data ++ cs) =
            (tokenizeChars cs).map (fun ts => (⟨.CELL_REF, e⟩ : Token) :: ts) :=
          tch_step _ _ _ hne2 (fun fuel => step_cellref e hs2 fuel cs (safeFollow_digitSafe hcs))
        rw [hdd, h1, h2, h3, except_map_map, except_map_map]
        refine except_map_congr _ _ _ (fun ts => ?_)
        simp [tokensOf]
      | .BinaryOp op l r =>
        obtain ⟨h5, hsl, hsr, -, -, hdash⟩ := renderStable_bin hs
        have hsz : sizeOf (ASTNode.BinaryOp op l r) = 1 + sizeOf op + sizeOf l + sizeOf r :=
          ASTNode.BinaryOp.sizeOf_spec op l r
        have hszl : sizeOf l ≤ n - 1 := by omega
        have hszr : sizeOf r ≤ n - 1 := by omega
        have hn1 : n - 1 < n := by omega
        obtain ⟨oc, hocd, hoc5⟩ : ∃ oc, op.data = [oc] ∧
            (oc = '+' ∨ oc = '-' ∨ oc = '*' ∨ oc = '/' ∨ oc = '^') := by
          rcases h5 with rfl | rfl | rfl | rfl | rfl
          · exact ⟨'+', rfl, Or.inl rfl⟩
          · exact ⟨'-', rfl, Or.inr (Or.inl rfl)⟩
          · exact ⟨'*', rfl, Or.inr (Or.inr (Or.inl rfl))⟩
          · exact ⟨'/', rfl, Or.inr (Or.inr (Or.inr (Or.inl rfl)))⟩
          · exact ⟨'^', rfl, Or.inr (Or.inr (Or.inr (Or.inr rfl)))⟩
        have hopeq : op = String.mk [oc] := by
          cases op with
          | mk d =>
            cases hocd
            rfl
        by_cases hpr : needsParentheses r op = true
        · by_cases hpl : needsParentheses l op = true
          · -- parens on both sides
            have hdd : (astToString (.BinaryOp op l r)).data ++ cs =
                '(' :: ((astToString l).data ++
                  (')' :: (oc :: ('(' :: ((astToString r).data ++ (')' :: cs)))))) := by
              simp [astToString, hpl, hpr, String.data_append, hocd]
            have hstep1 : tokenizeChars ('(' :: ((astToString l).data ++
                (')' :: (oc :: ('(' :: ((astToString r).data ++ (')' :: cs))))))) =
                (tokenizeChars ((astToString l).data ++
                  (')' :: (oc :: ('(' :: ((astToString r).data ++ (')' :: cs))))))).map
                  (fun ts => (⟨.LPAREN, "("⟩ : Token) :: ts) :=
              tch_step _ ['('] _ (by simp) (fun fuel => step_lparen fuel _)
            have hIHl := (ih (n - 1) hn1).1 l hszl hsl
              (')' :: (oc :: ('(' :: ((astToString r).data ++ (')' :: cs))))) rfl
            have hstep2 : tokenizeChars
                (')' :: (oc :: ('(' :: ((astToString r).data ++ (')' :: cs))))) =
                (tokenizeChars (oc :: ('(' :: ((astToString r).data ++ (')' :: cs))))).map
                  (fun ts => (⟨.RPAREN, ")"⟩ : Token) :: ts) :=
              tch_step _ [')'] _ (by simp) (fun fuel => step_rparen fuel _)
            have hso : tokenizeChars (oc :: ('(' :: ((astToString r).data ++ (')' :: cs)))) =
                (tokenizeChars ('(' :: ((astToString r).data ++ (')' :: cs)))).map
                  (fun ts => (⟨.OPERATOR, op⟩ : Token) :: ts) := by
              rw [hopeq]
              exact tch_step _ [oc] _ (by simp)
                (fun fuel => step_op oc hoc5 fuel _
                  (fun _ => show ('(').isDigit = false from by decide))
            have hstep3 : tokenizeChars ('(' :: ((astToString r).data ++ (')' :: cs))) =
                (tokenizeChars ((astToString r).data ++ (')' :: cs))).map
                  (fun ts => (⟨.LPAREN, "("⟩ : Token) :: ts) :=
              tch_step _ ['('] _ (by simp) (fun fuel => step_lparen fuel _)
            have hIHr := (ih (n - 1) hn1).1 r hszr hsr (')' :: cs) rfl
            have hstep4 : tokenizeChars (')' :: cs) =
                (tokenizeChars cs).map (fun ts => (⟨.RPAREN, ")"⟩ : Token) :: ts) :=
              tch_step _ [')'] _ (by simp) (fun fuel => step_rparen fuel _)
            rw [hdd, hstep1, hIHl, hstep2, hso, hstep3, hIHr, hstep4,
              except_map_map, except_map_map, except_map_map, except_map_map,
              except_map_map, except_map_map]
            refine except_map_congr _ _ _ (fun ts => ?_)
            simp [tokensOf, hpl, hpr]
          · -- parens on the right only
            have hpl' : needsParentheses l op = false := by
              simpa using hpl
            have hdd : (astToString (.BinaryOp op l r)).data ++ cs =
                (astToString l).data ++
                  (oc :: ('(' :: ((astToString r).data ++ (')' :: cs)))) := by
              simp [astToString, hpl', hpr, String.data_append, hocd]
            have hIHl := (ih (n - 1) hn1).1 l hszl hsl
              (oc :: ('(' :: ((astToString r).data ++ (')' :: cs))))
              (by rcases hoc5 with rfl | rfl | rfl | rfl | rfl <;> rfl)
            have hso : tokenizeChars (oc :: ('(' :: ((astToString r).data ++ (')' :: cs)))) =
                (tokenizeChars ('(' :: ((astToString r).data ++ (')' :: cs)))).map
                  (fun ts => (⟨.OPERATOR, op⟩ : Token) :: ts) := by
              rw [hopeq]
              exact tch_step _ [oc] _ (by simp)
                (fun fuel => step_op oc hoc5 fuel _
                  (fun _ => show ('(').isDigit = false from by decide))
            have hstep3 : tokenizeChars ('(' :: ((astToString r).data ++ (')' :: cs))) =
                (tokenizeChars ((astToString r).data ++ (')' :: cs))).map
                  (fun ts => (⟨.LPAREN, "("⟩ : Token) :: ts) :=
              tch_step _ ['('] _ (by simp) (fun fuel => step_lparen fuel _)
            have hIHr := (ih (n - 1) hn1).1 r hszr hsr (')' :: cs) rfl
            have hstep4 : tokenizeChars (')' :: cs) =
                (tokenizeChars cs).map (fun ts => (⟨.RPAREN, ")"⟩ : Token) :: ts) :=
              tch_step _ [')'] _ (by simp) (fun fuel => step_rparen fuel _)
            rw [hdd, hIHl, hso, hstep3, hIHr, hstep4,
              except_map_map, except_map_map, except_map_map, except_map_map]
            refine except_map_congr _ _ _ (fun ts => ?_)
            simp [tokensOf, hpl', hpr]
        · have hpr' : needsParentheses r op = false := by
            simpa using hpr
          have hpk : oc = '-' → peekDigit ((astToString r).data ++ cs) = false := by
            intro hoc
            have hop' : op = "-" := by
              rw [hopeq, hoc]
            have hrd : rendersDigit r = false := hdash hop'
            obtain ⟨⟨cr, restr, hcr, -, -, hcd⟩, -⟩ :=
              renderHeadLast (sizeOf r) r (le_refl _) hsr
            rw [hcr]
            show cr.isDigit = false
            rw [hcd]
            exact hrd
          by_cases hpl : needsParentheses l op = true
          · -- parens on the left only
            have hdd : (astToString (.BinaryOp op l r)).data ++ cs =
                '(' :: ((astToString l).data ++
                  (')' :: (oc :: ((astToString r).data ++ cs)))) := by
              simp [astToString, hpl, hpr', String.data_append, hocd]
            have hstep1 : tokenizeChars ('(' :: ((astToString l).data ++
                (')' :: (oc :: ((astToString r).data ++ cs))))) =
                (tokenizeChars ((astToString l).data ++
                  (')' :: (oc :: ((astToString r).data ++ cs))))).map
                  (fun ts => (⟨.LPAREN, "("⟩ : Token) :: ts) :=
              tch_step _ ['('] _ (by simp) (fun fuel => step_lparen fuel _)
            have hIHl := (ih (n - 1) hn1).1 l hszl hsl
              (')' :: (oc :: ((astToString r).data ++ cs))) rfl
            have hstep2 : tokenizeChars (')' :: (oc :: ((astToString r).data ++ cs))) =
                (tokenizeChars (oc :: ((astToString r).data ++ cs))).map
                  (fun ts => (⟨.RPAREN, ")"⟩ : Token) :: ts) :=
              tch_step _ [')'] _ (by simp) (fun fuel => step_rparen fuel _)
            have hso : tokenizeChars (oc :: ((astToString r).data ++ cs)) =
                (tokenizeChars ((astToString r).data ++ cs)).map
                  (fun ts => (⟨.OPERATOR, op⟩ : Token) :: ts) := by
              rw [hopeq]
              exact tch_step _ [oc] _ (by simp)
                (fun fuel => step_op oc hoc5 fuel _ hpk)
            have hIHr := (ih (n - 1) hn1).1 r hszr hsr cs hcs
            rw [hdd, hstep1, hIHl, hstep2, hso, hIHr,
              except_map_map, except_map_map, except_map_map, except_map_map]
            refine except_map_congr _ _ _ (fun ts => ?_)
            simp [tokensOf, hpl, hpr']
          · -- no parentheses
            have hpl' : needsParentheses l op = false := by
              simpa using hpl
            have hdd : (astToString (.BinaryOp op l r)).data ++ cs =
                (astToString l).data ++ (oc :: ((astToString r).data ++ cs)) := by
              simp [astToString, hpl', hpr', String.data_append, hocd]
            have hIHl := (ih (n - 1) hn1).1 l hszl hsl
              (oc :: ((astToString r).data ++ cs))
              (by rcases hoc5 with rfl | rfl | rfl | rfl | rfl <;> rfl)
            have hso : tokenizeChars (oc :: ((astToString r).data ++ cs)) =
                (tokenizeChars ((astToString r).data ++ cs)).map
                  (fun ts => (⟨.OPERATOR, op⟩ : Token) :: ts) := by
              rw [hopeq]
              exact tch_step _ [oc] _ (by simp)
                (fun fuel => step_op oc hoc5 fuel _ hpk)
            have hIHr := (ih (n - 1) hn1).1 r hszr hsr cs hcs
            rw [hdd, hIHl, hso, hIHr, except_map_map, except_map_map]
            refine except_map_congr _ _ _ (fun ts => ?_)
            simp [tokensOf, hpl', hpr']
      | .UnaryOp op x =>
        simp [renderStable] at hs
      | .FunctionCall name args =>
        simp only [renderStable, Bool.and_eq_true] at hs
        obtain ⟨hgn, hargs⟩ := hs
        have hsz : sizeOf (ASTNode.FunctionCall name args) = 1 + sizeOf name + sizeOf args :=
          ASTNode.FunctionCall.sizeOf_spec name args
        have hszargs : sizeOf args ≤ n - 1 := by omega
        have hn1 : n - 1 < n := by omega
        obtain ⟨hne, -⟩ := goodName_parts name hgn
        have hdd : (astToString (.FunctionCall name args)).data ++ cs =
            name.data ++ ('(' :: ((argsToString args).data ++ (')' :: cs))) := by
          simp [astToString, String.data_append]
        have hid : tokenizeChars
            (name.data ++ ('(' :: ((argsToString args).data ++ (')' :: cs)))) =
            (tokenizeChars ('(' :: ((argsToString args).data ++ (')' :: cs)))).map
              (fun ts => (⟨.IDENTIFIER, name⟩ : Token) :: ts) :=
          tch_step _ _ _ hne (fun fuel => step_ident name hgn fuel _
            (show ('(').isAlpha = false from by decide)
            (show decide ('(' = '$') = false from by decide)
            (show ('(').isDigit = false from by decide)
            (show identChar '(' = false from by decide))
        have hlp : tokenizeChars ('(' :: ((argsToString args).data ++ (')' :: cs))) =
            (tokenizeChars ((argsToString args).data ++ (')' :: cs))).map
              (fun ts => (⟨.LPAREN, "("⟩ : Token) :: ts) :=
          tch_step _ ['('] _ (by simp) (fun fuel => step_lparen fuel _)
        have hargsIH := (ih (n - 1) hn1).2 args hszargs hargs (')' :: cs) rfl
        have hrp : tokenizeChars (')' :: cs) =
            (tokenizeChars cs).map (fun ts => (⟨.RPAREN, ")"⟩ : Token) :: ts) :=
          tch_step _ [')'] _ (by simp) (fun fuel => step_rparen fuel _)
        rw [hdd, hid, hlp, hargsIH, hrp, except_map_map, except_map_map, except_map_map]
        refine except_map_congr _ _ _ (fun ts => ?_)
        simp [tokensOf]
    · intro l hl hsl cs hcs
      match l with
      | [] =>
        have hx : ∀ x : Except String (List Token),
            x.map (fun ts => tokensOfArgs [] ++ ts) = x := by
          intro x
          cases x <;> rfl
        rw [show ((argsToString ([] : List ASTNode)).data ++ cs) = cs from rfl, hx]
      | [a] =>
        simp only [renderStableList, Bool.and_eq_true] at hsl
        have hsz : sizeOf ([a] : List ASTNode) = 1 + sizeOf a + sizeOf ([] : List ASTNode) :=
          List.cons.sizeOf_spec a []
        have hn1 : n - 1 < n := by omega
        exact (ih (n - 1) hn1).1 a (by omega) hsl.1 cs hcs
      | a :: b :: t =>
        rw [show renderStableList (a :: b :: t) =
          (renderStable a && renderStableList (b :: t)) from rfl, Bool.and_eq_true] at hsl
        obtain ⟨hsa, hsbt⟩ := hsl
        have hsz : sizeOf (a :: b :: t) = 1 + sizeOf a + sizeOf (b :: t) :=
          List.cons.sizeOf_spec a (b :: t)
        have hn1 : n - 1 < n := by omega
        have hdd : (argsToString (a :: b :: t)).data ++ cs =
            (astToString a).data ++ (',' :: ((argsToString (b :: t)).data ++ cs)) := by
          simp [argsToString, String.data_append]
        have hIHa := (ih (n - 1) hn1).1 a (by omega) hsa
          (',' :: ((argsToString (b :: t)).data ++ cs)) rfl
        have hcomma : tokenizeChars (',' :: ((argsToString (b :: t)).data ++ cs)) =
            (tokenizeChars ((argsToString (b :: t)).data ++ cs)).map
              (fun ts => (⟨.COMMA, ","⟩ : Token) :: ts) :=
          tch_step _ [','] _ (by simp) (fun fuel => step_comma fuel _)
        have hIHbt := (ih (n - 1) hn1).2 (b :: t) (by omega) hsbt cs hcs
        rw [hdd, hIHa, hcomma, hIHbt, except_map_map, except_map_map]
        refine except_map_congr _ _ _ (fun ts => ?_)
        simp [tokensOfArgs]

def stopExpr (ts : List Token) : Prop :=
  match ts with
  | [] => True
  | t :: _ => ¬ (t.type = .OPERATOR ∧
      (t.value = "+" ∨ t.value = "-" ∨ t.value = "*" ∨ t.value = "/" ∨ t.value = "^"))

def stopTerm (ts : List Token) : Prop :=
  match ts with
  | [] => True
  | t :: _ => ¬ (t.type = .OPERATOR ∧ (t.value = "*" ∨ t.value = "/" ∨ t.value = "^"))

def stopFactor (ts : List Token) : Prop :=
  match ts with
  | [] => True
  | t :: _ => ¬ (t.type = .OPERATOR ∧ t.value = "^")

def noColon (ts : List Token) : Prop :=
  match ts with
  | [] => True
  | t :: _ => t.type ≠ .COLON

theorem stopExpr_stopTerm {ts : List Token} (h : stopExpr ts) : stopTerm ts := by
  cases ts with
  | nil => trivial
  | cons t r =>
    rintro ⟨h1, h2⟩
    exact h ⟨h1, by tauto⟩

theorem stopTerm_stopFactor {ts : List Token} (h : stopTerm ts) : stopFactor ts := by
  cases ts with
  | nil => trivial
  | cons t r =>
    rintro ⟨h1, h2⟩
    exact h ⟨h1, by tauto⟩

def opndTokens (x : ASTNode) (pop : String) : List Token :=
  if needsParentheses x pop then ⟨.LPAREN, "("⟩ :: tokensOf x ++ [⟨.RPAREN, ")"⟩]
  else tokensOf x

theorem tokensOf_bin (op : String) (l r : ASTNode) :
    tokensOf (.BinaryOp op l r) = opndTokens l op ++ ⟨.OPERATOR, op⟩ :: opndTokens r op := rfl

theorem opPrec_ge_one {op : String}
    (h : op = "+" ∨ op = "-" ∨ op = "*" ∨ op = "/" ∨ op = "^") : 1 ≤ opPrecedence op := by
  rcases h with rfl | rfl | rfl | rfl | rfl <;> decide

theorem opPrec_le_three (op : String) : opPrecedence op ≤ 3 := by
  unfold opPrecedence
  split
  · omega
  · split
    · omega
    · split <;> omega

theorem renderLevel_bounds {x : ASTNode} (h : renderStable x = true) :
    1 ≤ renderLevel x ∧ renderLevel x ≤ 4 := by
  cases x with
  | BinaryOp op l r =>
    have h5 := (renderStable_bin h).1
    show 1 ≤ opPrecedence op ∧ opPrecedence op ≤ 4
    exact ⟨opPrec_ge_one h5, le_trans (opPrec_le_three op) (by omega)⟩
  | NumberN v => exact ⟨by norm_num [renderLevel], by norm_num [renderLevel]⟩
  | StringN s => exact ⟨by norm_num [renderLevel], by norm_num [renderLevel]⟩
  | CellRef r => exact ⟨by norm_num [renderLevel], by norm_num [renderLevel]⟩
  | RangeRef s e => exact ⟨by norm_num [renderLevel], by norm_num [renderLevel]⟩
  | UnaryOp o xx => exact ⟨by norm_num [renderLevel], by norm_num [renderLevel]⟩
  | FunctionCall n args => exact ⟨by norm_num [renderLevel], by norm_num [renderLevel]⟩

theorem operand_split (x : ASTNode) (po : String) :
    needsParentheses x po = true ∨
    (needsParentheses x po = false ∧ opPrecedence po ≤ renderLevel x) := by
  by_cases h : needsParentheses x po = true
  · exact Or.inl h
  · have h' : needsParentheses x po = false := by simpa using h
    refine Or.inr ⟨h', ?_⟩
    cases x with
    | BinaryOp op l r =>
      simp only [needsParentheses, decide_eq_false_iff_not] at h'
      show opPrecedence po ≤ opPrecedence op
      omega
    | NumberN v => exact le_trans (opPrec_le_three po) (by norm_num [renderLevel])
    | StringN s => exact le_trans (opPrec_le_three po) (by norm_num [renderLevel])
    | CellRef r => exact le_trans (opPrec_le_three po) (by norm_num [renderLevel])
    | RangeRef s e => exact le_trans (opPrec_le_three po) (by norm_num [renderLevel])
    | UnaryOp o xx => exact le_trans (opPrec_le_three po) (by norm_num [renderLevel])
    | FunctionCall n args => exact le_trans (opPrec_le_three po) (by norm_num [renderLevel])

theorem needsParen_prec_congr (x : ASTNode) {po1 po2 : String}
    (h : opPrecedence po1 = opPrecedence po2) :
    needsParentheses x po1 = needsParentheses x po2 := by
  cases x <;> simp [needsParentheses, h]

theorem opnd_prec_congr (x : ASTNode) {po1 po2 : String}
    (h : opPrecedence po1 = opPrecedence po2) :
    opndTokens x po1 = opndTokens x po2 := by
  unfold opndTokens
  rw [needsParen_prec_congr x h]

theorem tokensOf_ne_nil (a : ASTNode) : tokensOf a ≠ [] := by
  cases a with
  | BinaryOp op l r =>
    show opndTokens l op ++ ⟨.OPERATOR, op⟩ :: opndTokens r op ≠ []
    simp
  | NumberN v => simp [tokensOf]
  | StringN s => simp [tokensOf]
  | CellRef r => simp [tokensOf]
  | RangeRef s e => simp [tokensOf]
  | UnaryOp o x => simp [tokensOf]
  | FunctionCall n args => simp [tokensOf]

theorem tokensOf_head : ∀ (n : ℕ) (a : ASTNode), sizeOf a ≤ n → renderStable a = true →
    ∃ t ts', tokensOf a = t :: ts' ∧
      (t.type = .NUMBER ∨ t.type = .STRING ∨ t.type = .CELL_REF ∨
       t.type = .IDENTIFIER ∨ t.type = .LPAREN) := by
  intro n
  induction n using Nat.strong_induction_on with
  | _ n ih =>
    intro a ha hs
    match a with
    | .NumberN v => exact ⟨_, _, rfl, Or.inl rfl⟩
    | .StringN s => exact ⟨_, _, rfl, Or.inr (Or.inl rfl)⟩
    | .CellRef s => exact ⟨_, _, rfl, Or.inr (Or.inr (Or.inl rfl))⟩
    | .RangeRef s e => exact ⟨_, _, rfl, Or.inr (Or.inr (Or.inl rfl))⟩
    | .UnaryOp o x => simp [renderStable] at hs
    | .FunctionCall name args =>
      exact ⟨_, _, rfl, Or.inr (Or.inr (Or.inr (Or.inl rfl)))⟩
    | .BinaryOp op l r =>
      obtain ⟨-, hsl, -, -, -, -⟩ := renderStable_bin hs
      have hsz : sizeOf (ASTNode.BinaryOp op l r) = 1 + sizeOf op + sizeOf l + sizeOf r :=
        ASTNode.BinaryOp.sizeOf_spec op l r
      by_cases hpl : needsParentheses l op = true
      · refine ⟨⟨.LPAREN, "("⟩,
          (tokensOf l ++ [⟨.RPAREN, ")"⟩]) ++ ⟨.OPERATOR, op⟩ :: opndTokens r op, ?_,
          Or.inr (Or.inr (Or.inr (Or.inr rfl)))⟩
        rw [tokensOf_bin]
        unfold opndTokens
        rw [if_pos hpl]
        simp
      · have hpl' : needsParentheses l op = false := by simpa using hpl
        obtain ⟨t, ts', hteq, hty⟩ := ih (n - 1) (by omega) l (by omega) hsl
        refine ⟨t, ts' ++ ⟨.OPERATOR, op⟩ :: opndTokens r op, ?_, hty⟩
        rw [tokensOf_bin]
        unfold opndTokens
        rw [if_neg (by simp [hpl']), hteq]
        simp

theorem jsToUpper_eq_self {s : String} (h : ∀ c ∈ s.data, c.toUpper = c) :
    jsToUpper s = s := by
  unfold jsToUpper
  have hmap : ∀ l : List Char, (∀ c ∈ l, c.toUpper = c) → l.map Char.toUpper = l := by
    intro l hl
    induction l with
    | nil => rfl
    | cons c t iht =>
      simp only [List.map_cons, hl c (by simp)]
      rw [iht (fun d hd => hl d (by simp [hd]))]
  rw [hmap s.data h]

def exprSpine : ASTNode → ASTNode × List (String × ASTNode)
  | .BinaryOp op l r =>
    if op = "+" ∨ op = "-" then ((exprSpine l).1, (exprSpine l).2 ++ [(op, r)])
    else (.BinaryOp op l r, [])
  | .NumberN v => (.NumberN v, [])
  | .StringN s => (.StringN s, [])
  | .CellRef s => (.CellRef s, [])
  | .RangeRef s e => (.RangeRef s e, [])
  | .UnaryOp o x => (.UnaryOp o x, [])
  | .FunctionCall n args => (.FunctionCall n args, [])

def termSpine : ASTNode → ASTNode × List (String × ASTNode)
  | .BinaryOp op l r =>
    if op = "*" ∨ op = "/" then ((termSpine l).1, (termSpine l).2 ++ [(op, r)])
    else (.BinaryOp op l r, [])
  | .NumberN v => (.NumberN v, [])
  | .StringN s => (.StringN s, [])
  | .CellRef s => (.CellRef s, [])
  | .RangeRef s e => (.RangeRef s e, [])
  | .UnaryOp o x => (.UnaryOp o x, [])
  | .FunctionCall n args => (.FunctionCall n args, [])

def spineFold (h : ASTNode) (items : List (String × ASTNode)) : ASTNode :=
  items.foldl (fun acc p => .BinaryOp p.1 acc p.2) h

def exprFlat (items : List (String × ASTNode)) : List Token :=
  items.foldr (fun p acc => ⟨.OPERATOR, p.1⟩ :: (tokensOf p.2 ++ acc)) []

def termFlat (items : List (String × ASTNode)) : List Token :=
  items.foldr (fun p acc => ⟨.OPERATOR, p.1⟩ :: (opndTokens p.2 "*" ++ acc)) []

theorem exprFlat_append (xs ys : List (String × ASTNode)) :
    exprFlat (xs ++ ys) = exprFlat xs ++ exprFlat ys := by
  induction xs with
  | nil => rfl
  | cons p t ih =>
    show (⟨.OPERATOR, p.1⟩ : Token) :: (tokensOf p.2 ++ exprFlat (t ++ ys)) =
      ((⟨.OPERATOR, p.1⟩ : Token) :: (tokensOf p.2 ++ exprFlat t)) ++ exprFlat ys
    rw [ih]
    simp

theorem termFlat_append (xs ys : List (String × ASTNode)) :
    termFlat (xs ++ ys) = termFlat xs ++ termFlat ys := by
  induction xs with
  | nil => rfl
  | cons p t ih =>
    show (⟨.OPERATOR, p.1⟩ : Token) :: (opndTokens p.2 "*" ++ termFlat (t ++ ys)) =
      ((⟨.OPERATOR, p.1⟩ : Token) :: (opndTokens p.2 "*" ++ termFlat t)) ++ termFlat ys
    rw [ih]
    simp

theorem spineFold_append (h : ASTNode) (xs ys : List (String × ASTNode)) :
    spineFold h (xs ++ ys) = spineFold (spineFold h xs) ys := by
  unfold spineFold
  rw [List.foldl_append]

theorem exprSpine_props : ∀ (n : ℕ) (a : ASTNode), sizeOf a ≤ n → renderStable a = true →
    renderStable (exprSpine a).1 = true ∧ renderLevel (exprSpine a).1 ≠ 1 ∧
    sizeOf (exprSpine a).1 ≤ sizeOf a ∧
    spineFold (exprSpine a).1 (exprSpine a).2 = a ∧
    tokensOf a = tokensOf (exprSpine a).1 ++ exprFlat (exprSpine a).2 ∧
    (∀ p ∈ (exprSpine a).2, (p.1 = "+" ∨ p.1 = "-") ∧ renderStable p.2 = true ∧
      renderLevel p.2 ≠ 1 ∧ sizeOf p.2 < sizeOf a) := by
  intro n
  induction n using Nat.strong_induction_on with
  | _ n ih =>
    intro a ha hs
    match a with
    | .NumberN v => exact ⟨hs, by norm_num [exprSpine, renderLevel], le_refl _, rfl, by simp [exprSpine, exprFlat], by simp [exprSpine]⟩
    | .StringN s => exact ⟨hs, by norm_num [exprSpine, renderLevel], le_refl _, rfl, by simp [exprSpine, exprFlat], by simp [exprSpine]⟩
    | .CellRef s => exact ⟨hs, by norm_num [exprSpine, renderLevel], le_refl _, rfl, by simp [exprSpine, exprFlat], by simp [exprSpine]⟩
    | .RangeRef s e => exact ⟨hs, by norm_num [exprSpine, renderLevel], le_refl _, rfl, by simp [exprSpine, exprFlat], by simp [exprSpine]⟩
    | .UnaryOp o x => simp [renderStable] at hs
    | .FunctionCall nm args => exact ⟨hs, by norm_num [exprSpine, renderLevel], le_refl _, rfl, by simp [exprSpine, exprFlat], by simp [exprSpine]⟩
    | .BinaryOp op l r =>
      obtain ⟨h5, hsl, hsr, -, hlevr, -⟩ := renderStable_bin hs
      have hsz : sizeOf (ASTNode.BinaryOp op l r) = 1 + sizeOf op + sizeOf l + sizeOf r :=
        ASTNode.BinaryOp.sizeOf_spec op l r
      by_cases hop : op = "+" ∨ op = "-"
      · have hprec : opPrecedence op = 1 := by
          rcases hop with rfl | rfl <;> decide
        have hne : op ≠ "^" := by
          rcases hop with rfl | rfl <;> decide
        have hse : exprSpine (.BinaryOp op l r) =
            ((exprSpine l).1, (exprSpine l).2 ++ [(op, r)]) := by
          show (if op = "+" ∨ op = "-" then ((exprSpine l).1, (exprSpine l).2 ++ [(op, r)])
            else (.BinaryOp op l r, [])) = _
          rw [if_pos hop]
        obtain ⟨ih1, ih2, ih3, ih4, ih5, ih6⟩ := ih (n - 1) (by omega) l (by omega) hsl
        rw [hse]
        have hlr : renderLevel r ≠ 1 := by
          rw [← hprec]
          exact hlevr hne
        refine ⟨ih1, ih2, by show sizeOf (exprSpine l).1 ≤ sizeOf (ASTNode.BinaryOp op l r); omega, ?_, ?_, ?_⟩
        · show spineFold (exprSpine l).1 ((exprSpine l).2 ++ [(op, r)]) = _
          rw [spineFold_append, ih4]
          rfl
        · show tokensOf (.BinaryOp op l r) =
            tokensOf (exprSpine l).1 ++ exprFlat ((exprSpine l).2 ++ [(op, r)])
          rw [tokensOf_bin]
          have hpl : needsParentheses l op = false := by
            rcases operand_split l op with h | ⟨h, -⟩
            · exfalso
              cases l with
              | BinaryOp op2 l2 r2 =>
                simp only [needsParentheses, decide_eq_true_eq] at h
                have := opPrec_ge_one (renderStable_bin hsl).1
                omega
              | NumberN v => simp [needsParentheses] at h
              | StringN s => simp [needsParentheses] at h
              | CellRef s => simp [needsParentheses] at h
              | RangeRef s e => simp [needsParentheses] at h
              | UnaryOp o xx => simp [needsParentheses] at h
              | FunctionCall nm args => simp [needsParentheses] at h
            · exact h
          have hpr : needsParentheses r op = false := by
            rcases operand_split r op with h | ⟨h, -⟩
            · exfalso
              cases r with
              | BinaryOp op2 l2 r2 =>
                simp only [needsParentheses, decide_eq_true_eq] at h
                have := opPrec_ge_one (renderStable_bin hsr).1
                omega
              | NumberN v => simp [needsParentheses] at h
              | StringN s => simp [needsParentheses] at h
              | CellRef s => simp [needsParentheses] at h
              | RangeRef s e => simp [needsParentheses] at h
              | UnaryOp o xx => simp [needsParentheses] at h
              | FunctionCall nm args => simp [needsParentheses] at h
            · exact h
          unfold opndTokens
          rw [if_neg (by simp [hpl]), if_neg (by simp [hpr]), ih5,
            exprFlat_append]
          simp [exprFlat]
        · intro p hp
          rcases List.mem_append.mp hp with hp | hp
          · obtain ⟨hp1, hp2, hp3, hp4⟩ := ih6 p hp
            exact ⟨hp1, hp2, hp3, by omega⟩
          · rcases List.mem_singleton.mp hp with rfl
            exact ⟨hop, hsr, hlr, by show sizeOf r < sizeOf (ASTNode.BinaryOp op l r); omega⟩
      · have hse : exprSpine (.BinaryOp op l r) = (.BinaryOp op l r, []) := by
          show (if op = "+" ∨ op = "-" then ((exprSpine l).1, (exprSpine l).2 ++ [(op, r)])
            else (.BinaryOp op l r, [])) = _
          rw [if_neg hop]
        rw [hse]
        have hprec : renderLevel (.BinaryOp op l r) ≠ 1 := by
          show opPrecedence op ≠ 1
          rcases h5 with rfl | rfl | rfl | rfl | rfl
          · exact absurd (Or.inl rfl) hop
          · exact absurd (Or.inr rfl) hop
          · decide
          · decide
          · decide
        exact ⟨hs, hprec, le_refl _, rfl, by simp [exprFlat], by simp⟩

theorem termSpine_props : ∀ (n : ℕ) (a : ASTNode), sizeOf a ≤ n → renderStable a = true →
    renderStable (termSpine a).1 = true ∧ renderLevel (termSpine a).1 ≠ 2 ∧
    sizeOf (termSpine a).1 ≤ sizeOf a ∧
    spineFold (termSpine a).1 (termSpine a).2 = a ∧
    (renderLevel a = 2 →
      tokensOf a = opndTokens (termSpine a).1 "*" ++ termFlat (termSpine a).2) ∧
    (∀ p ∈ (termSpine a).2, (p.1 = "*" ∨ p.1 = "/") ∧ renderStable p.2 = true ∧
      renderLevel p.2 ≠ 2 ∧ sizeOf p.2 < sizeOf a) := by
  intro n
  induction n using Nat.strong_induction_on with
  | _ n ih =>
    intro a ha hs
    match a with
    | .NumberN v => exact ⟨hs, by norm_num [termSpine, renderLevel], le_refl _, rfl, by intro h; simp [renderLevel] at h, by simp [termSpine]⟩
    | .StringN s => exact ⟨hs, by norm_num [termSpine, renderLevel], le_refl _, rfl, by intro h; simp [renderLevel] at h, by simp [termSpine]⟩
    | .CellRef s => exact ⟨hs, by norm_num [termSpine, renderLevel], le_refl _, rfl, by intro h; simp [renderLevel] at h, by simp [termSpine]⟩
    | .RangeRef s e => exact ⟨hs, by norm_num [termSpine, renderLevel], le_refl _, rfl, by intro h; simp [renderLevel] at h, by simp [termSpine]⟩
    | .UnaryOp o x => simp [renderStable] at hs
    | .FunctionCall nm args => exact ⟨hs, by norm_num [termSpine, renderLevel], le_refl _, rfl, by intro h; simp [renderLevel] at h, by simp [termSpine]⟩
    | .BinaryOp op l r =>
      obtain ⟨h5, hsl, hsr, -, hlevr, -⟩ := renderStable_bin hs
      have hsz : sizeOf (ASTNode.BinaryOp op l r) = 1 + sizeOf op + sizeOf l + sizeOf r :=
        ASTNode.BinaryOp.sizeOf_spec op l r
      by_cases hop : op = "*" ∨ op = "/"
      · have hprec : opPrecedence op = 2 := by
          rcases hop with rfl | rfl <;> decide
        have hne : op ≠ "^" := by
          rcases hop with rfl | rfl <;> decide
        have hse : termSpine (.BinaryOp op l r) =
            ((termSpine l).1, (termSpine l).2 ++ [(op, r)]) := by
          show (if op = "*" ∨ op = "/" then ((termSpine l).1, (termSpine l).2 ++ [(op, r)])
            else (.BinaryOp op l r, [])) = _
          rw [if_pos hop]
        obtain ⟨ih1, ih2, ih3, ih4, ih5, ih6⟩ := ih (n - 1) (by omega) l (by omega) hsl
        rw [hse]
        have hlr : renderLevel r ≠ 2 := by
          rw [← hprec]
          exact hlevr hne
        have hopstar : opPrecedence op = opPrecedence "*" := by
          rcases hop with rfl | rfl <;> decide
        refine ⟨ih1, ih2, by show sizeOf (termSpine l).1 ≤ sizeOf (ASTNode.BinaryOp op l r); omega, ?_, ?_, ?_⟩
        · show spineFold (termSpine l).1 ((termSpine l).2 ++ [(op, r)]) = _
          rw [spineFold_append, ih4]
          rfl
        · intro _
          show tokensOf (.BinaryOp op l r) =
            opndTokens (termSpine l).1 "*" ++ termFlat ((termSpine l).2 ++ [(op, r)])
          rw [tokensOf_bin]
          have hlcase : renderLevel l = 2 ∨ renderLevel l ≠ 2 := em _
          have hll : opndTokens l op = opndTokens (termSpine l).1 "*" ++ termFlat (termSpine l).2 := by
            rcases operand_split l op with h | ⟨h, hle⟩
            · -- parenthesized left: impossible for * / with stable l? no: level l could be 1
              -- then termSpine l = (l, []) and opndTokens l "*" = parens form
              have hts : termSpine l = (l, []) := by
                cases l with
                | BinaryOp op2 l2 r2 =>
                  simp only [needsParentheses, decide_eq_true_eq] at h
                  show (if op2 = "*" ∨ op2 = "/" then ((termSpine l2).1, (termSpine l2).2 ++ [(op2, r2)])
                    else (.BinaryOp op2 l2 r2, [])) = _
                  rw [if_neg (by
                    rintro (rfl | rfl)
                    · rw [hprec] at h
                      exact absurd h (by decide)
                    · rw [hprec] at h
                      exact absurd h (by decide))]
                | NumberN v => simp [needsParentheses] at h
                | StringN s => simp [needsParentheses] at h
                | CellRef s => simp [needsParentheses] at h
                | RangeRef s e => simp [needsParentheses] at h
                | UnaryOp o xx => simp [needsParentheses] at h
                | FunctionCall nm args => simp [needsParentheses] at h
              rw [hts]
              show opndTokens l op = opndTokens l "*" ++ termFlat []
              rw [opnd_prec_congr l hopstar]
              simp [termFlat]
            · -- unparenthesized: level l ≥ 2
              rw [hprec] at hle
              by_cases hl2 : renderLevel l = 2
              · rw [show opndTokens l op = tokensOf l from by unfold opndTokens; rw [if_neg (by simp [h])]]
                exact ih5 hl2
              · have hts : termSpine l = (l, []) := by
                  cases l with
                  | BinaryOp op2 l2 r2 =>
                    show (if op2 = "*" ∨ op2 = "/" then ((termSpine l2).1, (termSpine l2).2 ++ [(op2, r2)])
                      else (.BinaryOp op2 l2 r2, [])) = _
                    rw [if_neg (by
                      rintro (rfl | rfl)
                      · exact hl2 (by show opPrecedence "*" = 2; decide)
                      · exact hl2 (by show opPrecedence "/" = 2; decide))]
                  | NumberN v => rfl
                  | StringN s => rfl
                  | CellRef s => rfl
                  | RangeRef s e => rfl
                  | UnaryOp o xx => rfl
                  | FunctionCall nm args => rfl
                rw [hts]
                show opndTokens l op = opndTokens l "*" ++ termFlat []
                rw [opnd_prec_congr l hopstar]
                simp [termFlat]
          rw [hll, termFlat_append]
          have hrr : opndTokens r op = opndTokens r "*" := opnd_prec_congr r hopstar
          rw [hrr]
          simp [termFlat]
        · intro p hp
          rcases List.mem_append.mp hp with hp | hp
          · obtain ⟨hp1, hp2, hp3, hp4⟩ := ih6 p hp
            exact ⟨hp1, hp2, hp3, by omega⟩
          · rcases List.mem_singleton.mp hp with rfl
            exact ⟨hop, hsr, hlr, by show sizeOf r < sizeOf (ASTNode.BinaryOp op l r); omega⟩
      · have hse : termSpine (.BinaryOp op l r) = (.BinaryOp op l r, []) := by
          show (if op = "*" ∨ op = "/" then ((termSpine l).1, (termSpine l).2 ++ [(op, r)])
            else (.BinaryOp op l r, [])) = _
          rw [if_neg hop]
        rw [hse]
        have hprec : renderLevel (.BinaryOp op l r) ≠ 2 := by
          show opPrecedence op ≠ 2
          rcases h5 with rfl | rfl | rfl | rfl | rfl
          · decide
          · decide
          · exact absurd (Or.inl rfl) hop
          · exact absurd (Or.inr rfl) hop
          · decide
        refine ⟨hs, hprec, le_refl _, rfl, ?_, by simp⟩
        intro h2
        exact absurd h2 hprec

theorem termLoop_stop (left : ASTNode) (ts : List Token) (f : ℕ) (h : stopTerm ts) :
    parseTermLoopF (f + 1) left ts = .ok (left, ts) := by
  cases ts with
  | nil => rfl
  | cons t rest =>
    have heq : parseTermLoopF (f + 1) left (t :: rest) =
        if t.type = .OPERATOR ∧ (t.value = "*" ∨ t.value = "/") then
          (match parseFactorF f rest with
           | .error e => .error e
           | .ok (right, ts1) => parseTermLoopF f (.BinaryOp t.value left right) ts1)
        else .ok (left, t :: rest) := rfl
    rw [heq, if_neg (by
      rintro ⟨h1, h2⟩
      exact h ⟨h1, by tauto⟩)]

theorem exprLoop_stop (left : ASTNode) (ts : List Token) (f : ℕ) (h : stopExpr ts) :
    parseExprLoopF (f + 1) left ts = .ok (left, ts) := by
  cases ts with
  | nil => rfl
  | cons t rest =>
    have heq : parseExprLoopF (f + 1) left (t :: rest) =
        if t.type = .OPERATOR ∧ (t.value = "+" ∨ t.value = "-") then
          (match parseTermF f rest with
           | .error e => .error e
           | .ok (right, ts1) => parseExprLoopF f (.BinaryOp t.value left right) ts1)
        else .ok (left, t :: rest) := rfl
    rw [heq, if_neg (by
      rintro ⟨h1, h2⟩
      exact h ⟨h1, by tauto⟩)]

theorem termFlat_stopFactor (items : List (String × ASTNode)) (rest : List Token)
    (hops : ∀ p ∈ items, p.1 = "*" ∨ p.1 = "/")
    (hstop : stopTerm rest) (hnc : noColon rest) :
    stopFactor (termFlat items ++ rest) ∧ noColon (termFlat items ++ rest) := by
  cases items with
  | nil =>
    show stopFactor rest ∧ noColon rest
    exact ⟨stopTerm_stopFactor hstop, hnc⟩
  | cons p t =>
    have hp := hops p (List.mem_cons_self _ _)
    constructor
    · show ¬ ((⟨.OPERATOR, p.1⟩ : Token).type = .OPERATOR ∧
        (⟨.OPERATOR, p.1⟩ : Token).value = "^")
      rintro ⟨-, h2⟩
      rcases hp with h | h <;> rw [h] at h2 <;> exact absurd h2 (by decide)
    · show TokenType.OPERATOR ≠ TokenType.COLON
      decide

theorem exprFlat_stopTerm (items : List (String × ASTNode)) (rest : List Token)
    (hops : ∀ p ∈ items, p.1 = "+" ∨ p.1 = "-")
    (hstop : stopExpr rest) (hnc : noColon rest) :
    stopTerm (exprFlat items ++ rest) ∧ noColon (exprFlat items ++ rest) := by
  cases items with
  | nil =>
    show stopTerm rest ∧ noColon rest
    exact ⟨stopExpr_stopTerm hstop, hnc⟩
  | cons p t =>
    have hp := hops p (List.mem_cons_self _ _)
    constructor
    · show ¬ ((⟨.OPERATOR, p.1⟩ : Token).type = .OPERATOR ∧
        ((⟨.OPERATOR, p.1⟩ : Token).value = "*" ∨ (⟨.OPERATOR, p.1⟩ : Token).value = "/" ∨
         (⟨.OPERATOR, p.1⟩ : Token).value = "^"))
      rintro ⟨-, h2⟩
      rcases hp with h | h <;> rw [h] at h2 <;>
        rcases h2 with h2 | h2 | h2 <;> exact absurd h2 (by decide)
    · show TokenType.OPERATOR ≠ TokenType.COLON
      decide

def tsArgsTail (l : List ASTNode) : List Token :=
  l.foldr (fun a acc => ⟨.COMMA, ","⟩ :: (tokensOf a ++ acc)) []

theorem tokensOfArgs_eq : ∀ (l : List ASTNode) (a : ASTNode),
    tokensOfArgs (a :: l) = tokensOf a ++ tsArgsTail l := by
  intro l
  induction l with
  | nil =>
    intro a
    show tokensOf a = tokensOf a ++ []
    simp
  | cons b t ih =>
    intro a
    show tokensOf a ++ ⟨.COMMA, ","⟩ :: tokensOfArgs (b :: t) = _
    rw [ih b]
    rfl

theorem tsArgsTail_stopExpr (l : List ASTNode) (rest : List Token)
    (hrp : (currentTok rest).type = .RPAREN) :
    stopExpr (tsArgsTail l ++ rest) ∧ noColon (tsArgsTail l ++ rest) := by
  cases l with
  | nil =>
    show stopExpr rest ∧ noColon rest
    rcases rest with _ | ⟨t, r2⟩
    · exact ⟨trivial, trivial⟩
    · have ht : t.type = .RPAREN := hrp
      constructor
      · rintro ⟨h1, -⟩
        rw [ht] at h1
        exact absurd h1 (by decide)
      · intro h
        rw [ht] at h
        exact absurd h (by decide)
  | cons a t =>
    constructor
    · rintro ⟨h1, -⟩
      exact absurd h1 (by decide)
    · show (⟨.COMMA, ","⟩ : Token).type ≠ .COLON
      decide

theorem termLoop_run : ∀ (items : List (String × ASTNode)) (left : ASTNode)
    (rest : List Token) (fuel : ℕ),
    (∀ p ∈ items, ∀ (rest' : List Token) (fuel' : ℕ), fuel' < fuel →
      stopFactor rest' → noColon rest' →
      8 * (opndTokens p.2 "*" ++ rest').length + 2 < fuel' →
      parseFactorF fuel' (opndTokens p.2 "*" ++ rest') = .ok (p.2, rest')) →
    (∀ p ∈ items, p.1 = "*" ∨ p.1 = "/") →
    stopTerm rest → noColon rest →
    8 * (termFlat items ++ rest).length + 3 < fuel →
    parseTermLoopF fuel left (termFlat items ++ rest) = .ok (spineFold left items, rest) := by
  intro items
  induction items with
  | nil =>
    intro left rest fuel hF hops hstop hnc hfuel
    obtain ⟨f, rfl⟩ : ∃ f, fuel = f + 1 := ⟨fuel - 1, by omega⟩
    show parseTermLoopF (f + 1) left rest = .ok (left, rest)
    exact termLoop_stop left rest f hstop
  | cons p t ihl =>
    intro left rest fuel hF hops hstop hnc hfuel
    obtain ⟨f, rfl⟩ : ∃ f, fuel = f + 1 := ⟨fuel - 1, by omega⟩
    have hlen : (termFlat (p :: t) ++ rest).length =
        1 + (opndTokens p.2 "*").length + ((termFlat t).length + rest.length) := by
      simp [termFlat]
      omega
    have hlen2 : (opndTokens p.2 "*" ++ (termFlat t ++ rest)).length =
        (opndTokens p.2 "*").length + ((termFlat t).length + rest.length) := by
      simp
    have hlen3 : (termFlat t ++ rest).length = (termFlat t).length + rest.length := by
      simp
    rw [show termFlat (p :: t) ++ rest =
      (⟨.OPERATOR, p.1⟩ : Token) :: (opndTokens p.2 "*" ++ (termFlat t ++ rest)) from by
        simp [termFlat]]
    have heq : parseTermLoopF (f + 1) left
        ((⟨.OPERATOR, p.1⟩ : Token) :: (opndTokens p.2 "*" ++ (termFlat t ++ rest))) =
        if (⟨.OPERATOR, p.1⟩ : Token).type = .OPERATOR ∧
            ((⟨.OPERATOR, p.1⟩ : Token).value = "*" ∨ (⟨.OPERATOR, p.1⟩ : Token).value = "/") then
          (match parseFactorF f (opndTokens p.2 "*" ++ (termFlat t ++ rest)) with
           | .error e => .error e
           | .ok (right, ts1) =>
             parseTermLoopF f (.BinaryOp (⟨.OPERATOR, p.1⟩ : Token).value left right) ts1)
        else .ok (left, (⟨.OPERATOR, p.1⟩ : Token) :: (opndTokens p.2 "*" ++ (termFlat t ++ rest))) :=
      rfl
    rw [heq, if_pos ⟨rfl, hops p (List.mem_cons_self _ _)⟩]
    have hsf := termFlat_stopFactor t rest (fun q hq => hops q (by simp [hq])) hstop hnc
    rw [hF p (List.mem_cons_self _ _) (termFlat t ++ rest) f (by omega) hsf.1 hsf.2 (by omega)]
    show parseTermLoopF f (.BinaryOp p.1 left p.2) (termFlat t ++ rest) = _
    rw [show spineFold left (p :: t) = spineFold (.BinaryOp p.1 left p.2) t from rfl]
    exact ihl (.BinaryOp p.1 left p.2) rest f
      (fun q hq rest' fuel' hle => hF q (by simp [hq]) rest' fuel' (by omega))
      (fun q hq => hops q (by simp [hq])) hstop hnc (by omega)

theorem exprLoop_run : ∀ (items : List (String × ASTNode)) (left : ASTNode)
    (rest : List Token) (fuel : ℕ),
    (∀ p ∈ items, ∀ (rest' : List Token) (fuel' : ℕ), fuel' < fuel →
      stopTerm rest' → noColon rest' →
      8 * (tokensOf p.2 ++ rest').length + 4 < fuel' →
      parseTermF fuel' (tokensOf p.2 ++ rest') = .ok (p.2, rest')) →
    (∀ p ∈ items, p.1 = "+" ∨ p.1 = "-") →
    stopExpr rest → noColon rest →
    8 * (exprFlat items ++ rest).length + 5 < fuel →
    parseExprLoopF fuel left (exprFlat items ++ rest) = .ok (spineFold left items, rest) := by
  intro items
  induction items with
  | nil =>
    intro left rest fuel hT hops hstop hnc hfuel
    obtain ⟨f, rfl⟩ : ∃ f, fuel = f + 1 := ⟨fuel - 1, by omega⟩
    show parseExprLoopF (f + 1) left rest = .ok (left, rest)
    exact exprLoop_stop left rest f hstop
  | cons p t ihl =>
    intro left rest fuel hT hops hstop hnc hfuel
    obtain ⟨f, rfl⟩ : ∃ f, fuel = f + 1 := ⟨fuel - 1, by omega⟩
    have hlen : (exprFlat (p :: t) ++ rest).length =
        1 + (tokensOf p.2).length + ((exprFlat t).length + rest.length) := by
      simp [exprFlat]
      omega
    have hlen2 : (tokensOf p.2 ++ (exprFlat t ++ rest)).length =
        (tokensOf p.2).length + ((exprFlat t).length + rest.length) := by
      simp
    have hlen3 : (exprFlat t ++ rest).length = (exprFlat t).length + rest.length := by
      simp
    rw [show exprFlat (p :: t) ++ rest =
      (⟨.OPERATOR, p.1⟩ : Token) :: (tokensOf p.2 ++ (exprFlat t ++ rest)) from by
        simp [exprFlat]]
    have heq : parseExprLoopF (f + 1) left
        ((⟨.OPERATOR, p.1⟩ : Token) :: (tokensOf p.2 ++ (exprFlat t ++ rest))) =
        if (⟨.OPERATOR, p.1⟩ : Token).type = .OPERATOR ∧
            ((⟨.OPERATOR, p.1⟩ : Token).value = "+" ∨ (⟨.OPERATOR, p.1⟩ : Token).value = "-") then
          (match parseTermF f (tokensOf p.2 ++ (exprFlat t ++ rest)) with
           | .error e => .error e
           | .ok (right, ts1) =>
             parseExprLoopF f (.BinaryOp (⟨.OPERATOR, p.1⟩ : Token).value left right) ts1)
        else .ok (left, (⟨.OPERATOR, p.1⟩ : Token) :: (tokensOf p.2 ++ (exprFlat t ++ rest))) :=
      rfl
    rw [heq, if_pos ⟨rfl, hops p (List.mem_cons_self _ _)⟩]
    have hst := exprFlat_stopTerm t rest (fun q hq => hops q (by simp [hq])) hstop hnc
    rw [hT p (List.mem_cons_self _ _) (exprFlat t ++ rest) f (by omega) hst.1 hst.2 (by omega)]
    show parseExprLoopF f (.BinaryOp p.1 left p.2) (exprFlat t ++ rest) = _
    rw [show spineFold left (p :: t) = spineFold (.BinaryOp p.1 left p.2) t from rfl]
    exact ihl (.BinaryOp p.1 left p.2) rest f
      (fun q hq rest' fuel' hle => hT q (by simp [hq]) rest' fuel' (by omega))
      (fun q hq => hops q (by simp [hq])) hstop hnc (by omega)

theorem argsLoop_run : ∀ (l : List ASTNode) (acc : List ASTNode) (rest : List Token) (fuel : ℕ),
    (∀ a ∈ l, ∀ (rest' : List Token) (fuel' : ℕ), fuel' < fuel →
      stopExpr rest' → noColon rest' →
      8 * (tokensOf a ++ rest').length + 6 < fuel' →
      parseExpressionF fuel' (tokensOf a ++ rest') = .ok (a, rest')) →
    (currentTok rest).type = .RPAREN →
    8 * (tsArgsTail l ++ rest).length + 7 < fuel →
    parseArgsLoopF fuel acc (tsArgsTail l ++ rest) = .ok (acc ++ l, rest) := by
  intro l
  induction l with
  | nil =>
    intro acc rest fuel hE hrp hfuel
    obtain ⟨f, rfl⟩ : ∃ f, fuel = f + 1 := ⟨fuel - 1, by omega⟩
    show parseArgsLoopF (f + 1) acc rest = .ok (acc ++ [], rest)
    rw [List.append_nil]
    rcases rest with _ | ⟨t, r2⟩
    · simp [currentTok] at hrp
    · have ht : t.type = .RPAREN := hrp
      have heq : parseArgsLoopF (f + 1) acc (t :: r2) =
          if t.type = .COMMA then
            (match parseExpressionF f r2 with
             | .error e => .error e
             | .ok (a, ts1) => parseArgsLoopF f (acc ++ [a]) ts1)
          else .ok (acc, t :: r2) := rfl
      rw [heq, if_neg (by rw [ht]; decide)]
  | cons a t ihl =>
    intro acc rest fuel hE hrp hfuel
    obtain ⟨f, rfl⟩ : ∃ f, fuel = f + 1 := ⟨fuel - 1, by omega⟩
    have hta : 0 < (tokensOf a).length := List.length_pos.mpr (tokensOf_ne_nil a)
    have hlen : (tsArgsTail (a :: t) ++ rest).length =
        1 + (tokensOf a).length + ((tsArgsTail t).length + rest.length) := by
      simp [tsArgsTail]
      omega
    have hlen2 : (tokensOf a ++ (tsArgsTail t ++ rest)).length =
        (tokensOf a).length + ((tsArgsTail t).length + rest.length) := by
      simp
    have hlen3 : (tsArgsTail t ++ rest).length = (tsArgsTail t).length + rest.length := by
      simp
    rw [show tsArgsTail (a :: t) ++ rest =
      (⟨.COMMA, ","⟩ : Token) :: (tokensOf a ++ (tsArgsTail t ++ rest)) from by
        simp [tsArgsTail]]
    show (match parseExpressionF f (tokensOf a ++ (tsArgsTail t ++ rest)) with
          | Except.error e => (Except.error e : Except String (List ASTNode × List Token))
          | Except.ok (x, ts1) => parseArgsLoopF f (acc ++ [x]) ts1) =
        Except.ok (acc ++ a :: t, rest)
    have hse := tsArgsTail_stopExpr t rest hrp
    rw [hE a (List.mem_cons_self _ _) (tsArgsTail t ++ rest) f (by omega) hse.1 hse.2 (by omega)]
    show parseArgsLoopF f (acc ++ [a]) (tsArgsTail t ++ rest) = .ok (acc ++ a :: t, rest)
    rw [show acc ++ a :: t = (acc ++ [a]) ++ t from by simp]
    exact ihl (acc ++ [a]) rest f
      (fun q hq rest' fuel' hle => hE q (by simp [hq]) rest' fuel' (by omega)) hrp (by omega)

theorem renderStableList_mem : ∀ (l : List ASTNode), renderStableList l = true →
    ∀ a ∈ l, renderStable a = true := by
  intro l
  induction l with
  | nil =>
    intro _h a ha
    simp at ha
  | cons b t ih =>
    intro hsl a ha
    rw [show renderStableList (b :: t) = (renderStable b && renderStableList t) from rfl,
      Bool.and_eq_true] at hsl
    rcases List.mem_cons.mp ha with rfl | ha
    · exact hsl.1
    · exact ih hsl.2 a ha

theorem needsParen_false_of_stable_le {x : ASTNode} (hs : renderStable x = true) {po : String}
    (hle : opPrecedence po ≤ 1) : needsParentheses x po = false := by
  rcases operand_split x po with h | ⟨h, -⟩
  · exfalso
    cases x with
    | BinaryOp op l r =>
      simp only [needsParentheses, decide_eq_true_eq] at h
      have := opPrec_ge_one (renderStable_bin hs).1
      omega
    | NumberN v => simp [needsParentheses] at h
    | StringN s => simp [needsParentheses] at h
    | CellRef s => simp [needsParentheses] at h
    | RangeRef s e => simp [needsParentheses] at h
    | UnaryOp o xx => simp [needsParentheses] at h
    | FunctionCall nm args => simp [needsParentheses] at h
  · exact h

theorem opndTokens_length_pos (x : ASTNode) (po : String) :
    0 < (opndTokens x po).length := by
  unfold opndTokens
  split
  · simp
  · exact List.length_pos.mpr (tokensOf_ne_nil x)

theorem parse_master : ∀ (F : ℕ),
    (∀ (x : ASTNode) (pop : String) (rest : List Token), renderStable x = true →
      (needsParentheses x pop = true ∨ renderLevel x = 4) →
      noColon rest →
      8 * (opndTokens x pop ++ rest).length < F →
      parsePrimaryF F (opndTokens x pop ++ rest) = .ok (x, rest)) ∧
    (∀ (x : ASTNode) (pop : String) (rest : List Token), renderStable x = true →
      (needsParentheses x pop = true ∨ 3 ≤ renderLevel x) →
      stopFactor rest → noColon rest →
      8 * (opndTokens x pop ++ rest).length + 2 < F →
      parseFactorF F (opndTokens x pop ++ rest) = .ok (x, rest)) ∧
    (∀ (x : ASTNode) (pop : String) (rest : List Token), renderStable x = true →
      (needsParentheses x pop = true ∨ 2 ≤ renderLevel x) →
      stopTerm rest → noColon rest →
      8 * (opndTokens x pop ++ rest).length + 4 < F →
      parseTermF F (opndTokens x pop ++ rest) = .ok (x, rest)) ∧
    (∀ (x : ASTNode) (rest : List Token), renderStable x = true →
      stopExpr rest → noColon rest →
      8 * (tokensOf x ++ rest).length + 6 < F →
      parseExpressionF F (tokensOf x ++ rest) = .ok (x, rest)) ∧
    (∀ (l : List ASTNode) (rest : List Token), renderStableList l = true →
      (currentTok rest).type = .RPAREN →
      8 * (tokensOfArgs l ++ rest).length + 7 < F →
      parseFnArgsF F (tokensOfArgs l ++ rest) = .ok (l, rest)) := by
  intro F
  induction F using Nat.strong_induction_on with
  | _ F ih =>
    refine ⟨?_, ?_, ?_, ?_, ?_⟩
    · -- parsePrimaryF on a parenthesized-or-atomic operand stream
      intro x pop rest hs hcond hnc hfuel
      have hxlen := opndTokens_length_pos x pop
      have hlentot : (opndTokens x pop ++ rest).length =
          (opndTokens x pop).length + rest.length := by simp
      obtain ⟨f, rfl⟩ : ∃ f, F = f + 1 := ⟨F - 1, by omega⟩
      by_cases hp : needsParentheses x pop = true
      · have hlen0 : (opndTokens x pop ++ rest).length =
            1 + ((tokensOf x).length + (1 + rest.length)) := by
          simp [opndTokens, hp]
          omega
        rw [show opndTokens x pop ++ rest =
          (⟨.LPAREN, "("⟩ : Token) :: (tokensOf x ++ ((⟨.RPAREN, ")"⟩ : Token) :: rest)) from by
            simp [opndTokens, hp]]
        show (match parseExpressionF f (tokensOf x ++ ((⟨.RPAREN, ")"⟩ : Token) :: rest)) with
              | Except.error e => (Except.error e : Except String (ASTNode × List Token))
              | Except.ok (expr, ts1) =>
                match consumeTok .RPAREN ts1 with
                | Except.error e => Except.error e
                | Except.ok (_, ts2) => Except.ok (expr, ts2)) = Except.ok (x, rest)
        have hlen1 : (tokensOf x ++ ((⟨.RPAREN, ")"⟩ : Token) :: rest)).length =
            (tokensOf x).length + (1 + rest.length) := by
          simp
          omega
        have hE := (ih f (by omega)).2.2.2.1 x ((⟨.RPAREN, ")"⟩ : Token) :: rest) hs
          (by rintro ⟨h1, -⟩; exact absurd h1 (by decide))
          (by show TokenType.RPAREN ≠ TokenType.COLON; decide)
          (by omega)
        rw [hE]
        rfl
      · have h4 : renderLevel x = 4 := hcond.resolve_left hp
        have hp' : needsParentheses x pop = false := by simpa using hp
        have hopnd : opndTokens x pop = tokensOf x := by
          unfold opndTokens
          rw [if_neg (by simp [hp'])]
        rw [hopnd] at hfuel hlentot ⊢
        match x with
        | .NumberN v =>
          have hjs : jsParseFloatD (numToString v) = v := by
            simp only [renderStable] at hs
            unfold numTokenOK at hs
            simp only [Bool.and_eq_true, decide_eq_true_eq] at hs
            exact hs.2
          show Except.ok (ASTNode.NumberN (jsParseFloatD (numToString v)), rest) =
            Except.ok (ASTNode.NumberN v, rest)
          rw [hjs]
        | .StringN s => rfl
        | .CellRef s =>
          rcases rest with _ | ⟨t2, r2⟩
          · rfl
          · have ht2 : t2.type ≠ .COLON := hnc
            show (if t2.type = .COLON then
                (match consumeTok .CELL_REF r2 with
                 | Except.error e => (Except.error e : Except String (ASTNode × List Token))
                 | Except.ok (endTok, ts1) => Except.ok (.RangeRef s endTok.value, ts1))
              else Except.ok (.CellRef s, t2 :: r2)) = Except.ok (.CellRef s, t2 :: r2)
            rw [if_neg ht2]
        | .RangeRef s e => rfl
        | .BinaryOp op l r =>
          exfalso
          have hle3 : opPrecedence op ≤ 3 := opPrec_le_three op
          have h4' : opPrecedence op = 4 := h4
          omega
        | .UnaryOp o xx => simp [renderStable] at hs
        | .FunctionCall name args =>
          have hsargs : renderStableList args = true := by
            simp only [renderStable, Bool.and_eq_true] at hs
            exact hs.2
          have hgn : goodName name = true := by
            simp only [renderStable, Bool.and_eq_true] at hs
            exact hs.1
          have hlfc : (tokensOf (.FunctionCall name args)).length =
              2 + ((tokensOfArgs args).length + 1) := by
            show ((⟨.IDENTIFIER, name⟩ : Token) :: (⟨.LPAREN, "("⟩ : Token) ::
              (tokensOfArgs args ++ [(⟨.RPAREN, ")"⟩ : Token)])).length = _
            simp
            omega
          rw [show tokensOf (.FunctionCall name args) ++ rest =
            (⟨.IDENTIFIER, name⟩ : Token) :: (⟨.LPAREN, "("⟩ : Token) ::
              (tokensOfArgs args ++ ((⟨.RPAREN, ")"⟩ : Token) :: rest)) from by
              show ((⟨.IDENTIFIER, name⟩ : Token) :: (⟨.LPAREN, "("⟩ : Token) ::
                (tokensOfArgs args ++ [(⟨.RPAREN, ")"⟩ : Token)])) ++ rest = _
              simp]
          show (match parseFnArgsF f (tokensOfArgs args ++ ((⟨.RPAREN, ")"⟩ : Token) :: rest)) with
                | Except.error e => (Except.error e : Except String (ASTNode × List Token))
                | Except.ok (args', ts1) =>
                  match consumeTok .RPAREN ts1 with
                  | Except.error e => Except.error e
                  | Except.ok (_, ts2) => Except.ok (.FunctionCall (jsToUpper name) args', ts2)) =
              Except.ok (.FunctionCall name args, rest)
          have hlen1 : (tokensOfArgs args ++ ((⟨.RPAREN, ")"⟩ : Token) :: rest)).length =
              (tokensOfArgs args).length + (1 + rest.length) := by
            simp
            omega
          have hA := (ih f (by omega)).2.2.2.2 args ((⟨.RPAREN, ")"⟩ : Token) :: rest)
            hsargs rfl (by omega)
          rw [hA]
          show Except.ok (ASTNode.FunctionCall (jsToUpper name) args, rest) = _
          rw [jsToUpper_eq_self (fun c hc => ((goodName_parts name hgn).2 c hc).2)]
    · -- parseFactorF on an operand stream of level ≥ 3 (or parenthesized)
      intro x pop rest hs hcond hstop hnc hfuel
      have hxlen := opndTokens_length_pos x pop
      have hlentot : (opndTokens x pop ++ rest).length =
          (opndTokens x pop).length + rest.length := by simp
      obtain ⟨g, rfl⟩ : ∃ g, F = g + 2 := ⟨F - 2, by omega⟩
      have hprimpath : ∀ (hcond4 : needsParentheses x pop = true ∨ renderLevel x = 4),
          parseFactorF (g + 2) (opndTokens x pop ++ rest) = .ok (x, rest) := by
        intro hcond4
        have hPP := (ih g (by omega)).1 x pop rest hs hcond4 hnc (by omega)
        show (match parsePowerF (g + 1) (opndTokens x pop ++ rest) with
              | Except.error e => (Except.error e : Except String (ASTNode × List Token))
              | Except.ok (left, ts1) =>
                (match ts1 with
                 | t :: rest2 =>
                   if t.type = .OPERATOR ∧ t.value = "^" then
                     (match parseFactorF (g + 1) rest2 with
                      | Except.error e => Except.error e
                      | Except.ok (right, ts2) => Except.ok (.BinaryOp "^" left right, ts2))
                   else Except.ok (left, t :: rest2)
                 | [] => Except.ok (left, []))) = Except.ok (x, rest)
        rw [show parsePowerF (g + 1) (opndTokens x pop ++ rest) =
          parsePrimaryF g (opndTokens x pop ++ rest) from rfl, hPP]
        rcases rest with _ | ⟨t2, r2⟩
        · rfl
        · show (if t2.type = .OPERATOR ∧ t2.value = "^" then
              (match parseFactorF (g + 1) r2 with
               | Except.error e => (Except.error e : Except String (ASTNode × List Token))
               | Except.ok (right, ts2) => Except.ok (.BinaryOp "^" x right, ts2))
            else Except.ok (x, t2 :: r2)) = Except.ok (x, t2 :: r2)
          rw [if_neg hstop]
      by_cases hp : needsParentheses x pop = true
      · exact hprimpath (Or.inl hp)
      · have hge3 : 3 ≤ renderLevel x := hcond.resolve_left hp
        have hp' : needsParentheses x pop = false := by simpa using hp
        have hopnd : opndTokens x pop = tokensOf x := by
          unfold opndTokens
          rw [if_neg (by simp [hp'])]
        by_cases h4 : renderLevel x = 4
        · exact hprimpath (Or.inr h4)
        · have h3 : renderLevel x = 3 := by
            have := (renderLevel_bounds hs).2
            omega
          rw [hopnd] at hfuel hlentot ⊢
          match x, h3, hs, hstop with
          | .BinaryOp op l r, h3, hs, hstop =>
            obtain ⟨h5, hsl, hsr, hc1, -, -⟩ := renderStable_bin hs
            have hp3 : opPrecedence op = 3 := h3
            have hop : op = "^" := by
              rcases h5 with rfl | rfl | rfl | rfl | rfl <;>
                first
                  | rfl
                  | exact absurd hp3 (by decide)
            subst hop
            have hlne3 : renderLevel l ≠ 3 := hc1 rfl
            have hlcond : needsParentheses l "^" = true ∨ renderLevel l = 4 := by
              rcases operand_split l "^" with h | ⟨h, hle⟩
              · exact Or.inl h
              · right
                have he : opPrecedence "^" = 3 := by decide
                have hb := renderLevel_bounds hsl
                omega
            have hrcond : needsParentheses r "^" = true ∨ 3 ≤ renderLevel r := by
              rcases operand_split r "^" with h | ⟨h, hle⟩
              · exact Or.inl h
              · right
                have he : opPrecedence "^" = 3 := by decide
                omega
            have hllen := opndTokens_length_pos l "^"
            have hrlen := opndTokens_length_pos r "^"
            have hlen0 : (tokensOf (ASTNode.BinaryOp "^" l r)).length =
                (opndTokens l "^").length + (1 + (opndTokens r "^").length) := by
              rw [tokensOf_bin]
              simp
              omega
            rw [show tokensOf (.BinaryOp "^" l r) ++ rest =
              opndTokens l "^" ++ ((⟨.OPERATOR, "^"⟩ : Token) :: (opndTokens r "^" ++ rest)) from by
                rw [tokensOf_bin]
                simp]
            have hlen1 : (opndTokens l "^" ++
                ((⟨.OPERATOR, "^"⟩ : Token) :: (opndTokens r "^" ++ rest))).length =
                (opndTokens l "^").length + (1 + ((opndTokens r "^").length + rest.length)) := by
              simp
              omega
            have hPP := (ih g (by omega)).1 l "^"
              ((⟨.OPERATOR, "^"⟩ : Token) :: (opndTokens r "^" ++ rest)) hsl hlcond
              (by show TokenType.OPERATOR ≠ TokenType.COLON; decide)
              (by omega)
            show (match parsePowerF (g + 1)
                  (opndTokens l "^" ++ ((⟨.OPERATOR, "^"⟩ : Token) :: (opndTokens r "^" ++ rest))) with
                  | Except.error e => (Except.error e : Except String (ASTNode × List Token))
                  | Except.ok (left, ts1) =>
                    (match ts1 with
                     | t :: rest2 =>
                       if t.type = .OPERATOR ∧ t.value = "^" then
                         (match parseFactorF (g + 1) rest2 with
                          | Except.error e => Except.error e
                          | Except.ok (right, ts2) => Except.ok (.BinaryOp "^" left right, ts2))
                       else Except.ok (left, t :: rest2)
                     | [] => Except.ok (left, []))) = Except.ok (.BinaryOp "^" l r, rest)
            rw [show parsePowerF (g + 1)
              (opndTokens l "^" ++ ((⟨.OPERATOR, "^"⟩ : Token) :: (opndTokens r "^" ++ rest))) =
              parsePrimaryF g
                (opndTokens l "^" ++ ((⟨.OPERATOR, "^"⟩ : Token) :: (opndTokens r "^" ++ rest)))
              from rfl, hPP]
            show (match parseFactorF (g + 1) (opndTokens r "^" ++ rest) with
                  | Except.error e => (Except.error e : Except String (ASTNode × List Token))
                  | Except.ok (right, ts2) => Except.ok (.BinaryOp "^" l right, ts2)) =
                Except.ok (.BinaryOp "^" l r, rest)
            have hlen2 : (opndTokens r "^" ++ rest).length =
                (opndTokens r "^").length + rest.length := by simp
            have hF2 := (ih (g + 1) (by omega)).2.1 r "^" rest hsr hrcond hstop hnc (by omega)
            rw [hF2]
    · -- parseTermF on an operand stream of level ≥ 2 (or parenthesized)
      intro x pop rest hs hcond hstop hnc hfuel
      have hxlen := opndTokens_length_pos x pop
      have hlentot : (opndTokens x pop ++ rest).length =
          (opndTokens x pop).length + rest.length := by simp
      obtain ⟨f, rfl⟩ : ∃ f, F = f + 1 := ⟨F - 1, by omega⟩
      by_cases hcase : needsParentheses x pop = true ∨ 3 ≤ renderLevel x
      · have hFa := (ih f (by omega)).2.1 x pop rest hs hcase
          (stopTerm_stopFactor hstop) hnc (by omega)
        show (match parseFactorF f (opndTokens x pop ++ rest) with
              | Except.error e => (Except.error e : Except String (ASTNode × List Token))
              | Except.ok (a, ts1) => parseTermLoopF f a ts1) = Except.ok (x, rest)
        rw [hFa]
        show parseTermLoopF f x rest = Except.ok (x, rest)
        obtain ⟨g, rfl⟩ : ∃ g, f = g + 1 := ⟨f - 1, by omega⟩
        exact termLoop_stop x rest g hstop
      · push_neg at hcase
        have hp' : needsParentheses x pop = false := by simpa using hcase.1
        have h2lev : renderLevel x = 2 := by
          rcases hcond with h | h
          · exact absurd h hcase.1
          · have := hcase.2
            omega
        have hopnd : opndTokens x pop = tokensOf x := by
          unfold opndTokens
          rw [if_neg (by simp [hp'])]
        rw [hopnd] at hfuel hlentot ⊢
        obtain ⟨hsp1, hsp2, hsp3, hsp4, hsp5, hsp6⟩ := termSpine_props (sizeOf x) x (le_refl _) hs
        have htok := hsp5 h2lev
        have hheadcond : needsParentheses (termSpine x).1 "*" = true ∨
            3 ≤ renderLevel (termSpine x).1 := by
          rcases operand_split (termSpine x).1 "*" with h | ⟨h, hle⟩
          · exact Or.inl h
          · right
            have he : opPrecedence "*" = 2 := by decide
            have hb := renderLevel_bounds hsp1
            omega
        have hheadlen := opndTokens_length_pos (termSpine x).1 "*"
        have hlen0 : (tokensOf x).length =
            (opndTokens (termSpine x).1 "*").length + (termFlat (termSpine x).2).length := by
          rw [htok]
          simp
        rw [show tokensOf x ++ rest =
          opndTokens (termSpine x).1 "*" ++ (termFlat (termSpine x).2 ++ rest) from by
            rw [htok]
            simp]
        have hsf := termFlat_stopFactor (termSpine x).2 rest
          (fun q hq => (hsp6 q hq).1) hstop hnc
        have hlen1 : (opndTokens (termSpine x).1 "*" ++ (termFlat (termSpine x).2 ++ rest)).length =
            (opndTokens (termSpine x).1 "*").length +
              ((termFlat (termSpine x).2).length + rest.length) := by simp
        have hlen2 : (termFlat (termSpine x).2 ++ rest).length =
            (termFlat (termSpine x).2).length + rest.length := by simp
        have hFa := (ih f (by omega)).2.1 (termSpine x).1 "*"
          (termFlat (termSpine x).2 ++ rest) hsp1 hheadcond hsf.1 hsf.2 (by omega)
        show (match parseFactorF f
              (opndTokens (termSpine x).1 "*" ++ (termFlat (termSpine x).2 ++ rest)) with
              | Except.error e => (Except.error e : Except String (ASTNode × List Token))
              | Except.ok (a, ts1) => parseTermLoopF f a ts1) = Except.ok (x, rest)
        rw [hFa]
        show parseTermLoopF f (termSpine x).1 (termFlat (termSpine x).2 ++ rest) =
          Except.ok (x, rest)
        have hrun := termLoop_run (termSpine x).2 (termSpine x).1 rest f
          (fun q hq rest' fuel' hlt hstop' hnc' hfl =>
            (ih fuel' (by omega)).2.1 q.2 "*" rest' (hsp6 q hq).2.1
              (by
                rcases operand_split q.2 "*" with h | ⟨h, hle⟩
                · exact Or.inl h
                · right
                  have he : opPrecedence "*" = 2 := by decide
                  have hb := renderLevel_bounds (hsp6 q hq).2.1
                  have hne2 := (hsp6 q hq).2.2.1
                  omega)
              hstop' hnc' hfl)
          (fun q hq => (hsp6 q hq).1) hstop hnc (by omega)
        rw [hrun, hsp4]
    · -- parseExpressionF on a stable AST stream
      intro x rest hs hstop hnc hfuel
      have hxlen := List.length_pos.mpr (tokensOf_ne_nil x)
      have hlentot : (tokensOf x ++ rest).length = (tokensOf x).length + rest.length := by simp
      obtain ⟨f, rfl⟩ : ∃ f, F = f + 1 := ⟨F - 1, by omega⟩
      obtain ⟨hsp1, hsp2, hsp3, hsp4, hsp5, hsp6⟩ := exprSpine_props (sizeOf x) x (le_refl _) hs
      have hheadopnd : opndTokens (exprSpine x).1 "+" = tokensOf (exprSpine x).1 := by
        unfold opndTokens
        rw [if_neg (by
          simp [@needsParen_false_of_stable_le (exprSpine x).1 hsp1 "+" (by decide)])]
      have hheadlen := List.length_pos.mpr (tokensOf_ne_nil (exprSpine x).1)
      have hlen0 : (tokensOf x).length =
          (tokensOf (exprSpine x).1).length + (exprFlat (exprSpine x).2).length := by
        rw [hsp5]
        simp
      rw [show tokensOf x ++ rest =
        tokensOf (exprSpine x).1 ++ (exprFlat (exprSpine x).2 ++ rest) from by
          rw [hsp5]
          simp]
      have hst := exprFlat_stopTerm (exprSpine x).2 rest
        (fun q hq => (hsp6 q hq).1) hstop hnc
      have hlen1 : (tokensOf (exprSpine x).1 ++ (exprFlat (exprSpine x).2 ++ rest)).length =
          (tokensOf (exprSpine x).1).length +
            ((exprFlat (exprSpine x).2).length + rest.length) := by simp
      have hlen2 : (exprFlat (exprSpine x).2 ++ rest).length =
          (exprFlat (exprSpine x).2).length + rest.length := by simp
      have hT := (ih f (by omega)).2.2.1 (exprSpine x).1 "+"
        (exprFlat (exprSpine x).2 ++ rest) hsp1
        (by
          right
          have hb := renderLevel_bounds hsp1
          omega)
        hst.1 hst.2 (by rw [hheadopnd]; omega)
      rw [hheadopnd] at hT
      show (match parseTermF f (tokensOf (exprSpine x).1 ++ (exprFlat (exprSpine x).2 ++ rest)) with
            | Except.error e => (Except.error e : Except String (ASTNode × List Token))
            | Except.ok (a, ts1) => parseExprLoopF f a ts1) = Except.ok (x, rest)
      rw [hT]
      show parseExprLoopF f (exprSpine x).1 (exprFlat (exprSpine x).2 ++ rest) =
        Except.ok (x, rest)
      have hrun := exprLoop_run (exprSpine x).2 (exprSpine x).1 rest f
        (fun q hq rest' fuel' hlt hstop' hnc' hfl => by
          have hqopnd : opndTokens q.2 "+" = tokensOf q.2 := by
            unfold opndTokens
            rw [if_neg (by
              simp [@needsParen_false_of_stable_le q.2 (hsp6 q hq).2.1 "+" (by decide)])]
          have hTq := (ih fuel' (by omega)).2.2.1 q.2 "+" rest' (hsp6 q hq).2.1
            (by
              right
              have hb := renderLevel_bounds (hsp6 q hq).2.1
              have hne1 := (hsp6 q hq).2.2.1
              omega)
            hstop' hnc' (by rw [hqopnd]; exact hfl)
          rw [hqopnd] at hTq
          exact hTq)
        (fun q hq => (hsp6 q hq).1) hstop hnc (by omega)
      rw [hrun, hsp4]
    · -- parseFnArgsF on an argument-list stream followed by RPAREN
      intro l rest hsl hrp hfuel
      obtain ⟨f, rfl⟩ : ∃ f, F = f + 1 := ⟨F - 1, by omega⟩
      rcases l with _ | ⟨a, t⟩
      · show parseFnArgsF (f + 1) rest = Except.ok ([], rest)
        have heq : parseFnArgsF (f + 1) rest =
            if (currentTok rest).type = .RPAREN then .ok ([], rest)
            else (match parseExpressionF f rest with
                  | .error e => .error e
                  | .ok (a, ts1) => parseArgsLoopF f [a] ts1) := rfl
        rw [heq, if_pos hrp]
      · have hstab : renderStable a = true ∧ renderStableList t = true := by
          rw [show renderStableList (a :: t) = (renderStable a && renderStableList t) from rfl,
            Bool.and_eq_true] at hsl
          exact hsl
        have halen := List.length_pos.mpr (tokensOf_ne_nil a)
        have hlen0 : (tokensOfArgs (a :: t) ++ rest).length =
            (tokensOf a).length + ((tsArgsTail t).length + rest.length) := by
          rw [tokensOfArgs_eq]
          simp
        rw [show tokensOfArgs (a :: t) ++ rest = tokensOf a ++ (tsArgsTail t ++ rest) from by
          rw [tokensOfArgs_eq]
          simp]
        obtain ⟨t0, ts0, hteq, hty⟩ := tokensOf_head (sizeOf a) a (le_refl _) hstab.1
        have hcur : ¬ ((currentTok (tokensOf a ++ (tsArgsTail t ++ rest))).type = .RPAREN) := by
          rw [hteq]
          show ¬ t0.type = .RPAREN
          rcases hty with h | h | h | h | h <;> rw [h] <;> decide
        have heq : parseFnArgsF (f + 1) (tokensOf a ++ (tsArgsTail t ++ rest)) =
            if (currentTok (tokensOf a ++ (tsArgsTail t ++ rest))).type = .RPAREN then
              .ok ([], tokensOf a ++ (tsArgsTail t ++ rest))
            else (match parseExpressionF f (tokensOf a ++ (tsArgsTail t ++ rest)) with
                  | .error e => .error e
                  | .ok (x, ts1) => parseArgsLoopF f [x] ts1) := rfl
        rw [heq, if_neg hcur]
        have hse := tsArgsTail_stopExpr t rest hrp
        have hlen1 : (tokensOf a ++ (tsArgsTail t ++ rest)).length =
            (tokensOf a).length + ((tsArgsTail t).length + rest.length) := by simp
        have hlen2 : (tsArgsTail t ++ rest).length =
            (tsArgsTail t).length + rest.length := by simp
        have hE := (ih f (by omega)).2.2.2.1 a (tsArgsTail t ++ rest) hstab.1
          hse.1 hse.2 (by omega)
        rw [hE]
        show parseArgsLoopF f [a] (tsArgsTail t ++ rest) = Except.ok (a :: t, rest)
        have hAL := argsLoop_run t [a] rest f
          (fun q hq rest' fuel' hlt hstop' hnc' hfl =>
            (ih fuel' (by omega)).2.2.2.1 q rest'
              (renderStableList_mem t hstab.2 q hq) hstop' hnc' hfl)
          hrp (by omega)
        exact hAL

theorem tokenize_render (a : ASTNode) (hs : renderStable a = true) :
    tokenizeChars (astToString a).data = .ok (tokensOf a ++ [(⟨.EOF, ""⟩ : Token)]) := by
  have h := (lexRender (sizeOf a)).1 a (le_refl _) hs [] rfl
  rw [List.append_nil] at h
  rw [h]
  rfl

theorem parse_render (a : ASTNode) (hs : renderStable a = true) :
    parseTokens (tokensOf a ++ [(⟨.EOF, ""⟩ : Token)]) = .ok a := by
  have hE := (parse_master (8 * (tokensOf a ++ [(⟨.EOF, ""⟩ : Token)]).length + 16)).2.2.2.1
    a [(⟨.EOF, ""⟩ : Token)] hs
    (by rintro ⟨h1, -⟩; exact absurd h1 (by decide))
    (by show TokenType.EOF ≠ TokenType.COLON; decide)
    (by omega)
  unfold parseTokens
  rw [hE]
  rfl

def stripEq (l : List Char) : List Char :=
  match l with
  | '=' :: r => r
  | _ => l

theorem parseFormula_eq (s : String) : parseFormula s =
    match tokenizeChars (trimChars (stripEq (trimChars s.data))) with
    | .error e => .error e
    | .ok ts => parseTokens ts := rfl

theorem stripEq_ne {c : Char} (rest : List Char) (hc : c ≠ '=') :
    stripEq (c :: rest) = c :: rest := by
  unfold stripEq
  split
  · next r heq =>
    rw [List.cons.injEq] at heq
    exact absurd heq.1 hc
  · rfl

theorem parseFormula_render (a : ASTNode) (hs : renderStable a = true) :
    parseFormula (astToString a) = .ok a := by
  obtain ⟨⟨c, rest, hcr, hwc, hce, -⟩, ⟨d, hld, hwd⟩⟩ :=
    renderHeadLast (sizeOf a) a (le_refl _) hs
  have htrim : trimChars (astToString a).data = (astToString a).data :=
    trimChars_eq_self (by rw [hcr]; rfl) hld hwc hwd
  rw [parseFormula_eq, htrim, hcr, stripEq_ne rest hce, ← hcr, htrim,
    tokenize_render a hs]
  show parseTokens (tokensOf a ++ [(⟨.EOF, ""⟩ : Token)]) = Except.ok a
  exact parse_render a hs

/-- C3 counterexample: the formula "A1/(B1*C1)" parses to the AST
/(A1, *(B1, C1)), but the serializer renders it as "A1/B1*C1" because
needsParentheses does not parenthesize a right operand of equal precedence;
that string re-parses left-associatively to *(/(A1, B1), C1), a different AST,
so parse(render(parse(f))) ≠ parse(f). -/
theorem C3_counterexample :
    parseFormula "A1/(B1*C1)" =
      .ok (.BinaryOp "/" (.CellRef "A1")
        (.BinaryOp "*" (.CellRef "B1") (.CellRef "C1"))) ∧
    astToString (.BinaryOp "/" (.CellRef "A1")
        (.BinaryOp "*" (.CellRef "B1") (.CellRef "C1"))) = "A1/B1*C1" ∧
    parseFormula "A1/B1*C1" =
      .ok (.BinaryOp "*" (.BinaryOp "/" (.CellRef "A1") (.CellRef "B1"))
        (.CellRef "C1")) ∧
    (ASTNode.BinaryOp "*" (.BinaryOp "/" (.CellRef "A1") (.CellRef "B1"))
        (.CellRef "C1")) ≠
      ASTNode.BinaryOp "/" (.CellRef "A1")
        (.BinaryOp "*" (.CellRef "B1") (.CellRef "C1")) := by
  refine ⟨rfl, rfl, rfl, ?_⟩
  intro h
  injection h with h1 h2 h3
  exact absurd h1 (by decide)

/-- C3 (amended): the round-trip parse(render(parse(f))) = parse(f) holds for
every formula f whose parsed AST is render-stable, i.e. whenever the
serializer's output needs no parentheses beyond those needsParentheses inserts:
no ^ chained on the left of ^, no unparenthesized right operand of equal
precedence under + - * /, and no unary-minus-style ambiguity; under that
condition parseFormula (astToString a) = .ok a. -/
theorem C3_amended (f : String) (a : ASTNode)
    (hp : parseFormula f = .ok a) (hs : renderStable a = true) :
    parseFormula (astToString a) = .ok a :=
  parseFormula_render a hs

theorem C3_amended_witness :
    parseFormula "=A1*B1+C1" =
      .ok (.BinaryOp "+" (.BinaryOp "*" (.CellRef "A1") (.CellRef "B1"))
        (.CellRef "C1")) ∧
    renderStable (.BinaryOp "+" (.BinaryOp "*" (.CellRef "A1") (.CellRef "B1"))
        (.CellRef "C1")) = true ∧
    parseFormula (astToString (.BinaryOp "+"
        (.BinaryOp "*" (.CellRef "A1") (.CellRef "B1")) (.CellRef "C1"))) =
      .ok (.BinaryOp "+" (.BinaryOp "*" (.CellRef "A1") (.CellRef "B1"))
        (.CellRef "C1")) :=
  ⟨rfl, by decide,
    C3_amended "=A1*B1+C1"
      (.BinaryOp "+" (.BinaryOp "*" (.CellRef "A1") (.CellRef "B1"))
        (.CellRef "C1")) rfl (by decide)⟩

end ExcelLite
